import Mathlib

/-!
# Document assembly of the ksonnet library generator

A shallow embedding of `gen/ksonnet/document.go` (package `ksonnet`) and the
properties of its grouping and assembly pipeline.

Conventions of the embedding.

* Go strings are Lean strings.  `sort.Strings` orders strings bytewise; for
  well-formed UTF-8 this is the lexicographic order of the code points, which
  is the order `strLE` / `strLT` below.
* A Go `map[string]T` is a list of key/value pairs with pairwise distinct keys
  (`GoMap`).  The list order stands for one possible iteration order of the
  map; the code never lets a result depend on it, which is proved where it
  matters.
* A Go function returning `(value, error)` returns a pair whose second
  component is `none` for a nil error.  A nil slice is the empty list, a nil
  map or nil interface value is `none`.
* Objects reached through pointers are modelled by value: the state of the
  object after a call is returned next to the error.
-/

namespace Ksonnet

/-! ## Strings and `sort.Strings` -/

/-- The order of `sort.Strings`: lexicographic comparison of the characters. -/
def strLE (a b : String) : Prop := a.data ≤ b.data

/-- The strict order of Go's `<` on strings. -/
def strLT (a b : String) : Prop := a.data < b.data

instance : DecidableRel strLE := fun a b => inferInstanceAs (Decidable (a.data ≤ b.data))

instance : DecidableRel strLT := fun a b => inferInstanceAs (Decidable (a.data < b.data))

instance : IsTotal String strLE := ⟨fun a b => le_total a.data b.data⟩

instance : IsTrans String strLE :=
  ⟨fun _ _ _ h₁ h₂ => le_trans (α := List Char) h₁ h₂⟩

/-- The effect of `sort.Strings(keys)`: the slice in ascending order. -/
def sortStrings (keys : List String) : List String :=
  keys.insertionSort strLE

/-! ## Errors (`github.com/pkg/errors`) -/

/-- An error value: a fresh error or an error wrapped with a context message. -/
inductive Error where
  | new (msg : String)
  | wrap (cause : Error) (msg : String)
  deriving DecidableEq, Repr

/-- `err.Error()`: a wrapped error prints as `msg: cause`. -/
def Error.message : Error → String
  | .new msg => msg
  | .wrap cause msg => msg ++ ": " ++ cause.message

/-- `err.Cause()` unwrapped one level. -/
def Error.cause : Error → Option Error
  | .new _ => none
  | .wrap cause _ => some cause

/-! ## Go maps -/

/-- A `map[string]β`: key/value pairs with distinct keys, in some iteration order. -/
abbrev GoMap (β : Type) := List (String × β)

namespace GoMap

variable {β : Type}

/-- The lookup `m[k]` with its `ok` flag. -/
def get : GoMap β → String → Option β
  | [], _ => none
  | (k', v) :: rest, k => if k' = k then some v else get rest k

/-- The assignment `m[k] = v`. -/
def set : GoMap β → String → β → GoMap β
  | [], k, v => [(k, v)]
  | (k', v') :: rest, k, v => if k' = k then (k, v) :: rest else (k', v') :: set rest k v

/-- The keys met by `for k := range m`. -/
def keys (m : GoMap β) : List String := m.map Prod.fst

end GoMap

/-! ## Records, versions and groups -/

/-- Modelled from the spec: the `Object` interface of the package (implemented by
`Type` and `Field`, declared outside `document.go`), reduced to the attributes
the spec lists for a record: kind, group, version and description. -/
structure Object where
  kind : String
  group : String
  version : String
  description : String
  deriving DecidableEq, Repr

/-- The method `Group()` of a record. -/
def Object.Group (res : Object) : String := res.group

/-- The method `Kind()` of a record. -/
def Object.Kind (res : Object) : String := res.kind

/-- The method `Description()` of a record. -/
def Object.Description (res : Object) : String := res.description

/-- Modelled from the spec: a `Version` of a group (declared outside
`document.go`): its name and the records declared under it, in insertion order. -/
structure Version where
  name : String
  resources : List Object
  deriving DecidableEq, Repr

/-- Modelled from the spec: a `Group` (declared outside `document.go`): its name
and its version buckets, in the order the versions were first seen. -/
structure Group where
  name : String
  versions : List Version
  deriving DecidableEq, Repr

/-- Modelled from the spec: `NewGroup(name)`, a group without versions. -/
def NewGroup (name : String) : Group := { name := name, versions := [] }

/-- The method `Name()` of a group. -/
def Group.Name (g : Group) : String := g.name

/-- Appends a record to the bucket of its version, creating the bucket at the
end when the version is new. -/
def addToVersions (res : Object) : List Version → List Version
  | [] => [{ name := res.version, resources := [res] }]
  | v :: rest =>
    if v.name = res.version then { v with resources := v.resources ++ [res] } :: rest
    else v :: addToVersions res rest

/-- Modelled from the spec: `g.AddResource(res)` appends the record under the
bucket of its version name inside the group, keeping first-seen order within a
version. -/
def Group.AddResource (g : Group) (res : Object) : Group :=
  { g with versions := addToVersions res g.versions }

/-- Inserts a version into a list ordered by version name. -/
def insertVersion (v : Version) : List Version → List Version
  | [] => [v]
  | w :: rest => if strLE v.name w.name then v :: w :: rest else w :: insertVersion v rest

/-- Modelled from the spec: `g.Versions()` yields the versions of the group in
lexicographic order of their names. -/
def Group.Versions (g : Group) : List Version :=
  g.versions.foldr insertVersion []

/-- The method `Name()` of a version. -/
def Version.Name (v : Version) : String := v.name

/-- Modelled from the spec: `v.APIObjects()` yields the records of the version in
insertion order. -/
def Version.APIObjects (v : Version) : List Object := v.resources

/-! ## Grouping (`Document.groups`) -/

/-- The first loop of `Document.groups`: every record is added to the group of
its group name, which is created on first use. -/
def groupsLoop : GoMap Group → List Object → GoMap Group
  | gMap, [] => gMap
  | gMap, res :: rest =>
    let name := res.Group
    let g := match gMap.get name with
      | some g => g
      | none => NewGroup name
    groupsLoop (gMap.set name (g.AddResource res)) rest

/-- The last loop of `Document.groups`: the groups of the map in the order of the
sorted names (a name taken from the map is always found in it). -/
def collectGroups (gMap : GoMap Group) (groupNames : List String) : List Group :=
  groupNames.filterMap (fun name => gMap.get name)

/-- The function `Document.groups`: the records grouped by group name, the
groups in ascending order of their names; the error is always nil. -/
def groups (resources : List Object) : List Group × Option Error :=
  let gMap := groupsLoop [] resources
  let groupNames := sortStrings gMap.keys
  (collectGroups gMap groupNames, none)

/-! ## Tree nodes (package `nodemaker`) -/

namespace nm

/-- The kind of an object key: a plain field, a `local` binding or an inherited
(`+:`) field. -/
inductive KeyCategory where
  | field
  | localKey
  | inherited
  deriving DecidableEq, Repr

/-- Modelled from the spec: a key of the `nodemaker` package (not part of
`document.go`): a name, its category and an optional descriptive annotation. -/
structure Key where
  name : String
  category : KeyCategory
  comment : Option String
  deriving DecidableEq, Repr

/-- Modelled from the spec: the tree nodes of the `nodemaker` package (not part
of `document.go`) that the assembler builds: an object with keyed children in
attachment order, an import of another unit, a string value. -/
inductive Noder where
  | object (fields : List (Key × Noder))
  | importNode (file : String)
  | stringDouble (text : String)

/-- The fields of an `*nm.Object`: its keyed children in attachment order. -/
abbrev Object := List (Key × Noder)

/-- An option of `NewKey`: `KeyOptComment(text)`. -/
inductive KeyOpt where
  | comment (text : String)
  deriving DecidableEq, Repr

/-- Modelled from the spec: `KeyOptComment(text)` annotates the key with the text
when it is non-empty. -/
def KeyOptComment (text : String) : KeyOpt := .comment text

/-- Applies one key option. -/
def applyKeyOpt (k : Key) : KeyOpt → Key
  | .comment text => if text = "" then k else { k with comment := some text }

/-- Modelled from the spec: `NewKey(name, opts...)`, a plain key. -/
def NewKey (name : String) (opts : List KeyOpt) : Key :=
  opts.foldl applyKeyOpt { name := name, category := .field, comment := none }

/-- Modelled from the spec: `LocalKey(name)`, a key of a local binding. -/
def LocalKey (name : String) : Key :=
  { name := name, category := .localKey, comment := none }

/-- Modelled from the spec: `InheritedKey(name)`, a key of an inherited field. -/
def InheritedKey (name : String) : Key :=
  { name := name, category := .inherited, comment := none }

/-- Modelled from the spec: `NewObject()`, an object without children. -/
def NewObject : Object := []

/-- Modelled from the spec: `NewImport(file)`, an import reference to a unit file. -/
def NewImport (file : String) : Noder := .importNode file

/-- Modelled from the spec: `o.Set(key, value)` sets a keyed child: a new key name
is attached after the existing children, an existing key name has its slot
overwritten (last write wins). -/
def Object.Set : Object → Key → Noder → Object
  | [], key, value => [(key, value)]
  | (k, v) :: rest, key, value =>
    if k.name = key.name then (key, value) :: rest else (k, v) :: Object.Set rest key value

/-- Modelled from the spec: `o.Set0(key, value)`, the variant of `Set` without an
error result. -/
def Object.Set0 (o : Object) (key : Key) (value : Noder) : Object := o.Set key value

/-- The child stored under a key name. -/
def Object.child : Object → String → Option (Key × Noder)
  | [], _ => none
  | (k, v) :: rest, name => if k.name = name then some (k, v) else Object.child rest name

/-- The key names of the children, in attachment order. -/
def Object.keyNames (o : Object) : List String := o.map (fun kv => kv.1.name)

/-- Whether a node is an import of the given file. -/
def Noder.isImportOf (file : String) : Noder → Bool
  | .importNode f => f = file
  | _ => false

/-- Whether a node is an import reference. -/
def Noder.isImport : Noder → Bool
  | .importNode _ => true
  | _ => false

/-- The children of an object that are import references. -/
def Object.imports (o : Object) : List (Key × Noder) := o.filter (fun kv => kv.2.isImport)

/-- The children of an object that import the given file. -/
def Object.importsOf (o : Object) (file : String) : List (Key × Noder) :=
  o.filter (fun kv => kv.2.isImportOf file)

mutual
/-- A value of a Go `map[string]interface{}` literal. -/
inductive MapValue where
  | str (s : String)
  | map (entries : MapEntries)
  | unsupported

/-- The entries of a Go `map[string]interface{}` literal. -/
inductive MapEntries where
  | nil
  | cons (key : String) (value : MapValue) (rest : MapEntries)
end

/-- Inserts a child into children ordered by key name. -/
def insertField (kv : Key × Noder) : List (Key × Noder) → List (Key × Noder)
  | [] => [kv]
  | w :: rest => if strLE kv.1.name w.1.name then kv :: w :: rest else w :: insertField kv rest

/-- The children in ascending order of their key names. -/
def sortFields (fs : List (Key × Noder)) : List (Key × Noder) :=
  fs.foldr insertField []

mutual
/-- Modelled from the spec: the node of one value of the metadata map: a string
value or a nested block; any other value is an error. -/
def nodeOfValue : MapValue → Except Error Noder
  | .str s => .ok (.stringDouble s)
  | .map entries =>
    match fieldsOfEntries entries with
    | .ok fs => .ok (.object (sortFields fs))
    | .error err => .error err
  | .unsupported => .error (.new "unsupported type")

/-- The children built from the entries of a map, one child per entry. -/
def fieldsOfEntries : MapEntries → Except Error (List (Key × Noder))
  | .nil => .ok []
  | .cons key value rest =>
    match nodeOfValue value with
    | .error err => .error err
    | .ok n =>
      match fieldsOfEntries rest with
      | .error err => .error err
      | .ok fs => .ok ((NewKey key [], n) :: fs)
end

/-- Modelled from the spec: `KVFromMap(m)` builds the block of a map (package
`nodemaker`): one child per entry, keyed by the entry's key, in ascending
order of the keys so that the block does not depend on map iteration order. -/
def KVFromMap (m : MapEntries) : Option Object × Option Error :=
  match fieldsOfEntries m with
  | .ok fs => (some (sortFields fs), none)
  | .error err => (none, some err)

end nm


/-! ## The document -/

/-- Modelled from the spec: the catalog collaborator (declared outside
`document.go`): the static title and maintainer, the results of `Version()` and
`Checksum()`, and the results of the retrieval calls `Types()` and `Fields()`. -/
structure Catalog where
  title : String
  maintainer : String
  apiVersion : String
  checksum : String
  types : List Object × Option Error
  fields : List Object × Option Error

/-- The method `Version()` of the catalog. -/
def Catalog.Version (c : Catalog) : String := c.apiVersion

/-- The method `Checksum()` of the catalog. -/
def Catalog.Checksum (c : Catalog) : String := c.checksum

/-- The method `Types()` of the catalog. -/
def Catalog.Types (c : Catalog) : List Object × Option Error := c.types

/-- The method `Fields()` of the catalog. -/
def Catalog.Fields (c : Catalog) : List Object × Option Error := c.fields

/-- Modelled from the spec: the provenance record passed to `Nodes` (declared
outside `document.go`): the generator's vendor and version. -/
structure Metadata where
  Vendor : String
  Version : String

/-- The type `renderNodeFn`: the node-building function for one record; it
yields the node of the kind or an error. -/
abbrev renderNodeFn := Catalog → Object → Except Error nm.Object

/-- The fields of `Document` that the render stages read: the catalog and the
functions defined to aid testing.  `renderFn` returns the state of the root
object it was given next to its error. -/
structure DocumentBase where
  catalog : Catalog
  typesFn : List Object × Option Error
  fieldsFn : List Object × Option Error
  renderFn : renderNodeFn → Catalog → nm.Object → Group → nm.Object × Option Error
  objectNodeFn : renderNodeFn

/-- The struct `Document`: the fields above and the two render stages, which
receive the document. -/
structure Document extends DocumentBase where
  renderGroups : DocumentBase → Option (GoMap nm.Noder) × Option Error
  renderHiddenGroups : DocumentBase → Option nm.Noder × Option Error

/-- The method `Document.Groups`: the groups of the full-schema types. -/
def Groups (d : DocumentBase) : List Group × Option Error :=
  match d.typesFn with
  | (_, some err) => ([], some (.wrap err "retrieve resources"))
  | (resources, none) => groups resources

/-- The method `Document.HiddenGroups`: the groups of the field-only records. -/
def HiddenGroups (d : DocumentBase) : List Group × Option Error :=
  match d.fieldsFn with
  | (_, some err) => ([], some (.wrap err "retrieve types"))
  | (resources, none) => groups resources

/-! ## Rendering -/

/-- Modelled from the spec: `version.Node()`, the empty namespace node of a
version. -/
def Version.Node (_v : Version) : nm.Object := nm.NewObject

/-- The inner loop of `render`: the node of every record of a version is built and
attached to the version node under the record's kind. -/
def renderObjects (fn : renderNodeFn) (catalog : Catalog) :
    nm.Object → List Object → nm.Object × Option Error
  | versionNode, [] => (versionNode, none)
  | versionNode, apiObject :: rest =>
    match fn catalog apiObject with
    | .error err => (versionNode, some (.wrap err ("create node " ++ apiObject.Kind)))
    | .ok objectNode =>
      renderObjects fn catalog
        (versionNode.Set (nm.NewKey apiObject.Kind [nm.KeyOptComment apiObject.Description])
          (.object objectNode)) rest

/-- The outer loop of `render`: every version node is built and then attached to
the root under the version's name. -/
def renderVersions (fn : renderNodeFn) (catalog : Catalog) :
    nm.Object → List Version → nm.Object × Option Error
  | o, [] => (o, none)
  | o, version :: rest =>
    match renderObjects fn catalog version.Node version.APIObjects with
    | (_, some err) => (o, some err)
    | (versionNode, none) =>
      renderVersions fn catalog (o.Set (nm.NewKey version.Name []) (.object versionNode)) rest

/-- The function `render`: renders a group into the root object `o`. -/
def render (fn : renderNodeFn) (catalog : Catalog) (o : nm.Object) (group : Group) :
    nm.Object × Option Error :=
  renderVersions fn catalog o group.Versions

/-- The loop of `renderGroups`: one fresh root per group, stored under the group's
name. -/
def renderGroupsLoop (d : DocumentBase) :
    GoMap nm.Noder → List Group → Option (GoMap nm.Noder) × Option Error
  | out, [] => (some out, none)
  | out, g :: rest =>
    match d.renderFn d.objectNodeFn d.catalog nm.NewObject g with
    | (_, some err) => (none, some (.wrap err "render groups"))
    | (o, none) => renderGroupsLoop d (out.set g.Name (.object o)) rest

/-- The function `renderGroups`: the map from group name to the group's root. -/
def renderGroups (d : DocumentBase) : Option (GoMap nm.Noder) × Option Error :=
  match Groups d with
  | (_, some err) => (none, some (.wrap err "retrieve groups"))
  | (gs, none) => renderGroupsLoop d [] gs

/-- The loop of `renderHiddenGroups`: one fresh root per group, attached to the
shared root under the group's name. -/
def renderHiddenGroupsLoop (d : DocumentBase) :
    nm.Object → List Group → Option nm.Noder × Option Error
  | con, [] => (some (.object con), none)
  | con, g :: rest =>
    match d.renderFn d.objectNodeFn d.catalog nm.NewObject g with
    | (_, some err) => (none, some (.wrap err "render hidden groups"))
    | (o, none) => renderHiddenGroupsLoop d (con.Set (nm.NewKey g.Name []) (.object o)) rest

/-- The function `renderHiddenGroups`: the shared root of the hidden groups. -/
def renderHiddenGroups (d : DocumentBase) : Option nm.Noder × Option Error :=
  match HiddenGroups d with
  | (_, some err) => (none, some (.wrap err "retrieve hidden groups"))
  | (gs, none) => renderHiddenGroupsLoop d nm.NewObject gs

/-- The document that `NewDocument` builds for a catalog: it uses the catalog's
retrieval calls and the production stages.  The function `apiObjectNode`,
declared outside `document.go`, is a parameter. -/
def newDocument (apiObjectNode : renderNodeFn) (catalog : Catalog) : Document :=
  { catalog := catalog
    typesFn := catalog.Types
    fieldsFn := catalog.Fields
    renderFn := render
    renderGroups := renderGroups
    renderHiddenGroups := renderHiddenGroups
    objectNodeFn := apiObjectNode }

/-- The function `NewDocument`: a nil catalog is rejected, otherwise the document
above is returned. -/
def NewDocument (apiObjectNode : renderNodeFn) (catalog : Option Catalog) :
    Option Document × Option Error :=
  match catalog with
  | none => (none, some (.new "catalog is nil"))
  | some catalog => (some (newDocument apiObjectNode catalog), none)

/-! ## Assembly (`Document.Nodes`) -/

/-- The function `mapKeys`: the keys of the map, sorted. -/
def mapKeys (m : GoMap nm.Noder) : List String :=
  sortStrings m.keys

/-- What a call of `Nodes` does: it returns a map and an error, or it panics. -/
inductive NodesOutcome where
  | returned (files : Option (GoMap nm.Noder)) (err : Option Error)
  | panicked

/-- The first loop of `Nodes`: every value of the map is asserted to be an
`*nm.Object` and gets the local key `hidden`; the result is `none` when an
assertion fails. -/
def attachHidden : GoMap nm.Noder → Option (GoMap nm.Noder)
  | [] => some []
  | (k, .object g) :: rest =>
    match attachHidden rest with
    | some rest' =>
      some ((k, .object (nm.Object.Set0 g (nm.LocalKey "hidden") (nm.NewImport "_hidden.libsonnet"))) :: rest')
    | none => none
  | (_, _) :: _ => none

/-- The second loop of `Nodes`: one import per name is set on the aggregate root. -/
def attachImports (main : nm.Object) (names : List String) : nm.Object :=
  names.foldl (fun main name => main.Set (nm.NewKey name []) (nm.NewImport (name ++ ".libsonnet"))) main

/-- The metadata map literal of `Nodes`. -/
def metadataMap (c : Catalog) (meta : Metadata) : nm.MapEntries :=
  .cons c.title
    (.map
      (.cons "version" (.str c.Version)
        (.cons "checksum" (.str c.Checksum)
          (.cons "maintainer" (.str c.maintainer)
            (.cons "generator"
              (.map (.cons "vendor" (.str meta.Vendor) (.cons "version" (.str meta.Version) .nil)))
              .nil)))))
    .nil

/-- The method `Document.Nodes`: the map from unit name to root node. -/
def Nodes (d : Document) (meta : Metadata) : NodesOutcome :=
  let main := nm.NewObject
  let metadata := metadataMap d.catalog meta
  match nm.KVFromMap metadata with
  | (_, some err) => .returned none (some (.wrap err "create metadata key"))
  | (none, none) => .panicked
  | (some metadataObj, none) =>
    let main := main.Set (nm.InheritedKey "__ksonnet") (.object metadataObj)
    match d.renderGroups d.toDocumentBase with
    | (_, some err) => .returned none (some err)
    | (files, none) =>
      match d.renderHiddenGroups d.toDocumentBase with
      | (_, some err) => .returned none (some err)
      | (hidden, none) =>
        match files, hidden with
        | some files, some hidden =>
          let files := files.set "_hidden" hidden
          match attachHidden files with
          | none => .panicked
          | some files =>
            let main := attachImports main (mapKeys files)
            .returned (some (files.set "k8s" (.object main))) none
        | _, _ => .panicked

/-! ## Notions used to state the properties -/

/-- The group that has received, through `AddResource` and in input order, the
records of the given group name. -/
def received (name : String) (resources : List Object) : Group :=
  (resources.filter (fun res => res.Group = name)).foldl Group.AddResource (NewGroup name)

/-- The distinct group names of a list of records. -/
def groupNames (resources : List Object) : List String :=
  (resources.map Object.Group).dedup

/-- A record of the given group, version and kind, without description. -/
def mkRecord (group version kind : String) : Object :=
  { kind := kind, group := group, version := version, description := "" }

/-- Four records with the group names `b`, `a`, `a` and the empty name. -/
def sampleRecords : List Object :=
  [mkRecord "b" "v1" "Job", mkRecord "a" "v1" "Pod", mkRecord "a" "v2" "Pod", mkRecord "" "v1" "Node"]

/-- A node builder that succeeds on every record. -/
def sampleNodeFn : renderNodeFn :=
  fun _ a => .ok [(nm.NewKey "kind" [], .stringDouble a.Kind)]

/-- A catalog whose retrieval calls succeed with the given records. -/
def sampleCatalog (types fields : List Object) : Catalog :=
  { title := "k8s", maintainer := "ksonnet", apiVersion := "1.14.0", checksum := "abc",
    types := (types, none), fields := (fields, none) }

/-- The document of `NewDocument` for the catalog with the given records. -/
def sampleDocument (types fields : List Object) : Document :=
  newDocument sampleNodeFn (sampleCatalog types fields)

/-- A provenance record. -/
def sampleMeta : Metadata := { Vendor := "ksonnet", Version := "0.1" }

/-- The metadata block that `Nodes` builds: a block keyed by the catalog title
that holds the checksum, the generator, the maintainer and the version. -/
def metadataBlock (c : Catalog) (meta : Metadata) : nm.Object :=
  [(nm.NewKey c.title [],
    .object
      [(nm.NewKey "checksum" [], .stringDouble c.Checksum),
       (nm.NewKey "generator" [],
        .object
          [(nm.NewKey "vendor" [], .stringDouble meta.Vendor),
           (nm.NewKey "version" [], .stringDouble meta.Version)]),
       (nm.NewKey "maintainer" [], .stringDouble c.maintainer),
       (nm.NewKey "version" [], .stringDouble c.Version)])]

/-- The aggregate root of `Nodes` before the imports are attached: its only child
is the metadata block under the inherited key `__ksonnet`. -/
def metadataRoot (c : Catalog) (meta : Metadata) : nm.Object :=
  [(nm.InheritedKey "__ksonnet", .object (metadataBlock c meta))]

/-- The import child that `Nodes` sets on the aggregate root for a unit name. -/
def importChild (name : String) : nm.Key × nm.Noder :=
  (nm.NewKey name [], nm.NewImport (name ++ ".libsonnet"))

/-- The local import of the hidden unit that `Nodes` sets on a unit. -/
def hiddenChild : nm.Key × nm.Noder :=
  (nm.LocalKey "hidden", nm.NewImport "_hidden.libsonnet")

/-- The root object stored under a unit name by a call of `Nodes` that returned a
map and no error. -/
def unitRoot (out : NodesOutcome) (name : String) : Option nm.Object :=
  match out with
  | .returned (some m) none =>
    match m.get name with
    | some (.object o) => some o
    | _ => none
  | _ => none

/-- The keys of the map returned by a call of `Nodes`. -/
def unitNames (out : NodesOutcome) : Option (List String) :=
  match out with
  | .returned (some m) none => some m.keys
  | _ => none

/-- The unit obtained by setting the local import of the hidden unit on a root. -/
def withHidden (g : nm.Object) : nm.Object :=
  nm.Object.Set0 g (nm.LocalKey "hidden") (nm.NewImport "_hidden.libsonnet")

/-- One record whose group is named like the aggregate unit. -/
def reservedRecords : List Object := [mkRecord "k8s" "v1" "Pod"]

/-- The map returned by `Nodes` for the document of the four sample records. -/
def sampleUnits : GoMap nm.Noder :=
  match Nodes (sampleDocument sampleRecords []) sampleMeta with
  | .returned (some m) _ => m
  | _ => []

/-- The keys of the children of a root node, in attachment order. -/
def rootKeys : Option nm.Noder → Option (List nm.Key)
  | some (.object o) => some (o.map Prod.fst)
  | _ => none

/-- The node-building function of the document fails for a record of some version
of one of the groups. -/
def builderFails (d : DocumentBase) (gs : List Group) : Prop :=
  ∃ g ∈ gs, ∃ v ∈ g.Versions, ∃ r ∈ v.APIObjects, ∃ e, d.objectNodeFn d.catalog r = .error e

/-- One of the failures that abort `Nodes`: a retrieval call of the catalog
returns an error, or the node-building function fails for a kind of a visible or
of a hidden group. -/
def stageFails (d : DocumentBase) : Prop :=
  d.typesFn.2 ≠ none ∨ d.fieldsFn.2 ≠ none ∨
    builderFails d (Groups d).1 ∨ builderFails d (HiddenGroups d).1

/-- A node builder that fails on the kind `Secret`. -/
def failingNodeFn : renderNodeFn :=
  fun _ a => if a.Kind = "Secret" then .error (.new "no node") else .ok []

/-- A production document whose node builder fails on one hidden kind. -/
def failingDocument : Document :=
  newDocument failingNodeFn
    (sampleCatalog sampleRecords [mkRecord "a" "v1" "Pod", mkRecord "a" "v1" "Secret"])

/-- The records on which the inner loop of `render` invokes the node-building
function, in order: the loop stops at the first record for which it fails. -/
def renderObjectsCalls (fn : renderNodeFn) (catalog : Catalog) : List Object → List Object
  | [] => []
  | apiObject :: rest =>
    match fn catalog apiObject with
    | .error _ => [apiObject]
    | .ok _ => apiObject :: renderObjectsCalls fn catalog rest

/-- The records on which the outer loop of `render` invokes the node-building
function, in order: the loop stops with the first version that fails. -/
def renderVersionsCalls (fn : renderNodeFn) (catalog : Catalog) : List Version → List Object
  | [] => []
  | version :: rest =>
    match (renderObjects fn catalog version.Node version.APIObjects).2 with
    | some _ => renderObjectsCalls fn catalog version.APIObjects
    | none =>
      renderObjectsCalls fn catalog version.APIObjects ++ renderVersionsCalls fn catalog rest

/-- The records on which `render` invokes the node-building function, in order. -/
def renderCalls (fn : renderNodeFn) (catalog : Catalog) (group : Group) : List Object :=
  renderVersionsCalls fn catalog group.Versions

/-- The records of a group in the iteration order of `render`: the versions in
the order of `Versions()`, the records of a version in the order of
`APIObjects()`. -/
def renderOrder (group : Group) : List Object :=
  (group.Versions.map Version.APIObjects).flatten

/-- The version node that `render` builds for a version. -/
def versionNodeOf (fn : renderNodeFn) (catalog : Catalog) (version : Version) : nm.Object :=
  (renderObjects fn catalog version.Node version.APIObjects).1

/-- The child that `render` attaches to the root for a version. -/
def versionChild (fn : renderNodeFn) (catalog : Catalog) (version : Version) :
    nm.Key × nm.Noder :=
  (nm.NewKey version.Name [], .object (versionNodeOf fn catalog version))

/-- The key under which `render` attaches the node of a record. -/
def recordKey (apiObject : Object) : nm.Key :=
  nm.NewKey apiObject.Kind [nm.KeyOptComment apiObject.Description]

/-- A group of two versions; the second version holds the kind `Secret`. -/
def twoVersionGroup : Group :=
  received "a" [mkRecord "a" "v1" "Pod", mkRecord "a" "v2" "Secret", mkRecord "a" "v2" "Job"]

/-- The root after the children of the given versions have been set on it, in
order. -/
def attachVersions (fn : renderNodeFn) (catalog : Catalog) (o : nm.Object)
    (versions : List Version) : nm.Object :=
  versions.foldl
    (fun o version => nm.Object.Set o (nm.NewKey version.Name [])
      (.object (versionNodeOf fn catalog version))) o

/-- A production document whose node builder fails in the second version of a
visible group. -/
def failingVisibleDocument : Document :=
  newDocument failingNodeFn
    (sampleCatalog [mkRecord "a" "v1" "Pod", mkRecord "a" "v2" "Secret", mkRecord "a" "v2" "Job"] [])

/-- A production document whose catalog fails both retrieval calls. -/
def brokenCatalogDocument : Document :=
  newDocument sampleNodeFn
    { title := "k8s", maintainer := "ksonnet", apiVersion := "1.14.0", checksum := "abc",
      types := ([], some (.new "no types")), fields := ([], some (.new "no fields")) }

/-- The child that `renderHiddenGroups` sets on the shared root for a group: the
root obtained by rendering the group alone, under the group's name. -/
def hiddenGroupChild (d : DocumentBase) (g : Group) : nm.Key × nm.Noder :=
  (nm.NewKey g.Name [], .object (d.renderFn d.objectNodeFn d.catalog nm.NewObject g).1)

/-- The fields of the metadata block below the catalog title. -/
def metadataFields (c : Catalog) (meta : Metadata) : nm.Object :=
  [(nm.NewKey "checksum" [], .stringDouble c.Checksum),
   (nm.NewKey "generator" [],
    .object
      [(nm.NewKey "vendor" [], .stringDouble meta.Vendor),
       (nm.NewKey "version" [], .stringDouble meta.Version)]),
   (nm.NewKey "maintainer" [], .stringDouble c.maintainer),
   (nm.NewKey "version" [], .stringDouble c.Version)]

/-- One full-schema record whose group is named like the hidden unit. -/
def hiddenNamedRecords : List Object := [mkRecord "_hidden" "v1" "Pod"]

/-- One field-only record. -/
def fieldRecords : List Object := [mkRecord "core" "v1" "ObjectMeta"]

/-- The map returned by `Nodes` for the document of the four sample records and
one field-only record. -/
def sampleUnitsWithFields : GoMap nm.Noder :=
  match Nodes (sampleDocument sampleRecords fieldRecords) sampleMeta with
  | .returned (some m) _ => m
  | _ => []

/-- A record with a description. -/
def describedRecord : Object :=
  { kind := "Pod", group := "a", version := "v1", description := "a pod" }

/-- A version that holds a record with a description and one without. -/
def describedVersion : Version :=
  { name := "v1", resources := [describedRecord, mkRecord "a" "v1" "Job"] }

/-- The child that `render` attaches to a version node for a record: the builder's
node under the key of the record; nothing when the builder fails. -/
def recordChild (fn : renderNodeFn) (catalog : Catalog) (apiObject : Object) :
    Option (nm.Key × nm.Noder) :=
  match fn catalog apiObject with
  | .ok objectNode => some (recordKey apiObject, .object objectNode)
  | .error _ => none

/-- A group whose only version holds two records of the same kind. -/
def duplicateKindGroup : Group :=
  received "a"
    [{ kind := "Pod", group := "a", version := "v1", description := "first" },
     { kind := "Pod", group := "a", version := "v1", description := "second" }]

/-- A document whose `renderGroups` has been replaced by a function that returns a
unit that is not an object. -/
def substitutedGroupsDocument : Document :=
  { sampleDocument [] [] with
    renderGroups := fun _ => (some [("apps", nm.NewImport "apps.libsonnet")], none) }

/-- A document whose `renderHiddenGroups` has been replaced by a function that
returns a node that is not an object. -/
def substitutedHiddenDocument : Document :=
  { sampleDocument [] [] with
    renderHiddenGroups := fun _ => (some (nm.NewImport "hidden.libsonnet"), none) }

/-- Whether a call of `Nodes` has panicked. -/
def NodesOutcome.isPanic : NodesOutcome → Bool
  | .panicked => true
  | .returned _ _ => false

/-- The calls of `Set` that `Nodes` makes on the aggregate root, in order: the
metadata block under the inherited key `__ksonnet` once the block is built, then,
when both render stages have succeeded and the `hidden` imports are attached,
one import under the key of every name of `mapKeys(files)`. -/
def aggregateSetCalls (d : Document) (meta : Metadata) : List (nm.Key × nm.Noder) :=
  match nm.KVFromMap (metadataMap d.catalog meta) with
  | (some metadataObj, none) =>
    (nm.InheritedKey "__ksonnet", .object metadataObj) ::
      match d.renderGroups d.toDocumentBase with
      | (some files, none) =>
        match d.renderHiddenGroups d.toDocumentBase with
        | (some hidden, none) =>
          match attachHidden (files.set "_hidden" hidden) with
          | some files =>
            (mapKeys files).map
              (fun name => (nm.NewKey name [], nm.NewImport (name ++ ".libsonnet")))
          | none => []
        | _ => []
      | _ => []
  | _ => []

/-- The object obtained from a new object by the given calls of `Set`, in order. -/
def applySetCalls (calls : List (nm.Key × nm.Noder)) : nm.Object :=
  calls.foldl (fun o kv => nm.Object.Set o kv.1 kv.2) nm.NewObject

/-! ## The order of strings -/

theorem strLE_total (a b : String) : strLE a b ∨ strLE b a := le_total a.data b.data

theorem strLE_trans {a b c : String} (h₁ : strLE a b) (h₂ : strLE b c) : strLE a c :=
  le_trans (α := List Char) h₁ h₂

theorem strLT_of_strLE_of_ne {a b : String} (h : strLE a b) (hne : a ≠ b) : strLT a b := by
  have hd : a.data ≠ b.data := fun hd => hne (String.ext hd)
  exact lt_of_le_of_ne (α := List Char) h hd

theorem strLT_irrefl (a : String) : ¬ strLT a a := lt_irrefl (α := List Char) a.data

theorem strLT_trans {a b c : String} (h₁ : strLT a b) (h₂ : strLT b c) : strLT a c :=
  lt_trans (α := List Char) h₁ h₂

theorem not_strLT_empty (a : String) : ¬ strLT a "" := by
  intro h
  have h' : a.data < [] := h
  exact absurd h' (by cases a.data <;> simp)

theorem sortStrings_perm (l : List String) : (sortStrings l).Perm l :=
  List.perm_insertionSort strLE l

theorem sortStrings_sorted (l : List String) : (sortStrings l).Pairwise strLE :=
  List.sorted_insertionSort strLE l

theorem sortStrings_strict {l : List String} (h : l.Nodup) : (sortStrings l).Pairwise strLT := by
  have hn : (sortStrings l).Nodup := (sortStrings_perm l).nodup_iff.mpr h
  exact ((sortStrings_sorted l).and hn).imp (fun hab => strLT_of_strLE_of_ne hab.1 hab.2)

theorem sortStrings_eq_of_perm {l l' : List String} (h : l.Perm l') :
    sortStrings l = sortStrings l' := by
  have hp : (sortStrings l).Perm (sortStrings l') :=
    ((sortStrings_perm l).trans h).trans (sortStrings_perm l').symm
  have hanti : IsAntisymm String strLE :=
    ⟨fun a b hab hba => String.ext (le_antisymm (α := List Char) hab hba)⟩
  exact List.eq_of_perm_of_sorted hp (sortStrings_sorted l) (sortStrings_sorted l')

/-! ## Go maps -/

namespace GoMap

variable {β : Type}

theorem get_set (m : GoMap β) (k : String) (v : β) (k' : String) :
    (m.set k v).get k' = if k = k' then some v else m.get k' := by
  induction m with
  | nil => simp [set, get]
  | cons p rest ih =>
    obtain ⟨a, b⟩ := p
    by_cases hak : a = k
    · subst hak
      by_cases hk : a = k' <;> simp [set, get, hk]
    · by_cases hk : k = k'
      · subst hk
        simp [set, get, hak, ih]
      · by_cases hak' : a = k'
        · subst hak'
          simp [set, get, hak, hk]
        · simp [set, get, hak, hk, hak', ih]

theorem keys_set (m : GoMap β) (k : String) (v : β) :
    (m.set k v).keys = if k ∈ m.keys then m.keys else m.keys ++ [k] := by
  induction m with
  | nil => simp [set, keys]
  | cons p rest ih =>
    obtain ⟨a, b⟩ := p
    by_cases hak : a = k
    · subst hak
      simp [set, keys]
    · have hka : ¬ k = a := fun h => hak h.symm
      have ih' : List.map Prod.fst (set rest k v)
          = if k ∈ List.map Prod.fst rest then List.map Prod.fst rest
            else List.map Prod.fst rest ++ [k] := ih
      simp only [set, keys, hak, if_false, List.map_cons, List.mem_cons, hka, false_or, ih']
      split <;> simp

theorem mem_keys_set (m : GoMap β) (k : String) (v : β) (k' : String) :
    k' ∈ (m.set k v).keys ↔ k' = k ∨ k' ∈ m.keys := by
  rw [keys_set]
  split
  · constructor
    · intro h; exact Or.inr h
    · rintro (h | h)
      · subst h; assumption
      · exact h
  · simp [or_comm]

theorem nodup_keys_set {m : GoMap β} (h : m.keys.Nodup) (k : String) (v : β) :
    (m.set k v).keys.Nodup := by
  rw [keys_set]
  split
  · exact h
  · rename_i hk
    exact List.Nodup.append h (List.nodup_singleton k) (by simpa using hk)

theorem get_eq_none_iff (m : GoMap β) (k : String) : m.get k = none ↔ k ∉ m.keys := by
  induction m with
  | nil => simp [get, keys]
  | cons p rest ih =>
    obtain ⟨a, b⟩ := p
    by_cases hak : a = k
    · simp [get, keys, hak]
    · have hka : ¬ k = a := fun h => hak h.symm
      have ih' : get rest k = none ↔ k ∉ List.map Prod.fst rest := ih
      simp [get, keys, hak, hka, ih']

theorem mem_keys_of_get {m : GoMap β} {k : String} {v : β} (h : m.get k = some v) :
    k ∈ m.keys := by
  by_contra hk
  rw [(get_eq_none_iff m k).mpr hk] at h
  cases h

theorem get_of_mem_keys {m : GoMap β} {k : String} (h : k ∈ m.keys) : ∃ v, m.get k = some v := by
  cases hg : m.get k with
  | none => exact absurd h ((get_eq_none_iff m k).mp hg)
  | some v => exact ⟨v, rfl⟩

end GoMap

/-! ## Grouping -/

theorem foldl_AddResource_name (l : List Object) (g : Group) :
    (l.foldl Group.AddResource g).Name = g.Name := by
  induction l generalizing g with
  | nil => rfl
  | cons r l ih => simpa [Group.AddResource, Group.Name] using ih (g.AddResource r)

theorem received_name (name : String) (resources : List Object) :
    (received name resources).Name = name := by
  unfold received
  rw [foldl_AddResource_name]
  rfl

theorem groupsLoop_get (m : GoMap Group) (rs : List Object) (k : String) :
    (groupsLoop m rs).get k =
      if rs.filter (fun res => res.Group = k) = [] then m.get k
      else some ((rs.filter (fun res => res.Group = k)).foldl Group.AddResource
        ((m.get k).getD (NewGroup k))) := by
  induction rs generalizing m with
  | nil => simp [groupsLoop]
  | cons r rs ih =>
    simp only [groupsLoop]
    rw [ih, GoMap.get_set]
    by_cases hk : r.Group = k
    · subst hk
      have hg : (match m.get r.Group with
          | some g => g
          | none => NewGroup r.Group) = (m.get r.Group).getD (NewGroup r.Group) := by
        cases m.get r.Group <;> rfl
      rw [hg]
      by_cases hF : rs.filter (fun res => res.Group = r.Group) = []
      · simp [hF, List.filter_cons]
      · simp [hF, List.filter_cons]
    · simp [hk, List.filter_cons]

theorem mem_keys_groupsLoop (m : GoMap Group) (rs : List Object) (k : String) :
    k ∈ (groupsLoop m rs).keys ↔ k ∈ m.keys ∨ ∃ r ∈ rs, r.Group = k := by
  induction rs generalizing m with
  | nil => simp [groupsLoop]
  | cons r rs ih =>
    simp only [groupsLoop]
    rw [ih, GoMap.mem_keys_set]
    constructor
    · rintro ((h | h) | ⟨r', hr', h⟩)
      · exact Or.inr ⟨r, by simp, h.symm⟩
      · exact Or.inl h
      · exact Or.inr ⟨r', by simp [hr'], h⟩
    · rintro (h | ⟨r', hr', h⟩)
      · exact Or.inl (Or.inr h)
      · rcases List.mem_cons.mp hr' with h' | h'
        · subst h'; exact Or.inl (Or.inl h.symm)
        · exact Or.inr ⟨r', h', h⟩

theorem nodup_keys_groupsLoop {m : GoMap Group} (h : m.keys.Nodup) (rs : List Object) :
    (groupsLoop m rs).keys.Nodup := by
  induction rs generalizing m with
  | nil => simpa [groupsLoop] using h
  | cons r rs ih =>
    simp only [groupsLoop]
    exact ih (GoMap.nodup_keys_set h _ _)

theorem groupsLoop_nil_get {rs : List Object} {k : String} (hk : k ∈ (groupsLoop [] rs).keys) :
    (groupsLoop [] rs).get k = some (received k rs) := by
  rw [groupsLoop_get]
  obtain ⟨r, hr, hrk⟩ : ∃ r ∈ rs, r.Group = k := by
    simpa [GoMap.keys] using (mem_keys_groupsLoop [] rs k).mp hk
  have hF : rs.filter (fun res => res.Group = k) ≠ [] := by
    intro h
    have : r ∈ rs.filter (fun res => res.Group = k) := by simp [hr, hrk]
    rw [h] at this
    cases this
  simp [hF, received, GoMap.get]

theorem collectGroups_eq (gMap : GoMap Group) (names : List String) (f : String → Group)
    (h : ∀ k ∈ names, gMap.get k = some (f k)) : collectGroups gMap names = names.map f := by
  induction names with
  | nil => rfl
  | cons k names ih =>
    have hk := h k (by simp)
    have ih' := ih (fun k' hk' => h k' (by simp [hk']))
    simp only [collectGroups] at ih' ⊢
    simp [List.filterMap_cons, hk, ih']

theorem groups_fst (rs : List Object) :
    (groups rs).1 = (sortStrings (groupsLoop [] rs).keys).map (fun k => received k rs) := by
  simp only [groups]
  apply collectGroups_eq
  intro k hk
  exact groupsLoop_nil_get ((sortStrings_perm _).mem_iff.mp hk)

theorem groups_snd (rs : List Object) : (groups rs).2 = none := rfl

theorem groups_names (rs : List Object) :
    (groups rs).1.map Group.Name = sortStrings (groupsLoop [] rs).keys := by
  rw [groups_fst, List.map_map]
  have : (Group.Name ∘ fun k => received k rs) = id := by
    funext k
    simp [received_name]
  rw [this, List.map_id]

theorem groups_names_pairwise (rs : List Object) :
    ((groups rs).1.map Group.Name).Pairwise strLT := by
  rw [groups_names]
  exact sortStrings_strict (nodup_keys_groupsLoop (by simp [GoMap.keys]) rs)

theorem groups_names_nodup (rs : List Object) : ((groups rs).1.map Group.Name).Nodup :=
  (groups_names_pairwise rs).imp
    (fun {a b} hab => fun h => strLT_irrefl a (by rw [h] at hab ⊢; exact hab))

theorem mem_groups_names (rs : List Object) (k : String) :
    k ∈ (groups rs).1.map Group.Name ↔ ∃ r ∈ rs, r.Group = k := by
  rw [groups_names, (sortStrings_perm _).mem_iff, mem_keys_groupsLoop]
  simp [GoMap.keys]

theorem mem_groups_eq_received {rs : List Object} {g : Group} (hg : g ∈ (groups rs).1) :
    g = received g.Name rs := by
  rw [groups_fst] at hg
  obtain ⟨k, _, rfl⟩ := List.mem_map.mp hg
  rw [received_name]

/-- C1: for every list of records the groups returned by `Document.groups` have
strictly ascending names (sorted ascending, no name twice), a group with the
empty name comes first, and `Groups` and `HiddenGroups` return this list when
the catalog call succeeds. -/
theorem groups_names_strictly_ascending (resources : List Object) :
    ((groups resources).1.map Group.Name).Pairwise strLT ∧
    ((groups resources).1.map Group.Name).Pairwise strLE ∧
    ((groups resources).1.map Group.Name).Nodup ∧
    (∀ g ∈ (groups resources).1, g.Name = "" → (groups resources).1.head? = some g) ∧
    (∀ d : DocumentBase, d.typesFn = (resources, none) → Groups d = groups resources) ∧
    (∀ d : DocumentBase, d.fieldsFn = (resources, none) → HiddenGroups d = groups resources) := by
  have hlt := groups_names_pairwise resources
  refine ⟨hlt, ?_, ?_, ?_, ?_, ?_⟩
  · rw [groups_names]
    exact sortStrings_sorted _
  · exact groups_names_nodup resources
  · intro g hg hname
    cases hgs : (groups resources).1 with
    | nil => rw [hgs] at hg; cases hg
    | cons g₀ rest =>
      rw [hgs] at hg hlt
      rcases List.mem_cons.mp hg with h | h
      · simp [h]
      · have := (List.pairwise_cons.mp (by simpa using hlt)).1 g.Name (List.mem_map.mpr ⟨g, h, rfl⟩)
        rw [hname] at this
        exact absurd this (not_strLT_empty _)
  · intro d hd
    simp [Groups, hd]
  · intro d hd
    simp [HiddenGroups, hd]

/-- Witness of C1 on four records with the group names `b`, `a`, `a` and the empty
name. -/
theorem groups_names_strictly_ascending_witness :
    (groups sampleRecords).1.map Group.Name = ["", "a", "b"] ∧
    (groups sampleRecords).1.head? = some (received "" sampleRecords) ∧
    Groups (sampleDocument sampleRecords []).toDocumentBase = groups sampleRecords :=
  ⟨by decide,
   (groups_names_strictly_ascending sampleRecords).2.2.2.1 (received "" sampleRecords)
     (by decide) (by decide),
   (groups_names_strictly_ascending sampleRecords).2.2.2.2.1 _ rfl⟩

theorem groups_names_perm (rs : List Object) :
    ((groups rs).1.map Group.Name).Perm (groupNames rs) := by
  have hnd : ((groups rs).1.map Group.Name).Nodup := groups_names_nodup rs
  refine (List.perm_ext_iff_of_nodup hnd (List.nodup_dedup _)).mpr ?_
  intro k
  rw [mem_groups_names]
  simp [groupNames]

theorem length_filter_group (rs : List Object) (k : String) :
    (rs.filter (fun r => r.Group = k)).length = (rs.map Object.Group).count k := by
  induction rs with
  | nil => rfl
  | cons r rs ih =>
    by_cases h : r.Group = k
    · simp [List.filter_cons, h, ih]
    · simp [List.filter_cons, h, ih, List.count_cons]

theorem sum_received_lengths (rs : List Object) :
    ((groups rs).1.map (fun g => (rs.filter (fun r => r.Group = g.Name)).length)).sum
      = rs.length := by
  have h1 : (groups rs).1.map (fun g => (rs.filter (fun r => r.Group = g.Name)).length)
      = ((groups rs).1.map Group.Name).map (fun k => (rs.map Object.Group).count k) := by
    rw [List.map_map]
    apply List.map_congr_left
    intro g _
    exact length_filter_group rs g.Name
  rw [h1, ((groups_names_perm rs).map _).sum_eq]
  have := List.sum_map_count_dedup_eq_length (rs.map Object.Group)
  simpa [groupNames] using this

/-- C2: `Document.groups` partitions its input: the names of the returned groups
are the distinct group names of the records, every returned group has received
through `AddResource`, in input order, exactly the records of its name, every
record goes to exactly one group, and the groups receive as many records as
the input holds.  Records with the group names `b`, `a`, `a` and the empty name
yield the groups of the empty name, `a` and `b`, the group `a` holding both of
its records. -/
theorem groups_partition (resources : List Object) :
    ((groups resources).1.map Group.Name).Perm (groupNames resources) ∧
    (∀ k, k ∈ (groups resources).1.map Group.Name ↔ ∃ r ∈ resources, r.Group = k) ∧
    (∀ g ∈ (groups resources).1,
      g = (resources.filter (fun r => r.Group = g.Name)).foldl Group.AddResource
        (NewGroup g.Name)) ∧
    (∀ r ∈ resources, ∃! g, g ∈ (groups resources).1 ∧ g.Name = r.Group) ∧
    ((groups resources).1.map
      (fun g => (resources.filter (fun r => r.Group = g.Name)).length)).sum
        = resources.length ∧
    (∀ r₁ r₂ r₃ r₄ : Object, r₁.Group = "b" → r₂.Group = "a" → r₃.Group = "a" →
      r₄.Group = "" →
      (groups [r₁, r₂, r₃, r₄]).1 =
        [(NewGroup "").AddResource r₄, ((NewGroup "a").AddResource r₂).AddResource r₃,
          (NewGroup "b").AddResource r₁]) := by
  refine ⟨groups_names_perm resources, mem_groups_names resources,
    fun g hg => mem_groups_eq_received hg, ?_, sum_received_lengths resources, ?_⟩
  · intro r hr
    obtain ⟨g, hg, hname⟩ := List.mem_map.mp ((mem_groups_names resources r.Group).mpr ⟨r, hr, rfl⟩)
    refine ⟨g, ⟨hg, hname⟩, ?_⟩
    rintro g' ⟨hg', hname'⟩
    rw [mem_groups_eq_received hg', mem_groups_eq_received hg, hname, hname']
  · intro r₁ r₂ r₃ r₄ h₁ h₂ h₃ h₄
    have hkeys : (groupsLoop [] [r₁, r₂, r₃, r₄]).keys = ["b", "a", ""] := by
      simp [groupsLoop, GoMap.set, GoMap.get, GoMap.keys, h₁, h₂, h₃, h₄]
    have hsort : sortStrings ["b", "a", ""] = ["", "a", "b"] := by decide
    rw [groups_fst, hkeys, hsort]
    simp [received, List.filter_cons, h₁, h₂, h₃, h₄]

/-- Witness of C2 on four records with the group names `b`, `a`, `a` and the empty
name. -/
theorem groups_partition_witness :
    (groups sampleRecords).1 =
      [(NewGroup "").AddResource (mkRecord "" "v1" "Node"),
        ((NewGroup "a").AddResource (mkRecord "a" "v1" "Pod")).AddResource (mkRecord "a" "v2" "Pod"),
        (NewGroup "b").AddResource (mkRecord "b" "v1" "Job")] ∧
    (∃! g, g ∈ (groups sampleRecords).1 ∧ g.Name = (mkRecord "a" "v2" "Pod").Group) :=
  ⟨(groups_partition sampleRecords).2.2.2.2.2 _ _ _ _ rfl rfl rfl rfl,
   (groups_partition sampleRecords).2.2.2.1 (mkRecord "a" "v2" "Pod") (by decide)⟩

/-! ## Objects of the node tree -/

theorem keyNames_Set (o : nm.Object) (key : nm.Key) (v : nm.Noder) :
    nm.Object.keyNames (nm.Object.Set o key v) =
      if key.name ∈ nm.Object.keyNames o then nm.Object.keyNames o
      else nm.Object.keyNames o ++ [key.name] := by
  induction o with
  | nil => simp [nm.Object.Set, nm.Object.keyNames]
  | cons p rest ih =>
    obtain ⟨k, w⟩ := p
    by_cases hk : k.name = key.name
    · simp [nm.Object.Set, nm.Object.keyNames, hk]
    · have hk' : ¬ key.name = k.name := fun h => hk h.symm
      have ih' : List.map (fun kv => kv.1.name) (nm.Object.Set rest key v)
          = if key.name ∈ List.map (fun kv => kv.1.name) rest
            then List.map (fun kv => kv.1.name) rest
            else List.map (fun kv => kv.1.name) rest ++ [key.name] := ih
      simp only [nm.Object.Set, nm.Object.keyNames, hk, if_false, List.map_cons, List.mem_cons,
        hk', false_or, ih']
      split <;> simp

theorem mem_keyNames_Set (o : nm.Object) (key : nm.Key) (v : nm.Noder) (n : String) :
    n ∈ nm.Object.keyNames (nm.Object.Set o key v) ↔ n = key.name ∨ n ∈ nm.Object.keyNames o := by
  rw [keyNames_Set]
  split
  · constructor
    · intro h; exact Or.inr h
    · rintro (h | h)
      · subst h; assumption
      · exact h
  · simp [or_comm]

theorem nodup_keyNames_Set {o : nm.Object} (h : (nm.Object.keyNames o).Nodup) (key : nm.Key)
    (v : nm.Noder) : (nm.Object.keyNames (nm.Object.Set o key v)).Nodup := by
  rw [keyNames_Set]
  split
  · exact h
  · rename_i hk
    exact List.Nodup.append h (List.nodup_singleton _) (by simpa using hk)

theorem child_Set (o : nm.Object) (key : nm.Key) (v : nm.Noder) (n : String) :
    nm.Object.child (nm.Object.Set o key v) n =
      if key.name = n then some (key, v) else nm.Object.child o n := by
  induction o with
  | nil => simp [nm.Object.Set, nm.Object.child]
  | cons p rest ih =>
    obtain ⟨k, w⟩ := p
    by_cases hk : k.name = key.name
    · by_cases hn : key.name = n
      · simp [nm.Object.Set, nm.Object.child, hk, hn]
      · simp [nm.Object.Set, nm.Object.child, hk, hn]
    · by_cases hn : key.name = n
      · have hkn : ¬ k.name = n := fun h => hk (h.trans hn.symm)
        simp [nm.Object.Set, nm.Object.child, hk, hn, hkn, ih]
      · by_cases hkn : k.name = n
        · subst hkn
          simp [nm.Object.Set, nm.Object.child, hk, hn]
        · simp [nm.Object.Set, nm.Object.child, hk, hn, hkn, ih]

theorem mem_of_child {o : nm.Object} {n : String} {kv : nm.Key × nm.Noder}
    (h : nm.Object.child o n = some kv) : kv ∈ o ∧ kv.1.name = n := by
  induction o with
  | nil => simp [nm.Object.child] at h
  | cons p rest ih =>
    obtain ⟨k, w⟩ := p
    by_cases hk : k.name = n
    · simp only [nm.Object.child, hk, if_true, Option.some.injEq] at h
      subst h
      exact ⟨by simp, hk⟩
    · simp only [nm.Object.child, hk, if_false] at h
      exact ⟨List.mem_cons_of_mem _ (ih h).1, (ih h).2⟩

theorem child_of_mem {o : nm.Object} (hnd : (nm.Object.keyNames o).Nodup)
    {kv : nm.Key × nm.Noder} (h : kv ∈ o) : nm.Object.child o kv.1.name = some kv := by
  induction o with
  | nil => cases h
  | cons p rest ih =>
    obtain ⟨k, w⟩ := p
    have hnd' : k.name ∉ List.map (fun kv => kv.1.name) rest ∧
        (List.map (fun kv => kv.1.name) rest).Nodup := by
      simpa [nm.Object.keyNames] using hnd
    rcases List.mem_cons.mp h with h | h
    · subst h
      simp [nm.Object.child]
    · have hne : ¬ k.name = kv.1.name := by
        intro he
        exact hnd'.1 (he ▸ List.mem_map.mpr ⟨kv, h, rfl⟩)
      simp only [nm.Object.child, hne, if_false]
      exact ih hnd'.2 h

theorem mem_Set {o : nm.Object} {key : nm.Key} {v : nm.Noder} {kv : nm.Key × nm.Noder}
    (h : kv ∈ nm.Object.Set o key v) : kv = (key, v) ∨ kv ∈ o := by
  induction o with
  | nil => simpa [nm.Object.Set] using h
  | cons p rest ih =>
    obtain ⟨k, w⟩ := p
    by_cases hk : k.name = key.name
    · simp only [nm.Object.Set, hk, if_true, List.mem_cons] at h
      rcases h with h | h
      · exact Or.inl h
      · exact Or.inr (List.mem_cons_of_mem _ h)
    · simp only [nm.Object.Set, hk, if_false, List.mem_cons] at h
      rcases h with h | h
      · exact Or.inr (by simp [h])
      · rcases ih h with h' | h'
        · exact Or.inl h'
        · exact Or.inr (List.mem_cons_of_mem _ h')

theorem filter_Set_singleton (p : nm.Key × nm.Noder → Bool) (o : nm.Object) (key : nm.Key)
    (v : nm.Noder) (ho : ∀ kv ∈ o, p kv = false) (hv : p (key, v) = true) :
    (nm.Object.Set o key v).filter p = [(key, v)] := by
  induction o with
  | nil => simp [nm.Object.Set, hv]
  | cons q rest ih =>
    obtain ⟨k, w⟩ := q
    have hrest : ∀ kv ∈ rest, p kv = false := fun kv h => ho kv (List.mem_cons_of_mem _ h)
    have hq : p (k, w) = false := ho (k, w) (by simp)
    by_cases hk : k.name = key.name
    · simp only [nm.Object.Set, hk, if_true, List.filter_cons, hv]
      rw [List.filter_eq_nil_iff.mpr (fun kv h => by simp [hrest kv h])]
    · simp only [nm.Object.Set, hk, if_false, List.filter_cons, hq]
      simpa using ih hrest

/-! ## The imports of the aggregate root -/

theorem NewKey_nil_name (n : String) : (nm.NewKey n []).name = n := rfl

theorem child_attachImports (o : nm.Object) (names : List String) (n : String) :
    nm.Object.child (attachImports o names) n =
      if n ∈ names then some (importChild n) else nm.Object.child o n := by
  induction names generalizing o with
  | nil => simp [attachImports]
  | cons a rest ih =>
    have hstep : attachImports o (a :: rest) =
        attachImports (nm.Object.Set o (nm.NewKey a []) (nm.NewImport (a ++ ".libsonnet"))) rest := rfl
    rw [hstep, ih, child_Set, NewKey_nil_name]
    by_cases hr : n ∈ rest
    · simp [hr]
    · by_cases ha : a = n
      · subst ha
        simp [hr, importChild]
      · have ha' : ¬ n = a := fun h => ha h.symm
        simp [hr, ha, ha']

theorem nodup_keyNames_attachImports {o : nm.Object} (h : (nm.Object.keyNames o).Nodup)
    (names : List String) : (nm.Object.keyNames (attachImports o names)).Nodup := by
  induction names generalizing o with
  | nil => simpa [attachImports] using h
  | cons a rest ih => exact ih (nodup_keyNames_Set h _ _)

theorem attachImports_fresh (o : nm.Object) (names : List String) (hnd : names.Nodup)
    (hfresh : ∀ n ∈ names, n ∉ nm.Object.keyNames o) :
    attachImports o names = o ++ names.map importChild := by
  induction names generalizing o with
  | nil => simp [attachImports]
  | cons a rest ih =>
    have hstep : attachImports o (a :: rest) =
        attachImports (nm.Object.Set o (nm.NewKey a []) (nm.NewImport (a ++ ".libsonnet"))) rest := rfl
    have hset : nm.Object.Set o (nm.NewKey a []) (nm.NewImport (a ++ ".libsonnet"))
        = o ++ [importChild a] := by
      have ha : a ∉ nm.Object.keyNames o := hfresh a (by simp)
      clear ih hstep hfresh
      induction o with
      | nil => rfl
      | cons p o' iho =>
        obtain ⟨k, w⟩ := p
        have hk : ¬ k.name = a := by
          intro h
          exact ha (by simp [nm.Object.keyNames, h])
        have ha' : a ∉ nm.Object.keyNames o' := by
          intro h
          exact ha (by
            simp only [nm.Object.keyNames, List.map_cons, List.mem_cons]
            exact Or.inr h)
        simp only [nm.Object.Set, NewKey_nil_name, hk, if_false, List.cons_append]
        rw [iho ha']
    have hnd' := List.nodup_cons.mp hnd
    rw [hstep, hset, ih _ hnd'.2]
    · simp
    · intro n hn hmem
      have : n ∈ nm.Object.keyNames o ∨ n = a := by
        simpa [nm.Object.keyNames, importChild, NewKey_nil_name] using hmem
      rcases this with h | h
      · exact hfresh n (by simp [hn]) h
      · exact hnd'.1 (h ▸ hn)

theorem mem_imports_attachImports {o : nm.Object} (hnd : (nm.Object.keyNames o).Nodup)
    (ho : ∀ kv ∈ o, kv.2.isImport = false) (names : List String) (kv : nm.Key × nm.Noder) :
    kv ∈ nm.Object.imports (attachImports o names) ↔ ∃ n ∈ names, kv = importChild n := by
  have hnd' := nodup_keyNames_attachImports hnd names
  constructor
  · intro h
    obtain ⟨hmem, himp⟩ := List.mem_filter.mp h
    have hc := child_of_mem hnd' hmem
    rw [child_attachImports] at hc
    by_cases hn : kv.1.name ∈ names
    · rw [if_pos hn] at hc
      exact ⟨kv.1.name, hn, (Option.some.inj hc).symm⟩
    · rw [if_neg hn] at hc
      have := ho kv (mem_of_child hc).1
      rw [this] at himp
      cases himp
  · rintro ⟨n, hn, rfl⟩
    have hc : nm.Object.child (attachImports o names) n = some (importChild n) := by
      rw [child_attachImports, if_pos hn]
    exact List.mem_filter.mpr ⟨(mem_of_child hc).1, rfl⟩

theorem importChild_injective : Function.Injective importChild := by
  intro a b h
  have : (importChild a).1.name = (importChild b).1.name := by rw [h]
  exact this

theorem imports_keyNames_perm {o : nm.Object} (hnd : (nm.Object.keyNames o).Nodup)
    (ho : ∀ kv ∈ o, kv.2.isImport = false) {names : List String} (hnames : names.Nodup) :
    (nm.Object.keyNames (nm.Object.imports (attachImports o names))).Perm names := by
  have hnd' := nodup_keyNames_attachImports hnd names
  have hsub : (nm.Object.keyNames (nm.Object.imports (attachImports o names))).Sublist
      (nm.Object.keyNames (attachImports o names)) :=
    List.Sublist.map _ (List.filter_sublist _)
  refine (List.perm_ext_iff_of_nodup (hnd'.sublist hsub) hnames).mpr ?_
  intro n
  constructor
  · intro h
    obtain ⟨kv, hkv, rfl⟩ := List.mem_map.mp h
    obtain ⟨n', hn', rfl⟩ := (mem_imports_attachImports hnd ho names kv).mp hkv
    exact hn'
  · intro h
    exact List.mem_map.mpr ⟨importChild n, (mem_imports_attachImports hnd ho names _).mpr ⟨n, h, rfl⟩, rfl⟩

theorem metadataRoot_keyNames_nodup (c : Catalog) (meta : Metadata) :
    (nm.Object.keyNames (metadataRoot c meta)).Nodup := by
  simp [metadataRoot, nm.Object.keyNames]

theorem metadataRoot_no_import (c : Catalog) (meta : Metadata) :
    ∀ kv ∈ metadataRoot c meta, kv.2.isImport = false := by
  intro kv h
  have : kv = (nm.InheritedKey "__ksonnet", .object (metadataBlock c meta)) := by
    simpa [metadataRoot] using h
  rw [this]
  rfl

theorem KVFromMap_metadataMap (c : Catalog) (meta : Metadata) :
    nm.KVFromMap (metadataMap c meta) = (some (metadataBlock c meta), none) := rfl

/-! ## The assembly -/

theorem attachHidden_cons_object (k : String) (g : nm.Object) (rest : GoMap nm.Noder) :
    attachHidden ((k, .object g) :: rest) =
      (attachHidden rest).map (fun rest' => (k, nm.Noder.object (withHidden g)) :: rest') := by
  simp only [attachHidden]
  cases attachHidden rest <;> rfl

theorem attachHidden_some {files files' : GoMap nm.Noder} (h : attachHidden files = some files') :
    files'.keys = files.keys ∧
    (∀ k v, files.get k = some v →
      ∃ g, v = .object g ∧ files'.get k = some (.object (withHidden g))) ∧
    (∀ kv ∈ files', ∃ g, kv.2 = .object g) := by
  induction files generalizing files' with
  | nil =>
    simp only [attachHidden, Option.some.injEq] at h
    subst h
    simp [GoMap.get]
  | cons p rest ih =>
    obtain ⟨k, v⟩ := p
    cases v with
    | object g =>
      rw [attachHidden_cons_object] at h
      cases hr : attachHidden rest with
      | none => rw [hr] at h; cases h
      | some rest' =>
        rw [hr] at h
        simp only [Option.map_some', Option.some.injEq] at h
        subst h
        obtain ⟨ih1, ih2, ih3⟩ := ih hr
        refine ⟨?_, ?_, ?_⟩
        · have : List.map Prod.fst rest' = List.map Prod.fst rest := ih1
          simp [GoMap.keys, this]
        · intro k' v' hget
          by_cases hk : k = k'
          · simp only [GoMap.get, hk, if_true, Option.some.injEq] at hget
            subst hget
            exact ⟨g, rfl, by simp [GoMap.get, hk]⟩
          · simp only [GoMap.get, hk, if_false] at hget
            obtain ⟨g', hg', hget'⟩ := ih2 k' v' hget
            exact ⟨g', hg', by simp [GoMap.get, hk, hget']⟩
        · intro kv hkv
          rcases List.mem_cons.mp hkv with h | h
          · exact ⟨withHidden g, by rw [h]⟩
          · exact ih3 kv h
    | importNode f => simp [attachHidden] at h
    | stringDouble s => simp [attachHidden] at h

theorem attachHidden_isSome_iff (files : GoMap nm.Noder) :
    (∃ files', attachHidden files = some files') ↔ ∀ kv ∈ files, ∃ g, kv.2 = .object g := by
  induction files with
  | nil => simp [attachHidden]
  | cons p rest ih =>
    obtain ⟨k, v⟩ := p
    cases v with
    | object g =>
      rw [attachHidden_cons_object]
      constructor
      · rintro ⟨files', h⟩
        cases hr : attachHidden rest with
        | none => rw [hr] at h; cases h
        | some rest' =>
          intro kv hkv
          rcases List.mem_cons.mp hkv with h' | h'
          · exact ⟨g, by rw [h']⟩
          · exact ih.mp ⟨rest', hr⟩ kv h'
      · intro h
        obtain ⟨rest', hr⟩ := ih.mpr (fun kv hkv => h kv (List.mem_cons_of_mem _ hkv))
        exact ⟨_, by rw [hr]; rfl⟩
    | importNode f =>
      constructor
      · rintro ⟨files', h⟩
        simp [attachHidden] at h
      · intro h
        obtain ⟨g, hg⟩ := h (k, .importNode f) (by simp)
        cases hg
    | stringDouble s =>
      constructor
      · rintro ⟨files', h⟩
        simp [attachHidden] at h
      · intro h
        obtain ⟨g, hg⟩ := h (k, .stringDouble s) (by simp)
        cases hg

theorem Nodes_eq (d : Document) (meta : Metadata) :
    Nodes d meta =
      match d.renderGroups d.toDocumentBase with
      | (_, some err) => .returned none (some err)
      | (files, none) =>
        match d.renderHiddenGroups d.toDocumentBase with
        | (_, some err) => .returned none (some err)
        | (hidden, none) =>
          match files, hidden with
          | some files, some hidden =>
            match attachHidden (files.set "_hidden" hidden) with
            | none => .panicked
            | some files =>
              .returned (some (files.set "k8s"
                (.object (attachImports (metadataRoot d.catalog meta) (mapKeys files))))) none
          | _, _ => .panicked := by
  simp only [Nodes, KVFromMap_metadataMap]
  rfl

theorem Nodes_success {d : Document} {meta : Metadata} {m : GoMap nm.Noder} {e : Option Error}
    (h : Nodes d meta = .returned (some m) e) :
    e = none ∧ ∃ files hidden files',
      d.renderGroups d.toDocumentBase = (some files, none) ∧
      d.renderHiddenGroups d.toDocumentBase = (some hidden, none) ∧
      attachHidden (files.set "_hidden" hidden) = some files' ∧
      m = files'.set "k8s"
        (.object (attachImports (metadataRoot d.catalog meta) (mapKeys files'))) := by
  rw [Nodes_eq] at h
  rcases hg : d.renderGroups d.toDocumentBase with ⟨files, _ | err⟩
  · rcases hh : d.renderHiddenGroups d.toDocumentBase with ⟨hidden, _ | err'⟩
    · rw [hg, hh] at h
      cases files with
      | none => cases hidden <;> simp at h
      | some files =>
        cases hidden with
        | none => simp at h
        | some hidden =>
          cases ha : attachHidden (files.set "_hidden" hidden) with
          | none => simp [ha] at h
          | some files' =>
            simp only [ha, NodesOutcome.returned.injEq, Option.some.injEq] at h
            exact ⟨h.2.symm, files, hidden, files', rfl, rfl, ha, h.1.symm⟩
    · rw [hg, hh] at h
      simp at h
  · rw [hg] at h
    simp at h

/-! ## The visible units -/

theorem renderGroupsLoop_some {d : DocumentBase} {gs : List Group} {out files : GoMap nm.Noder}
    (h : renderGroupsLoop d out gs = (some files, none)) (hnd : (gs.map Group.Name).Nodup) :
    (∀ k, k ∈ files.keys ↔ k ∈ out.keys ∨ k ∈ gs.map Group.Name) ∧
    (out.keys.Nodup → files.keys.Nodup) ∧
    (∀ g ∈ gs, ∃ o, d.renderFn d.objectNodeFn d.catalog nm.NewObject g = (o, none) ∧
      files.get g.Name = some (.object o)) ∧
    (∀ k, k ∉ gs.map Group.Name → files.get k = out.get k) := by
  induction gs generalizing out with
  | nil =>
    simp only [renderGroupsLoop, Prod.mk.injEq, Option.some.injEq, and_true] at h
    subst h
    simp
  | cons g rest ih =>
    have hnd' : g.Name ∉ rest.map Group.Name ∧ (rest.map Group.Name).Nodup :=
      List.nodup_cons.mp hnd
    rcases hr : d.renderFn d.objectNodeFn d.catalog nm.NewObject g with ⟨o, _ | err⟩
    · simp only [renderGroupsLoop, hr] at h
      obtain ⟨ih1, ih2, ih3, ih4⟩ := ih h hnd'.2
      refine ⟨?_, ?_, ?_, ?_⟩
      · intro k
        rw [ih1, GoMap.mem_keys_set]
        simp only [List.map_cons, List.mem_cons]
        tauto
      · intro ho
        exact ih2 (GoMap.nodup_keys_set ho _ _)
      · intro g' hg'
        rcases List.mem_cons.mp hg' with h' | h'
        · subst h'
          refine ⟨o, hr, ?_⟩
          rw [ih4 _ hnd'.1, GoMap.get_set]
          simp
        · exact ih3 g' h'
      · intro k hk
        have hk' : k ≠ g.Name ∧ k ∉ rest.map Group.Name := by
          simpa [not_or] using hk
        rw [ih4 k hk'.2, GoMap.get_set]
        simp [Ne.symm hk'.1]
    · simp [renderGroupsLoop, hr] at h

theorem Groups_eq_of_ok {d : DocumentBase} (h : d.typesFn.2 = none) :
    Groups d = groups d.typesFn.1 := by
  rcases ht : d.typesFn with ⟨rs, e⟩
  rw [ht] at h
  simp only at h
  subst h
  simp [Groups, ht]

theorem HiddenGroups_eq_of_ok {d : DocumentBase} (h : d.fieldsFn.2 = none) :
    HiddenGroups d = groups d.fieldsFn.1 := by
  rcases ht : d.fieldsFn with ⟨rs, e⟩
  rw [ht] at h
  simp only at h
  subst h
  simp [HiddenGroups, ht]

theorem renderGroups_typesFn {d : DocumentBase} {files : Option (GoMap nm.Noder)}
    (h : renderGroups d = (files, none)) :
    d.typesFn.2 = none ∧ renderGroupsLoop d [] (groups d.typesFn.1).1 = (files, none) := by
  rcases ht : d.typesFn with ⟨rs, _ | e⟩
  · have hG : Groups d = groups rs := by simp [Groups, ht]
    simp only [renderGroups, hG, groups] at h
    exact ⟨rfl, h⟩
  · simp [renderGroups, Groups, ht] at h

theorem renderGroups_some {d : DocumentBase} {files : GoMap nm.Noder}
    (h : renderGroups d = (some files, none)) :
    d.typesFn.2 = none ∧ files.keys.Nodup ∧
    (∀ k, k ∈ files.keys ↔ ∃ r ∈ d.typesFn.1, r.Group = k) ∧
    (∀ g ∈ (groups d.typesFn.1).1,
      ∃ o, d.renderFn d.objectNodeFn d.catalog nm.NewObject g = (o, none) ∧
        files.get g.Name = some (.object o)) := by
  obtain ⟨ht, hl⟩ := renderGroups_typesFn h
  obtain ⟨h1, h2, h3, _⟩ := renderGroupsLoop_some hl (groups_names_nodup _)
  refine ⟨ht, h2 (by simp [GoMap.keys]), ?_, h3⟩
  intro k
  rw [h1, mem_groups_names]
  simp [GoMap.keys]

theorem or_swap3 {a b c : Prop} : (a ∨ b ∨ c) ↔ (c ∨ b ∨ a) := by tauto

theorem Nodes_keys {d : Document} {meta : Metadata} {m : GoMap nm.Noder}
    (h : Nodes d meta = .returned (some m) none) :
    ∃ files, d.renderGroups d.toDocumentBase = (some files, none) ∧
      (∀ k, k ∈ m.keys ↔ k = "k8s" ∨ k = "_hidden" ∨ k ∈ files.keys) ∧
      (files.keys.Nodup → m.keys.Nodup) := by
  obtain ⟨_, files, hidden, files', hg, _, ha, hm⟩ := Nodes_success h
  obtain ⟨hk, _, _⟩ := attachHidden_some ha
  refine ⟨files, hg, ?_, ?_⟩
  · intro k
    rw [hm, GoMap.mem_keys_set, hk, GoMap.mem_keys_set]
  · intro hnd
    rw [hm]
    apply GoMap.nodup_keys_set
    rw [hk]
    exact GoMap.nodup_keys_set hnd _ _

theorem sampleUnits_spec :
    Nodes (sampleDocument sampleRecords []) sampleMeta = .returned (some sampleUnits) none := rfl

/-- C3: when `Nodes` succeeds with the production `renderGroups` (whatever the
other stages are, the production `renderHiddenGroups` included), the keys of the
returned map are exactly the group names of the full-schema types returned by
`typesFn`, `_hidden` and `k8s`. -/
theorem Nodes_key_set (d : Document) (meta : Metadata) (m : GoMap nm.Noder)
    (hg : d.renderGroups = renderGroups)
    (h : Nodes d meta = .returned (some m) none) (k : String) :
    k ∈ m.keys ↔ (∃ r ∈ d.typesFn.1, r.Group = k) ∨ k = "_hidden" ∨ k = "k8s" := by
  obtain ⟨files, hfiles, hk, _⟩ := Nodes_keys h
  rw [hg] at hfiles
  obtain ⟨_, _, hmem, _⟩ := renderGroups_some hfiles
  rw [hk, hmem]
  exact or_swap3

/-- Witness of C3 on the document of the four sample records. -/
theorem Nodes_key_set_witness :
    sampleUnits.keys = ["", "a", "b", "_hidden", "k8s"] ∧
    ("a" ∈ sampleUnits.keys ↔
      (∃ r ∈ (sampleDocument sampleRecords []).typesFn.1, r.Group = "a") ∨
        "a" = "_hidden" ∨ "a" = "k8s") :=
  ⟨by decide,
   Nodes_key_set (sampleDocument sampleRecords []) sampleMeta sampleUnits rfl
     sampleUnits_spec "a"⟩

/-- C4 fails as stated: one full-schema group named `k8s` gives a map of two keys,
not of three. -/
theorem Nodes_key_count_counterexample :
    unitNames (Nodes (sampleDocument reservedRecords []) sampleMeta) = some ["k8s", "_hidden"] ∧
    (groupNames (sampleDocument reservedRecords []).typesFn.1).length + 2 = 3 := by
  decide

/-- C4, amended: when no full-schema group is named `_hidden` or `k8s` and `Nodes`
succeeds, the returned map has exactly N + 2 distinct keys for the N distinct
group names of the full-schema types. -/
theorem Nodes_key_count (d : Document) (meta : Metadata) (m : GoMap nm.Noder)
    (hg : d.renderGroups = renderGroups)
    (hres : ∀ r ∈ d.typesFn.1, r.Group ≠ "_hidden" ∧ r.Group ≠ "k8s")
    (h : Nodes d meta = .returned (some m) none) :
    m.keys.Nodup ∧ m.keys.length = (groupNames d.typesFn.1).length + 2 := by
  obtain ⟨files, hfiles, hk, hnd⟩ := Nodes_keys h
  rw [hg] at hfiles
  obtain ⟨_, hfnd, hmem, _⟩ := renderGroups_some hfiles
  have hmnd := hnd hfnd
  refine ⟨hmnd, ?_⟩
  have hnot : ∀ k ∈ groupNames d.typesFn.1, k ≠ "_hidden" ∧ k ≠ "k8s" := by
    intro k hk'
    obtain ⟨r, hr, rfl⟩ : ∃ r ∈ d.typesFn.1, r.Group = k := by
      simpa [groupNames] using hk'
    exact hres r hr
  have hnd2 : (groupNames d.typesFn.1 ++ ["_hidden", "k8s"]).Nodup := by
    refine List.Nodup.append (List.nodup_dedup _) (by decide) ?_
    intro k hk1 hk2
    have := hnot k hk1
    simp only [List.mem_cons, List.mem_singleton, List.not_mem_nil, or_false] at hk2
    rcases hk2 with h' | h'
    · exact this.1 h'
    · exact this.2 h'
  have hperm : m.keys.Perm (groupNames d.typesFn.1 ++ ["_hidden", "k8s"]) := by
    refine (List.perm_ext_iff_of_nodup hmnd hnd2).mpr ?_
    intro k
    rw [hk, hmem]
    simp only [groupNames, List.mem_append, List.mem_dedup, List.mem_map, List.mem_cons,
      List.mem_singleton, List.not_mem_nil, or_false]
    exact or_swap3
  rw [hperm.length_eq]
  simp

/-- Witness of C4 on the document of the four sample records. -/
theorem Nodes_key_count_witness :
    (groupNames (sampleDocument sampleRecords []).typesFn.1).length = 3 ∧
    (sampleUnits.keys.Nodup ∧
      sampleUnits.keys.length = (groupNames (sampleDocument sampleRecords []).typesFn.1).length + 2) :=
  ⟨by decide,
   Nodes_key_count (sampleDocument sampleRecords []) sampleMeta sampleUnits rfl
     (by decide) sampleUnits_spec⟩

theorem libsonnet_injective {a b : String} (h : a ++ ".libsonnet" = b ++ ".libsonnet") : a = b := by
  have hd : (a ++ ".libsonnet").data = (b ++ ".libsonnet").data := by rw [h]
  rw [String.data_append, String.data_append] at hd
  exact String.ext (List.append_cancel_right hd)

theorem filter_eq_singleton {l : nm.Object} (hnd : (nm.Object.keyNames l).Nodup)
    (p : nm.Key × nm.Noder → Bool) (x : nm.Key × nm.Noder) (hx : x ∈ l) (hpx : p x = true)
    (huniq : ∀ y ∈ l, p y = true → y = x) : l.filter p = [x] := by
  induction l with
  | nil => cases hx
  | cons y rest ih =>
    have hnd' : y.1.name ∉ List.map (fun kv => kv.1.name) rest ∧
        (List.map (fun kv => kv.1.name) rest).Nodup := by
      simpa [nm.Object.keyNames] using hnd
    by_cases hyx : y = x
    · subst hyx
      have hrest : rest.filter p = [] := by
        apply List.filter_eq_nil_iff.mpr
        intro z hz hpz
        have hzy := huniq z (List.mem_cons_of_mem _ hz) hpz
        exact hnd'.1 (hzy ▸ List.mem_map.mpr ⟨z, hz, rfl⟩)
      simp [List.filter_cons, hpx, hrest]
    · have hpy : p y = false := by
        cases hp : p y with
        | false => rfl
        | true => exact absurd (huniq y (by simp) hp) hyx
      have hx' : x ∈ rest := by
        rcases List.mem_cons.mp hx with h | h
        · exact absurd h.symm hyx
        · exact h
      simp only [List.filter_cons, hpy]
      exact ih hnd'.2 hx' (fun z hz => huniq z (List.mem_cons_of_mem _ hz))

theorem mem_mapKeys (files : GoMap nm.Noder) (k : String) : k ∈ mapKeys files ↔ k ∈ files.keys :=
  (sortStrings_perm _).mem_iff

theorem Nodes_aggregate {d : Document} {meta : Metadata} {m : GoMap nm.Noder}
    (h : Nodes d meta = .returned (some m) none) :
    ∃ files names, d.renderGroups d.toDocumentBase = (some files, none) ∧
      (∀ k, k ∈ names ↔ k = "_hidden" ∨ k ∈ files.keys) ∧
      (∀ k, k ∈ m.keys ↔ k = "k8s" ∨ k ∈ names) ∧
      m.get "k8s" = some (.object (attachImports (metadataRoot d.catalog meta) names)) := by
  obtain ⟨_, files, hidden, files', hg, _, ha, hm⟩ := Nodes_success h
  obtain ⟨hk, _, _⟩ := attachHidden_some ha
  refine ⟨files, mapKeys files', hg, ?_, ?_, ?_⟩
  · intro k
    rw [mem_mapKeys, hk, GoMap.mem_keys_set]
  · intro k
    rw [hm, GoMap.mem_keys_set, mem_mapKeys]
  · rw [hm, GoMap.get_set]
    simp

theorem importsOf_hidden (o : nm.Object) (hnd : (nm.Object.keyNames o).Nodup)
    (ho : ∀ kv ∈ o, kv.2.isImport = false) (names : List String) (hmem : "_hidden" ∈ names) :
    nm.Object.importsOf (attachImports o names) "_hidden.libsonnet" = [importChild "_hidden"] := by
  apply filter_eq_singleton (nodup_keyNames_attachImports hnd names)
  · have hc : nm.Object.child (attachImports o names) "_hidden" = some (importChild "_hidden") := by
      rw [child_attachImports, if_pos hmem]
    exact (mem_of_child hc).1
  · rfl
  · intro y hy hpy
    have himp : y.2.isImport = true := by
      obtain ⟨k, v⟩ := y
      cases v <;> simp_all [nm.Noder.isImportOf, nm.Noder.isImport]
    obtain ⟨n, _, rfl⟩ := (mem_imports_attachImports hnd ho names y).mp
      (List.mem_filter.mpr ⟨hy, himp⟩)
    have hfile : n ++ ".libsonnet" = "_hidden" ++ ".libsonnet" := by
      simpa [importChild, nm.NewImport, nm.Noder.isImportOf] using hpy
    rw [libsonnet_injective hfile]

/-- C5 fails as stated: for the empty catalog the aggregate root has the child
`_hidden` that imports `_hidden.libsonnet`. -/
theorem Nodes_aggregate_hidden_counterexample :
    (unitRoot (Nodes (sampleDocument [] []) sampleMeta) "k8s").map
        (fun o => (nm.Object.importsOf o "_hidden.libsonnet").map Prod.fst)
      = some [nm.NewKey "_hidden" []] := by
  decide

/-- C5, amended: after a successful call of `Nodes` with the production
`renderGroups` the aggregate root stored under `k8s` imports the hidden unit
directly, through exactly one child, keyed `_hidden`; its import children are one
per group unit and this one. -/
theorem Nodes_aggregate_imports_hidden (d : Document) (meta : Metadata) (m : GoMap nm.Noder)
    (hg : d.renderGroups = renderGroups)
    (h : Nodes d meta = .returned (some m) none) :
    ∃ main, m.get "k8s" = some (.object main) ∧
      nm.Object.importsOf main "_hidden.libsonnet" = [importChild "_hidden"] ∧
      (nm.Object.keyNames (nm.Object.imports main)).Nodup ∧
      (∀ k, k ∈ nm.Object.keyNames (nm.Object.imports main) ↔
        (∃ r ∈ d.typesFn.1, r.Group = k) ∨ k = "_hidden") := by
  obtain ⟨files, names, hfiles, hnames, _, hget⟩ := Nodes_aggregate h
  rw [hg] at hfiles
  obtain ⟨_, _, hmem, _⟩ := renderGroups_some hfiles
  have hnd := metadataRoot_keyNames_nodup d.catalog meta
  have ho := metadataRoot_no_import d.catalog meta
  refine ⟨_, hget, importsOf_hidden _ hnd ho names ((hnames _).mpr (Or.inl rfl)), ?_, ?_⟩
  · exact (nodup_keyNames_attachImports hnd names).sublist
      (List.Sublist.map _ (List.filter_sublist _))
  · intro k
    have : k ∈ nm.Object.keyNames (nm.Object.imports
        (attachImports (metadataRoot d.catalog meta) names)) ↔ k ∈ names := by
      constructor
      · intro hk
        obtain ⟨kv, hkv, rfl⟩ := List.mem_map.mp hk
        obtain ⟨n, hn, rfl⟩ := (mem_imports_attachImports hnd ho names kv).mp hkv
        exact hn
      · intro hk
        exact List.mem_map.mpr
          ⟨importChild k, (mem_imports_attachImports hnd ho names _).mpr ⟨k, hk, rfl⟩, rfl⟩
    rw [this, hnames, hmem, or_comm]

/-- Witness of C5 (amended) on the document of the four sample records. -/
theorem Nodes_aggregate_imports_hidden_witness :
    ∃ main, sampleUnits.get "k8s" = some (.object main) ∧
      nm.Object.importsOf main "_hidden.libsonnet" = [importChild "_hidden"] ∧
      (nm.Object.keyNames (nm.Object.imports main)).Nodup ∧
      (∀ k, k ∈ nm.Object.keyNames (nm.Object.imports main) ↔
        (∃ r ∈ (sampleDocument sampleRecords []).typesFn.1, r.Group = k) ∨ k = "_hidden") :=
  Nodes_aggregate_imports_hidden (sampleDocument sampleRecords []) sampleMeta sampleUnits rfl
    sampleUnits_spec

/-- C6 fails as stated: with a full-schema group named `k8s` the aggregate root has
the import child `k8s`, so it imports itself. -/
theorem Nodes_aggregate_self_import_counterexample :
    (unitRoot (Nodes (sampleDocument reservedRecords []) sampleMeta) "k8s").map
        (fun o => nm.Object.keyNames (nm.Object.imports o))
      = some ["_hidden", "k8s"] ∧
    unitNames (Nodes (sampleDocument reservedRecords []) sampleMeta) = some ["k8s", "_hidden"] := by
  decide

/-- C6, amended: after a successful call of `Nodes` the import children of the
aggregate root stored under `k8s` have distinct key names, each is the child
keyed by a name that imports the name followed by `.libsonnet`, and for every
name other than `k8s` there is such a child exactly when the name is a key of the
returned map; a child `k8s`, the root importing itself, is present exactly when
the map of the visible units already held the key `k8s`, that is, with the
production `renderGroups`, when a full-schema group is named `k8s`. -/
theorem Nodes_aggregate_imports (d : Document) (meta : Metadata) (m : GoMap nm.Noder)
    (h : Nodes d meta = .returned (some m) none) :
    ∃ main, m.get "k8s" = some (.object main) ∧
      (nm.Object.keyNames (nm.Object.imports main)).Nodup ∧
      (∀ kv ∈ nm.Object.imports main, kv = importChild kv.1.name) ∧
      (∀ k, k ≠ "k8s" → (k ∈ nm.Object.keyNames (nm.Object.imports main) ↔ k ∈ m.keys)) ∧
      (d.renderGroups = renderGroups →
        ("k8s" ∈ nm.Object.keyNames (nm.Object.imports main) ↔
          ∃ r ∈ d.typesFn.1, r.Group = "k8s")) := by
  obtain ⟨files, names, hfiles, hnames, hkeys, hget⟩ := Nodes_aggregate h
  have hnd := metadataRoot_keyNames_nodup d.catalog meta
  have ho := metadataRoot_no_import d.catalog meta
  have hmemI : ∀ k, k ∈ nm.Object.keyNames (nm.Object.imports
      (attachImports (metadataRoot d.catalog meta) names)) ↔ k ∈ names := by
    intro k
    constructor
    · intro hk
      obtain ⟨kv, hkv, rfl⟩ := List.mem_map.mp hk
      obtain ⟨n, hn, rfl⟩ := (mem_imports_attachImports hnd ho names kv).mp hkv
      exact hn
    · intro hk
      exact List.mem_map.mpr
        ⟨importChild k, (mem_imports_attachImports hnd ho names _).mpr ⟨k, hk, rfl⟩, rfl⟩
  refine ⟨_, hget, ?_, ?_, ?_, ?_⟩
  · exact (nodup_keyNames_attachImports hnd names).sublist
      (List.Sublist.map _ (List.filter_sublist _))
  · intro kv hkv
    obtain ⟨n, _, rfl⟩ := (mem_imports_attachImports hnd ho names kv).mp hkv
    rfl
  · intro k hk
    rw [hmemI, hkeys]
    simp [hk]
  · intro hg
    rw [hg] at hfiles
    obtain ⟨_, _, hmem, _⟩ := renderGroups_some hfiles
    rw [hmemI, hnames, hmem]
    simp

/-- Witness of C6 (amended) on the document of the four sample records. -/
theorem Nodes_aggregate_imports_witness :
    ∃ main, sampleUnits.get "k8s" = some (.object main) ∧
      (nm.Object.keyNames (nm.Object.imports main)).Nodup ∧
      (∀ kv ∈ nm.Object.imports main, kv = importChild kv.1.name) ∧
      (∀ k, k ≠ "k8s" → (k ∈ nm.Object.keyNames (nm.Object.imports main) ↔ k ∈ sampleUnits.keys)) ∧
      ((sampleDocument sampleRecords []).renderGroups = renderGroups →
        ("k8s" ∈ nm.Object.keyNames (nm.Object.imports main) ↔
          ∃ r ∈ (sampleDocument sampleRecords []).typesFn.1, r.Group = "k8s")) :=
  Nodes_aggregate_imports (sampleDocument sampleRecords []) sampleMeta sampleUnits
    sampleUnits_spec

/-- C8 fails as stated: for the empty catalog `renderHiddenGroups` returns a root
without children, and the tree stored under `_hidden` has the local key `hidden`. -/
theorem Nodes_hidden_unit_counterexample :
    rootKeys (renderHiddenGroups (sampleDocument [] []).toDocumentBase).1 = some [] ∧
    (unitRoot (Nodes (sampleDocument [] []) sampleMeta) "_hidden").map (fun o => o.map Prod.fst)
      = some [nm.LocalKey "hidden"] := by
  decide

/-- C8, amended: `Nodes` sets the local import `hidden` on every unit of the map,
the hidden unit included: after a successful call the tree stored under `_hidden`
is the root that `renderHiddenGroups` returned with the local key `hidden`
importing `_hidden.libsonnet` set on it. -/
theorem Nodes_hidden_unit (d : Document) (meta : Metadata) (m : GoMap nm.Noder)
    (h : Nodes d meta = .returned (some m) none) :
    ∃ root, d.renderHiddenGroups d.toDocumentBase = (some (.object root), none) ∧
      m.get "_hidden" = some (.object (withHidden root)) ∧
      nm.Object.child (withHidden root) "hidden" = some hiddenChild := by
  obtain ⟨_, files, hidden, files', _, hh, ha, hm⟩ := Nodes_success h
  obtain ⟨_, hget, _⟩ := attachHidden_some ha
  obtain ⟨root, hroot, hget'⟩ := hget "_hidden" hidden (by rw [GoMap.get_set]; simp)
  subst hroot
  refine ⟨root, hh, ?_, ?_⟩
  · rw [hm, GoMap.get_set, hget']
    simp
  · simp [withHidden, nm.Object.Set0, child_Set, hiddenChild, nm.LocalKey]

/-- Witness of C8 (amended) on the document of the four sample records. -/
theorem Nodes_hidden_unit_witness :
    ∃ root, (sampleDocument sampleRecords []).renderHiddenGroups
        (sampleDocument sampleRecords []).toDocumentBase = (some (.object root), none) ∧
      sampleUnits.get "_hidden" = some (.object (withHidden root)) ∧
      nm.Object.child (withHidden root) "hidden" = some hiddenChild :=
  Nodes_hidden_unit (sampleDocument sampleRecords []) sampleMeta sampleUnits sampleUnits_spec

/-! ## The trees produced by `render` -/

theorem Set_all {P : nm.Key × nm.Noder → Prop} {o : nm.Object} (ho : ∀ kv ∈ o, P kv)
    {key : nm.Key} {v : nm.Noder} (hv : P (key, v)) : ∀ kv ∈ nm.Object.Set o key v, P kv := by
  intro kv hkv
  rcases mem_Set hkv with h | h
  · rw [h]; exact hv
  · exact ho kv h

theorem renderVersions_objects (fn : renderNodeFn) (c : Catalog) (vs : List Version)
    (o : nm.Object) (ho : ∀ kv ∈ o, ∃ fs, kv.2 = nm.Noder.object fs) :
    ∀ kv ∈ (renderVersions fn c o vs).1, ∃ fs, kv.2 = nm.Noder.object fs := by
  induction vs generalizing o with
  | nil => simpa [renderVersions] using ho
  | cons v rest ih =>
    rcases hr : renderObjects fn c v.Node v.APIObjects with ⟨versionNode, _ | err⟩
    · simp only [renderVersions, hr]
      exact ih _ (Set_all ho ⟨versionNode, rfl⟩)
    · simpa [renderVersions, hr] using ho

theorem render_objects (fn : renderNodeFn) (c : Catalog) (g : Group) :
    ∀ kv ∈ (render fn c nm.NewObject g).1, ∃ fs, kv.2 = nm.Noder.object fs :=
  renderVersions_objects fn c g.Versions nm.NewObject (by simp [nm.NewObject])

theorem importsOf_withHidden (o : nm.Object) (ho : ∀ kv ∈ o, ∃ fs, kv.2 = nm.Noder.object fs) :
    nm.Object.importsOf (withHidden o) "_hidden.libsonnet" = [hiddenChild] := by
  apply filter_Set_singleton
  · intro kv hkv
    obtain ⟨fs, hfs⟩ := ho kv hkv
    rw [hfs]
    rfl
  · rfl

theorem child_withHidden (o : nm.Object) :
    nm.Object.child (withHidden o) "hidden" = some hiddenChild := by
  simp [withHidden, nm.Object.Set0, child_Set, hiddenChild, nm.LocalKey]

theorem renderHiddenGroupsLoop_objects {d : DocumentBase} {gs : List Group} {con : nm.Object}
    {root : nm.Noder} (h : renderHiddenGroupsLoop d con gs = (some root, none))
    (hcon : ∀ kv ∈ con, ∃ fs, kv.2 = nm.Noder.object fs) :
    ∃ o, root = .object o ∧ ∀ kv ∈ o, ∃ fs, kv.2 = nm.Noder.object fs := by
  induction gs generalizing con with
  | nil =>
    simp only [renderHiddenGroupsLoop, Prod.mk.injEq, Option.some.injEq, and_true] at h
    exact ⟨con, h.symm, hcon⟩
  | cons g rest ih =>
    rcases hr : d.renderFn d.objectNodeFn d.catalog nm.NewObject g with ⟨o, _ | err⟩
    · simp only [renderHiddenGroupsLoop, hr] at h
      exact ih h (Set_all hcon ⟨o, rfl⟩)
    · simp [renderHiddenGroupsLoop, hr] at h

theorem renderHiddenGroups_objects {d : DocumentBase} {root : nm.Noder}
    (h : renderHiddenGroups d = (some root, none)) :
    ∃ o, root = .object o ∧ ∀ kv ∈ o, ∃ fs, kv.2 = nm.Noder.object fs := by
  rcases hG : HiddenGroups d with ⟨gs, _ | err⟩
  · simp only [renderHiddenGroups, hG] at h
    exact renderHiddenGroupsLoop_objects h (by simp [nm.NewObject])
  · simp [renderHiddenGroups, hG] at h

/-- C7 fails as stated: with a full-schema group named `k8s` the root stored under
the group's name is the aggregate root, which has no child under the key `hidden`;
its import of `_hidden.libsonnet` sits under the plain key `_hidden`. -/
theorem Nodes_visible_unit_counterexample :
    (groups (sampleDocument reservedRecords []).typesFn.1).1.map Group.Name = ["k8s"] ∧
    (unitRoot (Nodes (sampleDocument reservedRecords []) sampleMeta) "k8s").map
        (fun o => (nm.Object.child o "hidden").isSome) = some false ∧
    (unitRoot (Nodes (sampleDocument reservedRecords []) sampleMeta) "k8s").map
        (fun o => (nm.Object.importsOf o "_hidden.libsonnet").map Prod.fst)
      = some [nm.NewKey "_hidden" []] := by
  decide

/-- C7, amended: after a successful call of `Nodes` of a production document, the
root stored under the name of a full-schema group other than `k8s` has exactly one
child importing `_hidden.libsonnet`, the child under the local key `hidden`; when
the group is named neither `_hidden` nor `k8s`, the root is the tree that rendering
the group produced with that child set on it. -/
theorem Nodes_visible_unit (d : Document) (meta : Metadata) (m : GoMap nm.Noder)
    (hr : d.renderFn = render) (hg : d.renderGroups = renderGroups)
    (hh : d.renderHiddenGroups = renderHiddenGroups)
    (h : Nodes d meta = .returned (some m) none)
    (g : Group) (hmem : g ∈ (groups d.typesFn.1).1) (hk : g.Name ≠ "k8s") :
    (∃ unit, m.get g.Name = some (.object unit) ∧
      nm.Object.importsOf unit "_hidden.libsonnet" = [hiddenChild] ∧
      nm.Object.child unit "hidden" = some hiddenChild) ∧
    (g.Name ≠ "_hidden" →
      (render d.objectNodeFn d.catalog nm.NewObject g).2 = none ∧
      m.get g.Name =
        some (.object (withHidden (render d.objectNodeFn d.catalog nm.NewObject g).1))) := by
  obtain ⟨_, files, hidden, files', hfiles, hhidden, ha, hm⟩ := Nodes_success h
  obtain ⟨_, hget, _⟩ := attachHidden_some ha
  rw [hg] at hfiles
  rw [hh] at hhidden
  obtain ⟨_, _, _, hgroups⟩ := renderGroups_some hfiles
  obtain ⟨o, ho, hfo⟩ := hgroups g hmem
  rw [hr] at ho
  have hmget : m.get g.Name = files'.get g.Name := by
    rw [hm, GoMap.get_set]
    simp [Ne.symm hk]
  have hvis : g.Name ≠ "_hidden" →
      (render d.objectNodeFn d.catalog nm.NewObject g).2 = none ∧
      m.get g.Name =
        some (.object (withHidden (render d.objectNodeFn d.catalog nm.NewObject g).1)) := by
    intro hne
    have hfget : (files.set "_hidden" hidden).get g.Name = some (.object o) := by
      rw [GoMap.get_set]
      simp [Ne.symm hne, hfo]
    obtain ⟨o', ho', hget'⟩ := hget _ _ hfget
    cases ho'
    rw [hmget, hget', ho]
    exact ⟨rfl, rfl⟩
  refine ⟨?_, hvis⟩
  by_cases hne : g.Name = "_hidden"
  · obtain ⟨root, hroot, hobjs⟩ := renderHiddenGroups_objects hhidden
    have hfget : (files.set "_hidden" hidden).get g.Name = some (.object root) := by
      rw [GoMap.get_set]
      simp [hne, hroot]
    obtain ⟨o', ho', hget'⟩ := hget _ _ hfget
    cases ho'
    exact ⟨_, hmget.trans hget', importsOf_withHidden _ hobjs, child_withHidden _⟩
  · obtain ⟨_, hmg⟩ := hvis hne
    refine ⟨_, hmg, importsOf_withHidden _ (render_objects _ _ _), child_withHidden _⟩

/-- Witness of C7 (amended) on the document of the four sample records, for the
group `a`. -/
theorem Nodes_visible_unit_witness :
    (∃ unit, sampleUnits.get (received "a" sampleRecords).Name = some (.object unit) ∧
      nm.Object.importsOf unit "_hidden.libsonnet" = [hiddenChild] ∧
      nm.Object.child unit "hidden" = some hiddenChild) ∧
    ((received "a" sampleRecords).Name ≠ "_hidden" →
      (render sampleNodeFn (sampleCatalog sampleRecords []) nm.NewObject
        (received "a" sampleRecords)).2 = none ∧
      sampleUnits.get (received "a" sampleRecords).Name =
        some (.object (withHidden (render sampleNodeFn (sampleCatalog sampleRecords [])
          nm.NewObject (received "a" sampleRecords)).1))) :=
  Nodes_visible_unit (sampleDocument sampleRecords []) sampleMeta sampleUnits rfl rfl rfl
    sampleUnits_spec (received "a" sampleRecords) (by decide) (by decide)

theorem mapKeys_spec (files : GoMap nm.Noder) (hnd : files.keys.Nodup) :
    (mapKeys files).Pairwise strLT ∧ (mapKeys files).Perm files.keys ∧
    ∀ files' : GoMap nm.Noder, files'.Perm files → mapKeys files' = mapKeys files :=
  ⟨sortStrings_strict hnd, sortStrings_perm _,
   fun _ hp => sortStrings_eq_of_perm (hp.map Prod.fst)⟩

theorem renderGroups_keys_nodup (d : DocumentBase) (files : GoMap nm.Noder)
    (h : renderGroups d = (some files, none)) : files.keys.Nodup :=
  (renderGroups_some h).2.1


/-! ## Failure propagation -/

theorem renderObjects_ok_iff (fn : renderNodeFn) (c : Catalog) (rs : List Object)
    (versionNode : nm.Object) :
    (renderObjects fn c versionNode rs).2 = none ↔ ∀ r ∈ rs, ∃ o, fn c r = .ok o := by
  induction rs generalizing versionNode with
  | nil => simp [renderObjects]
  | cons r rest ih =>
    cases hr : fn c r with
    | error e => simp [renderObjects, hr]
    | ok o => simp [renderObjects, hr, ih]

theorem renderVersions_ok_iff (fn : renderNodeFn) (c : Catalog) (vs : List Version)
    (o : nm.Object) :
    (renderVersions fn c o vs).2 = none ↔
      ∀ v ∈ vs, ∀ r ∈ v.APIObjects, ∃ n, fn c r = .ok n := by
  induction vs generalizing o with
  | nil => simp [renderVersions]
  | cons v rest ih =>
    rcases hr : renderObjects fn c v.Node v.APIObjects with ⟨versionNode, _ | err⟩
    · have hv : ∀ r ∈ v.APIObjects, ∃ n, fn c r = .ok n := by
        rw [← renderObjects_ok_iff fn c v.APIObjects v.Node, hr]
      simp only [renderVersions, hr, ih, List.mem_cons, forall_eq_or_imp]
      exact ⟨fun h => ⟨hv, h⟩, fun h => h.2⟩
    · have hv : ¬ ∀ r ∈ v.APIObjects, ∃ n, fn c r = .ok n := by
        rw [← renderObjects_ok_iff fn c v.APIObjects v.Node, hr]
        simp
      simp only [renderVersions, hr, List.mem_cons, forall_eq_or_imp]
      constructor
      · intro h; cases h
      · intro h; exact absurd h.1 hv

theorem not_builderFails_iff (d : DocumentBase) (gs : List Group) :
    ¬ builderFails d gs ↔
      ∀ g ∈ gs, (render d.objectNodeFn d.catalog nm.NewObject g).2 = none := by
  have hex : ∀ r, (∃ n, d.objectNodeFn d.catalog r = .ok n) ↔
      ¬ ∃ e, d.objectNodeFn d.catalog r = .error e := by
    intro r
    cases d.objectNodeFn d.catalog r <;> simp
  simp only [builderFails, render, renderVersions_ok_iff, hex]
  push_neg
  rfl

theorem mem_GoMap_set {β : Type} {m : GoMap β} {k : String} {v : β} {kv : String × β}
    (h : kv ∈ m.set k v) : kv = (k, v) ∨ kv ∈ m := by
  induction m with
  | nil => simpa [GoMap.set] using h
  | cons p rest ih =>
    obtain ⟨a, b⟩ := p
    by_cases hak : a = k
    · simp only [GoMap.set, hak, if_true, List.mem_cons] at h
      rcases h with h | h
      · exact Or.inl h
      · exact Or.inr (List.mem_cons_of_mem _ h)
    · simp only [GoMap.set, hak, if_false, List.mem_cons] at h
      rcases h with h | h
      · exact Or.inr (by simp [h])
      · rcases ih h with h' | h'
        · exact Or.inl h'
        · exact Or.inr (List.mem_cons_of_mem _ h')

theorem renderGroupsLoop_ok {d : DocumentBase} (gs : List Group) (out : GoMap nm.Noder)
    (hok : ∀ g ∈ gs, (d.renderFn d.objectNodeFn d.catalog nm.NewObject g).2 = none)
    (hout : ∀ kv ∈ out, ∃ o, kv.2 = nm.Noder.object o) :
    ∃ files, renderGroupsLoop d out gs = (some files, none) ∧
      ∀ kv ∈ files, ∃ o, kv.2 = nm.Noder.object o := by
  induction gs generalizing out with
  | nil => exact ⟨out, rfl, hout⟩
  | cons g rest ih =>
    rcases hr : d.renderFn d.objectNodeFn d.catalog nm.NewObject g with ⟨o, _ | err⟩
    · simp only [renderGroupsLoop, hr]
      apply ih _ (fun g' hg' => hok g' (List.mem_cons_of_mem _ hg'))
      intro kv hkv
      rcases mem_GoMap_set hkv with h | h
      · exact ⟨o, by rw [h]⟩
      · exact hout kv h
    · have := hok g (by simp)
      rw [hr] at this
      cases this

theorem renderGroupsLoop_fail {d : DocumentBase} (gs : List Group) (out : GoMap nm.Noder)
    (hfail : ¬ ∀ g ∈ gs, (d.renderFn d.objectNodeFn d.catalog nm.NewObject g).2 = none) :
    ∃ e, renderGroupsLoop d out gs = (none, some e) := by
  induction gs generalizing out with
  | nil => exact absurd (by simp) hfail
  | cons g rest ih =>
    rcases hr : d.renderFn d.objectNodeFn d.catalog nm.NewObject g with ⟨o, _ | err⟩
    · simp only [renderGroupsLoop, hr]
      apply ih
      intro hrest
      apply hfail
      intro g' hg'
      rcases List.mem_cons.mp hg' with h | h
      · rw [h, hr]
      · exact hrest g' h
    · exact ⟨err.wrap "render groups", by simp only [renderGroupsLoop, hr]⟩

theorem renderHiddenGroupsLoop_ok {d : DocumentBase} (gs : List Group) (con : nm.Object)
    (hok : ∀ g ∈ gs, (d.renderFn d.objectNodeFn d.catalog nm.NewObject g).2 = none) :
    ∃ root, renderHiddenGroupsLoop d con gs = (some (.object root), none) := by
  induction gs generalizing con with
  | nil => exact ⟨con, rfl⟩
  | cons g rest ih =>
    rcases hr : d.renderFn d.objectNodeFn d.catalog nm.NewObject g with ⟨o, _ | err⟩
    · simp only [renderHiddenGroupsLoop, hr]
      exact ih _ (fun g' hg' => hok g' (List.mem_cons_of_mem _ hg'))
    · have := hok g (by simp)
      rw [hr] at this
      cases this

theorem renderHiddenGroupsLoop_fail {d : DocumentBase} (gs : List Group) (con : nm.Object)
    (hfail : ¬ ∀ g ∈ gs, (d.renderFn d.objectNodeFn d.catalog nm.NewObject g).2 = none) :
    ∃ e, renderHiddenGroupsLoop d con gs = (none, some e) := by
  induction gs generalizing con with
  | nil => exact absurd (by simp) hfail
  | cons g rest ih =>
    rcases hr : d.renderFn d.objectNodeFn d.catalog nm.NewObject g with ⟨o, _ | err⟩
    · simp only [renderHiddenGroupsLoop, hr]
      apply ih
      intro hrest
      apply hfail
      intro g' hg'
      rcases List.mem_cons.mp hg' with h | h
      · rw [h, hr]
      · exact hrest g' h
    · exact ⟨err.wrap "render hidden groups", by simp only [renderHiddenGroupsLoop, hr]⟩

/-! ## The records of the groups -/

theorem mem_insertVersion (v w : Version) (l : List Version) :
    w ∈ insertVersion v l ↔ w = v ∨ w ∈ l := by
  induction l with
  | nil => simp [insertVersion]
  | cons x rest ih =>
    by_cases h : strLE v.name x.name
    · simp [insertVersion, h]
    · simp only [insertVersion, h, if_false, List.mem_cons, ih]
      tauto

theorem mem_Versions (g : Group) (w : Version) : w ∈ g.Versions ↔ w ∈ g.versions := by
  unfold Group.Versions
  induction g.versions with
  | nil => simp
  | cons v rest ih => simp [List.foldr_cons, mem_insertVersion, ih]

theorem exists_mem_cons_resources (r : Object) (x : Version) (rest : List Version) :
    (∃ v ∈ x :: rest, r ∈ v.resources) ↔ r ∈ x.resources ∨ ∃ v ∈ rest, r ∈ v.resources := by
  constructor
  · rintro ⟨v, hv, hr⟩
    rcases List.mem_cons.mp hv with h | h
    · exact Or.inl (h ▸ hr)
    · exact Or.inr ⟨v, h, hr⟩
  · rintro (h | ⟨v, hv, hr⟩)
    · exact ⟨x, by simp, h⟩
    · exact ⟨v, List.mem_cons_of_mem _ hv, hr⟩

theorem mem_addToVersions (res r : Object) (vs : List Version) :
    (∃ v ∈ addToVersions res vs, r ∈ v.resources) ↔ r = res ∨ ∃ v ∈ vs, r ∈ v.resources := by
  induction vs with
  | nil => simp [addToVersions]
  | cons x rest ih =>
    by_cases h : x.name = res.version
    · simp only [addToVersions, h, if_true, exists_mem_cons_resources, List.mem_append,
        List.mem_singleton]
      tauto
    · simp only [addToVersions, h, if_false, exists_mem_cons_resources, ih]
      tauto

theorem mem_foldl_AddResource (l : List Object) (g : Group) (r : Object) :
    (∃ v ∈ (l.foldl Group.AddResource g).versions, r ∈ v.resources) ↔
      r ∈ l ∨ ∃ v ∈ g.versions, r ∈ v.resources := by
  induction l generalizing g with
  | nil => simp
  | cons x rest ih =>
    rw [List.foldl_cons, ih]
    have : (∃ v ∈ (g.AddResource x).versions, r ∈ v.resources) ↔
        r = x ∨ ∃ v ∈ g.versions, r ∈ v.resources := mem_addToVersions x r g.versions
    rw [this, List.mem_cons]
    tauto

theorem mem_received (k : String) (rs : List Object) (r : Object) :
    (∃ v ∈ (received k rs).Versions, r ∈ v.APIObjects) ↔ r ∈ rs ∧ r.Group = k := by
  have h1 : (∃ v ∈ (received k rs).Versions, r ∈ v.APIObjects) ↔
      ∃ v ∈ (received k rs).versions, r ∈ v.resources := by
    constructor
    · rintro ⟨v, hv, hr⟩
      exact ⟨v, (mem_Versions _ v).mp hv, hr⟩
    · rintro ⟨v, hv, hr⟩
      exact ⟨v, (mem_Versions _ v).mpr hv, hr⟩
  rw [h1]
  unfold received
  rw [mem_foldl_AddResource]
  simp [NewGroup]

theorem mem_groups_records (rs : List Object) (r : Object) :
    (∃ g ∈ (groups rs).1, ∃ v ∈ g.Versions, r ∈ v.APIObjects) ↔ r ∈ rs := by
  constructor
  · rintro ⟨g, hg, hv⟩
    rw [mem_groups_eq_received hg] at hv
    exact ((mem_received _ rs r).mp hv).1
  · intro hr
    obtain ⟨g, hg, hname⟩ := List.mem_map.mp ((mem_groups_names rs r.Group).mpr ⟨r, hr, rfl⟩)
    refine ⟨g, hg, ?_⟩
    rw [mem_groups_eq_received hg]
    exact (mem_received _ rs r).mpr ⟨hr, hname.symm⟩

theorem builderFails_groups_iff (d : DocumentBase) (rs : List Object) :
    builderFails d (groups rs).1 ↔ ∃ r ∈ rs, ∃ e, d.objectNodeFn d.catalog r = .error e := by
  constructor
  · rintro ⟨g, hg, v, hv, r, hr, e, he⟩
    exact ⟨r, (mem_groups_records rs r).mp ⟨g, hg, v, hv, hr⟩, e, he⟩
  · rintro ⟨r, hr, e, he⟩
    obtain ⟨g, hg, v, hv, hr'⟩ := (mem_groups_records rs r).mpr hr
    exact ⟨g, hg, v, hv, r, hr', e, he⟩

theorem renderGroups_fail {d : DocumentBase} (hr : d.renderFn = render)
    (h : d.typesFn.2 ≠ none ∨ builderFails d (Groups d).1) :
    ∃ e, renderGroups d = (none, some e) := by
  rcases ht : d.typesFn with ⟨rs, _ | err⟩
  · have hG : Groups d = groups rs := by simp [Groups, ht]
    rw [ht, hG] at h
    have hb : builderFails d (groups rs).1 := by
      rcases h with h | h
      · exact absurd rfl h
      · exact h
    have hloop := renderGroupsLoop_fail (d := d) (groups rs).1 []
      (by rw [hr]; exact fun hall => (not_builderFails_iff d _).mpr hall hb)
    simpa [renderGroups, hG, groups] using hloop
  · refine ⟨(err.wrap "retrieve resources").wrap "retrieve groups", ?_⟩
    simp only [renderGroups, Groups, ht]

theorem renderGroups_ok {d : DocumentBase} (hr : d.renderFn = render)
    (h : ¬ (d.typesFn.2 ≠ none ∨ builderFails d (Groups d).1)) :
    ∃ files, renderGroups d = (some files, none) ∧
      ∀ kv ∈ files, ∃ o, kv.2 = nm.Noder.object o := by
  rcases ht : d.typesFn with ⟨rs, _ | err⟩
  · have hG : Groups d = groups rs := by simp [Groups, ht]
    rw [ht, hG] at h
    have hb : ¬ builderFails d (groups rs).1 := fun hb => h (Or.inr hb)
    have hloop := renderGroupsLoop_ok (d := d) (groups rs).1 []
      (by rw [hr]; exact (not_builderFails_iff d _).mp hb) (by simp)
    simpa [renderGroups, hG, groups] using hloop
  · rw [ht] at h
    exact absurd (Or.inl (by simp)) h

theorem renderHiddenGroups_fail {d : DocumentBase} (hr : d.renderFn = render)
    (h : d.fieldsFn.2 ≠ none ∨ builderFails d (HiddenGroups d).1) :
    ∃ e, renderHiddenGroups d = (none, some e) := by
  rcases ht : d.fieldsFn with ⟨rs, _ | err⟩
  · have hG : HiddenGroups d = groups rs := by simp [HiddenGroups, ht]
    rw [ht, hG] at h
    have hb : builderFails d (groups rs).1 := by
      rcases h with h | h
      · exact absurd rfl h
      · exact h
    have hloop := renderHiddenGroupsLoop_fail (d := d) (groups rs).1 nm.NewObject
      (by rw [hr]; exact fun hall => (not_builderFails_iff d _).mpr hall hb)
    simpa [renderHiddenGroups, hG, groups] using hloop
  · refine ⟨(err.wrap "retrieve types").wrap "retrieve hidden groups", ?_⟩
    simp only [renderHiddenGroups, HiddenGroups, ht]

theorem renderHiddenGroups_ok {d : DocumentBase} (hr : d.renderFn = render)
    (h : ¬ (d.fieldsFn.2 ≠ none ∨ builderFails d (HiddenGroups d).1)) :
    ∃ root, renderHiddenGroups d = (some (.object root), none) := by
  rcases ht : d.fieldsFn with ⟨rs, _ | err⟩
  · have hG : HiddenGroups d = groups rs := by simp [HiddenGroups, ht]
    rw [ht, hG] at h
    have hb : ¬ builderFails d (groups rs).1 := fun hb => h (Or.inr hb)
    have hloop := renderHiddenGroupsLoop_ok (d := d) (groups rs).1 nm.NewObject
      (by rw [hr]; exact (not_builderFails_iff d _).mp hb)
    simpa [renderHiddenGroups, hG, groups] using hloop
  · rw [ht] at h
    exact absurd (Or.inl (by simp)) h

theorem Nodes_fail {d : Document} (hr : d.renderFn = render) (hg : d.renderGroups = renderGroups)
    (hh : d.renderHiddenGroups = renderHiddenGroups) (meta : Metadata)
    (h : stageFails d.toDocumentBase) : ∃ e, Nodes d meta = .returned none (some e) := by
  rw [Nodes_eq, hg, hh]
  by_cases hv : d.typesFn.2 ≠ none ∨ builderFails d.toDocumentBase (Groups d.toDocumentBase).1
  · obtain ⟨e, he⟩ := renderGroups_fail hr hv
    exact ⟨e, by rw [he]⟩
  · obtain ⟨files, hfiles, _⟩ := renderGroups_ok hr hv
    have hhid : d.fieldsFn.2 ≠ none ∨
        builderFails d.toDocumentBase (HiddenGroups d.toDocumentBase).1 := by
      rcases h with h | h | h | h
      · exact absurd (Or.inl h) hv
      · exact Or.inl h
      · exact absurd (Or.inr h) hv
      · exact Or.inr h
    obtain ⟨e, he⟩ := renderHiddenGroups_fail hr hhid
    exact ⟨e, by rw [hfiles, he]⟩

theorem Nodes_ok {d : Document} (hr : d.renderFn = render) (hg : d.renderGroups = renderGroups)
    (hh : d.renderHiddenGroups = renderHiddenGroups) (meta : Metadata)
    (h : ¬ stageFails d.toDocumentBase) : ∃ m, Nodes d meta = .returned (some m) none := by
  rw [Nodes_eq, hg, hh]
  have hv : ¬ (d.typesFn.2 ≠ none ∨
      builderFails d.toDocumentBase (Groups d.toDocumentBase).1) := by
    rintro (h' | h')
    · exact h (Or.inl h')
    · exact h (Or.inr (Or.inr (Or.inl h')))
  have hhid : ¬ (d.fieldsFn.2 ≠ none ∨
      builderFails d.toDocumentBase (HiddenGroups d.toDocumentBase).1) := by
    rintro (h' | h')
    · exact h (Or.inr (Or.inl h'))
    · exact h (Or.inr (Or.inr (Or.inr h')))
  obtain ⟨files, hfiles, hobj⟩ := renderGroups_ok hr hv
  obtain ⟨root, hroot⟩ := renderHiddenGroups_ok hr hhid
  obtain ⟨files', ha⟩ := (attachHidden_isSome_iff (files.set "_hidden" (.object root))).mpr (by
    intro kv hkv
    rcases mem_GoMap_set hkv with h' | h'
    · exact ⟨root, by rw [h']⟩
    · exact hobj kv h')
  rw [hfiles, hroot]
  simp only [ha]
  exact ⟨_, rfl⟩

theorem stageFails_iff (d : DocumentBase) :
    stageFails d ↔
      d.typesFn.2 ≠ none ∨ d.fieldsFn.2 ≠ none ∨
        (∃ r ∈ d.typesFn.1, ∃ e, d.objectNodeFn d.catalog r = .error e) ∨
        (∃ r ∈ d.fieldsFn.1, ∃ e, d.objectNodeFn d.catalog r = .error e) := by
  unfold stageFails
  by_cases ht : d.typesFn.2 = none
  · by_cases hf : d.fieldsFn.2 = none
    · rw [Groups_eq_of_ok ht, HiddenGroups_eq_of_ok hf, builderFails_groups_iff,
        builderFails_groups_iff]
    · simp [hf]
  · simp [ht]

/-- C10: `Nodes` of a production document is all-or-nothing.  If `typesFn` or
`fieldsFn` returns an error, or the node-building function fails for a kind of a
visible or of a hidden group, `Nodes` returns a nil map and a non-nil error; it
returns a map exactly when none of these fail, and then the error is nil; it
returns a nil map together with an error or a map together with a nil error, and
does not panic.  The node-building function fails for a kind of a group exactly
when it fails for one of the retrieved records. -/
theorem Nodes_all_or_nothing (d : Document) (meta : Metadata)
    (hr : d.renderFn = render) (hg : d.renderGroups = renderGroups)
    (hh : d.renderHiddenGroups = renderHiddenGroups) :
    (stageFails d.toDocumentBase → ∃ e, Nodes d meta = .returned none (some e)) ∧
    ((∃ m e, Nodes d meta = .returned (some m) e) ↔ ¬ stageFails d.toDocumentBase) ∧
    (∀ m e, Nodes d meta = .returned (some m) e → e = none) ∧
    ((∃ e, Nodes d meta = .returned none (some e)) ∨
      (∃ m, Nodes d meta = .returned (some m) none)) ∧
    (stageFails d.toDocumentBase ↔
      d.typesFn.2 ≠ none ∨ d.fieldsFn.2 ≠ none ∨
        (∃ r ∈ d.typesFn.1, ∃ e, d.objectNodeFn d.catalog r = .error e) ∨
        (∃ r ∈ d.fieldsFn.1, ∃ e, d.objectNodeFn d.catalog r = .error e)) := by
  refine ⟨Nodes_fail hr hg hh meta, ?_, fun m e h => (Nodes_success h).1, ?_,
    stageFails_iff d.toDocumentBase⟩
  · constructor
    · rintro ⟨m, e, hm⟩ hfail
      obtain ⟨e', he'⟩ := Nodes_fail hr hg hh meta hfail
      rw [hm] at he'
      cases he'
    · intro hok
      obtain ⟨m, hm⟩ := Nodes_ok hr hg hh meta hok
      exact ⟨m, none, hm⟩
  · by_cases hfail : stageFails d.toDocumentBase
    · exact Or.inl (Nodes_fail hr hg hh meta hfail)
    · exact Or.inr (Nodes_ok hr hg hh meta hfail)

/-- Witness of C10: the node builder of the document fails on one hidden kind, and
`Nodes` returns a nil map and an error. -/
theorem Nodes_all_or_nothing_witness :
    stageFails failingDocument.toDocumentBase ∧
    ∃ e, Nodes failingDocument sampleMeta = .returned none (some e) :=
  have hfail : stageFails failingDocument.toDocumentBase :=
    Or.inr (Or.inr (Or.inr
      ⟨received "a" [mkRecord "a" "v1" "Pod", mkRecord "a" "v1" "Secret"], by decide,
        ⟨"v1", [mkRecord "a" "v1" "Pod", mkRecord "a" "v1" "Secret"]⟩, by decide,
        mkRecord "a" "v1" "Secret", by decide, .new "no node", rfl⟩))
  ⟨hfail, (Nodes_all_or_nothing failingDocument sampleMeta rfl rfl rfl).1 hfail⟩

/-! ## The failure of `render` -/

theorem wrap_message (cause : Error) (msg : String) :
    (Error.wrap cause msg).message = msg ++ ": " ++ cause.message := rfl

theorem renderObjects_error {fn : renderNodeFn} {c : Catalog} {rs : List Object}
    {versionNode : nm.Object} {err : Error}
    (h : (renderObjects fn c versionNode rs).2 = some err) :
    ∃ pre r post cause, rs = pre ++ r :: post ∧ (∀ x ∈ pre, ∃ n, fn c x = .ok n) ∧
      fn c r = .error cause ∧ err = .wrap cause ("create node " ++ r.Kind) ∧
      renderObjectsCalls fn c rs = pre ++ [r] := by
  induction rs generalizing versionNode with
  | nil => simp [renderObjects] at h
  | cons a rest ih =>
    cases ha : fn c a with
    | error cause =>
      simp only [renderObjects, ha, Option.some.injEq] at h
      exact ⟨[], a, rest, cause, rfl, by simp, ha, h.symm, by simp [renderObjectsCalls, ha]⟩
    | ok n =>
      simp only [renderObjects, ha] at h
      obtain ⟨pre, r, post, cause, hrs, hpre, hr, herr, hcalls⟩ := ih h
      refine ⟨a :: pre, r, post, cause, by simp [hrs], ?_, hr, herr, ?_⟩
      · intro x hx
        rcases List.mem_cons.mp hx with hx | hx
        · exact ⟨n, by rw [hx, ha]⟩
        · exact hpre x hx
      · simp [renderObjectsCalls, ha, hcalls]

theorem renderObjectsCalls_ok {fn : renderNodeFn} {c : Catalog} {rs : List Object}
    (h : ∀ r ∈ rs, ∃ n, fn c r = .ok n) : renderObjectsCalls fn c rs = rs := by
  induction rs with
  | nil => rfl
  | cons a rest ih =>
    obtain ⟨n, hn⟩ := h a (by simp)
    simp [renderObjectsCalls, hn, ih (fun r hr => h r (List.mem_cons_of_mem _ hr))]

theorem renderVersions_error {fn : renderNodeFn} {c : Catalog} {vs : List Version}
    {o : nm.Object} {err : Error} (h : (renderVersions fn c o vs).2 = some err) :
    ∃ pre r post cause, (vs.map Version.APIObjects).flatten = pre ++ r :: post ∧
      (∀ x ∈ pre, ∃ n, fn c x = .ok n) ∧ fn c r = .error cause ∧
      err = .wrap cause ("create node " ++ r.Kind) ∧
      renderVersionsCalls fn c vs = pre ++ [r] := by
  induction vs generalizing o with
  | nil => simp [renderVersions] at h
  | cons v rest ih =>
    rcases hv : renderObjects fn c v.Node v.APIObjects with ⟨versionNode, _ | e⟩
    · simp only [renderVersions, hv] at h
      obtain ⟨pre, r, post, cause, hrs, hpre, hr, herr, hcalls⟩ := ih h
      have hok : ∀ x ∈ v.APIObjects, ∃ n, fn c x = .ok n := by
        rw [← renderObjects_ok_iff fn c v.APIObjects v.Node, hv]
      refine ⟨v.APIObjects ++ pre, r, post, cause, by simp [hrs], ?_, hr, herr, ?_⟩
      · intro x hx
        rcases List.mem_append.mp hx with hx | hx
        · exact hok x hx
        · exact hpre x hx
      · simp [renderVersionsCalls, hv, hcalls, renderObjectsCalls_ok hok]
    · have hv2 : (renderObjects fn c v.Node v.APIObjects).2 = some e := by rw [hv]
      simp only [renderVersions, hv, Option.some.injEq] at h
      subst h
      obtain ⟨pre, r, post, cause, hrs, hpre, hr, herr, hcalls⟩ := renderObjects_error hv2
      refine ⟨pre, r, post ++ (rest.map Version.APIObjects).flatten, cause, ?_, hpre, hr, herr, ?_⟩
      · simp [hrs]
      · simp [renderVersionsCalls, hv, hcalls]

theorem render_error_of_fails {fn : renderNodeFn} {c : Catalog} (o : nm.Object) {g : Group}
    (h : ∃ r ∈ renderOrder g, ∃ e, fn c r = .error e) : ∃ err, (render fn c o g).2 = some err := by
  cases hr : (render fn c o g).2 with
  | some err => exact ⟨err, rfl⟩
  | none =>
    obtain ⟨r, hmem, e, he⟩ := h
    obtain ⟨l, hl, hrl⟩ := List.mem_flatten.mp hmem
    obtain ⟨v, hv, rfl⟩ := List.mem_map.mp hl
    obtain ⟨n, hn⟩ := (renderVersions_ok_iff fn c g.Versions o).mp hr v hv r hrl
    rw [hn] at he
    cases he

/-- C11: when the node-building function fails for a record, `render` aborts with
an error.  The error wraps the builder's error for the first record, in the
order of the versions and of their records, for which the builder fails; its
message is `create node <kind>: <cause>` for the kind of that record; the builder
succeeded for every record before it and has been invoked for these records and
for the failing one only. -/
theorem render_aborts_at_first_failure (fn : renderNodeFn) (c : Catalog) (o : nm.Object)
    (g : Group) :
    ((∃ r ∈ renderOrder g, ∃ e, fn c r = .error e) → ∃ err, (render fn c o g).2 = some err) ∧
    (∀ err, (render fn c o g).2 = some err →
      ∃ pre r post cause, renderOrder g = pre ++ r :: post ∧
        (∀ x ∈ pre, ∃ n, fn c x = .ok n) ∧ fn c r = .error cause ∧
        err = .wrap cause ("create node " ++ r.Kind) ∧
        err.message = "create node " ++ r.Kind ++ ": " ++ cause.message ∧
        renderCalls fn c g = pre ++ [r]) := by
  refine ⟨render_error_of_fails o, ?_⟩
  intro err herr
  obtain ⟨pre, r, post, cause, hrs, hpre, hr, he, hcalls⟩ := renderVersions_error herr
  exact ⟨pre, r, post, cause, hrs, hpre, hr, he, by rw [he, wrap_message], hcalls⟩

/-- Witness of C11: the builder fails on the kind `Secret`, the first record of the
second version; the record after it is not visited. -/
theorem render_aborts_at_first_failure_witness :
    renderOrder twoVersionGroup =
      [mkRecord "a" "v1" "Pod", mkRecord "a" "v2" "Secret", mkRecord "a" "v2" "Job"] ∧
    renderCalls failingNodeFn (sampleCatalog [] []) twoVersionGroup =
      [mkRecord "a" "v1" "Pod", mkRecord "a" "v2" "Secret"] ∧
    ((render failingNodeFn (sampleCatalog [] []) nm.NewObject twoVersionGroup).2.map
      Error.message) = some "create node Secret: no node" ∧
    ∃ err, (render failingNodeFn (sampleCatalog [] []) nm.NewObject twoVersionGroup).2 = some err :=
  ⟨by decide, by decide, by decide,
   (render_aborts_at_first_failure failingNodeFn (sampleCatalog [] []) nm.NewObject
     twoVersionGroup).1 ⟨mkRecord "a" "v2" "Secret", by decide, .new "no node", rfl⟩⟩

theorem renderVersions_error_root {fn : renderNodeFn} {c : Catalog} {vs : List Version}
    {o : nm.Object} {err : Error} (h : (renderVersions fn c o vs).2 = some err) :
    ∃ pre v post, vs = pre ++ v :: post ∧
      (∀ w ∈ pre, (renderObjects fn c w.Node w.APIObjects).2 = none) ∧
      (renderObjects fn c v.Node v.APIObjects).2 = some err ∧
      (renderVersions fn c o vs).1 = attachVersions fn c o pre := by
  induction vs generalizing o with
  | nil => simp [renderVersions] at h
  | cons v rest ih =>
    rcases hv : renderObjects fn c v.Node v.APIObjects with ⟨versionNode, _ | e⟩
    · simp only [renderVersions, hv] at h
      obtain ⟨pre, w, post, hvs, hpre, hw, hroot⟩ := ih h
      refine ⟨v :: pre, w, post, by simp [hvs], ?_, hw, ?_⟩
      · intro x hx
        rcases List.mem_cons.mp hx with hx | hx
        · rw [hx, hv]
        · exact hpre x hx
      · simp only [renderVersions, hv, hroot, attachVersions, List.foldl_cons, versionNodeOf]
    · simp only [renderVersions, hv, Option.some.injEq] at h
      subst h
      exact ⟨[], v, rest, rfl, by simp, by rw [hv], by simp [renderVersions, hv, attachVersions]⟩

/-- C12 fails as stated: the builder fails in the second version of the group, and
the root that was empty before the call holds the first version after it. -/
theorem render_error_root_counterexample :
    ((render failingNodeFn (sampleCatalog [] []) nm.NewObject twoVersionGroup).2.map
      Error.message) = some "create node Secret: no node" ∧
    nm.Object.keyNames (render failingNodeFn (sampleCatalog [] []) nm.NewObject twoVersionGroup).1
      = ["v1"] ∧
    nm.Object.keyNames nm.NewObject = [] := by
  decide

/-- C12, amended: when `render` returns an error, the failing version and the
versions after it are not attached to the root: the root holds what it held
before the call and the nodes of the versions that precede the failing one, set
on it in order; it is unchanged when the first version fails.  The callers
`renderGroups` and `renderHiddenGroups` drop the root: they return nil with the
error. -/
theorem render_error_root (fn : renderNodeFn) (c : Catalog) (o : nm.Object) (g : Group)
    (err : Error) (h : (render fn c o g).2 = some err) :
    (∃ pre v post, g.Versions = pre ++ v :: post ∧
      (∀ w ∈ pre, (renderObjects fn c w.Node w.APIObjects).2 = none) ∧
      (renderObjects fn c v.Node v.APIObjects).2 = some err ∧
      (render fn c o g).1 = attachVersions fn c o pre ∧
      (pre = [] → (render fn c o g).1 = o)) ∧
    (∀ d : DocumentBase, d.renderFn = render → d.objectNodeFn = fn → d.catalog = c →
      d.typesFn.2 = none → g ∈ (groups d.typesFn.1).1 →
      ∃ e, renderGroups d = (none, some e)) ∧
    (∀ d : DocumentBase, d.renderFn = render → d.objectNodeFn = fn → d.catalog = c →
      d.fieldsFn.2 = none → g ∈ (groups d.fieldsFn.1).1 →
      ∃ e, renderHiddenGroups d = (none, some e)) := by
  refine ⟨?_, ?_, ?_⟩
  · obtain ⟨pre, v, post, hvs, hpre, hv, hroot⟩ := renderVersions_error_root h
    refine ⟨pre, v, post, hvs, hpre, hv, hroot, ?_⟩
    intro hnil
    rw [show (render fn c o g).1 = attachVersions fn c o pre from hroot, hnil]
    rfl
  · intro d hr hfn hc ht hg
    subst hfn hc
    apply renderGroups_fail hr
    right
    rw [Groups_eq_of_ok ht]
    by_contra hnot
    have := (not_builderFails_iff d _).mp hnot g hg
    have h0 : (render d.objectNodeFn d.catalog nm.NewObject g).2 ≠ none := by
      intro h0
      have h1 := (renderVersions_ok_iff d.objectNodeFn d.catalog g.Versions nm.NewObject).mp h0
      have h2 := (renderVersions_ok_iff d.objectNodeFn d.catalog g.Versions o).mpr h1
      rw [show (render d.objectNodeFn d.catalog o g).2 = _ from h2] at h
      cases h
    exact h0 this
  · intro d hr hfn hc ht hg
    subst hfn hc
    apply renderHiddenGroups_fail hr
    right
    rw [HiddenGroups_eq_of_ok ht]
    by_contra hnot
    have := (not_builderFails_iff d _).mp hnot g hg
    have h0 : (render d.objectNodeFn d.catalog nm.NewObject g).2 ≠ none := by
      intro h0
      have h1 := (renderVersions_ok_iff d.objectNodeFn d.catalog g.Versions nm.NewObject).mp h0
      have h2 := (renderVersions_ok_iff d.objectNodeFn d.catalog g.Versions o).mpr h1
      rw [show (render d.objectNodeFn d.catalog o g).2 = _ from h2] at h
      cases h
    exact h0 this

/-- Witness of C12 (amended): the builder fails in the second version of the
group. -/
theorem render_error_root_witness :
    (∃ pre v post, twoVersionGroup.Versions = pre ++ v :: post ∧
      (∀ w ∈ pre,
        (renderObjects failingNodeFn failingVisibleDocument.catalog w.Node w.APIObjects).2 = none) ∧
      (renderObjects failingNodeFn failingVisibleDocument.catalog v.Node v.APIObjects).2 =
        some (.wrap (.new "no node") "create node Secret") ∧
      (render failingNodeFn failingVisibleDocument.catalog nm.NewObject twoVersionGroup).1 =
        attachVersions failingNodeFn failingVisibleDocument.catalog nm.NewObject pre ∧
      (pre = [] →
        (render failingNodeFn failingVisibleDocument.catalog nm.NewObject twoVersionGroup).1 =
          nm.NewObject)) ∧
    ∃ e, renderGroups failingVisibleDocument.toDocumentBase = (none, some e) :=
  have h := render_error_root failingNodeFn failingVisibleDocument.catalog nm.NewObject
    twoVersionGroup (.wrap (.new "no node") "create node Secret") (by decide)
  ⟨h.1, h.2.1 failingVisibleDocument.toDocumentBase rfl rfl rfl rfl (by decide)⟩

/-! ## The errors of the retrieval calls -/

/-- C13: when `typesFn` fails with an error, `Groups` returns no groups and that
error wrapped with the label `retrieve resources`; when `fieldsFn` fails,
`HiddenGroups` returns no groups and the error wrapped with the label
`retrieve types`; when the retrieval call succeeds neither returns an error, as
grouping never fails. -/
theorem Groups_error_wrapping (d : DocumentBase) :
    (∀ rs e, d.typesFn = (rs, some e) →
      Groups d = ([], some (.wrap e "retrieve resources")) ∧
      (Groups d).2.map Error.message = some ("retrieve resources: " ++ e.message) ∧
      (Groups d).2.bind Error.cause = some e) ∧
    (∀ rs e, d.fieldsFn = (rs, some e) →
      HiddenGroups d = ([], some (.wrap e "retrieve types")) ∧
      (HiddenGroups d).2.map Error.message = some ("retrieve types: " ++ e.message) ∧
      (HiddenGroups d).2.bind Error.cause = some e) ∧
    (d.typesFn.2 = none → (Groups d).2 = none) ∧
    (d.fieldsFn.2 = none → (HiddenGroups d).2 = none) ∧
    (∀ rs, (groups rs).2 = none) := by
  refine ⟨?_, ?_, ?_, ?_, fun rs => rfl⟩
  · intro rs e h
    have hG : Groups d = ([], some (.wrap e "retrieve resources")) := by
      simp only [Groups, h]
    rw [hG]
    exact ⟨rfl, rfl, rfl⟩
  · intro rs e h
    have hG : HiddenGroups d = ([], some (.wrap e "retrieve types")) := by
      simp only [HiddenGroups, h]
    rw [hG]
    exact ⟨rfl, rfl, rfl⟩
  · intro h
    rw [Groups_eq_of_ok h]
    rfl
  · intro h
    rw [HiddenGroups_eq_of_ok h]
    rfl

/-- Witness of C13 on a document whose catalog fails both retrieval calls, and on
the document of the four sample records. -/
theorem Groups_error_wrapping_witness :
    (Groups brokenCatalogDocument.toDocumentBase =
        ([], some (.wrap (.new "no types") "retrieve resources")) ∧
      (Groups brokenCatalogDocument.toDocumentBase).2.map Error.message =
        some ("retrieve resources: " ++ (Error.new "no types").message) ∧
      (Groups brokenCatalogDocument.toDocumentBase).2.bind Error.cause =
        some (.new "no types")) ∧
    (HiddenGroups brokenCatalogDocument.toDocumentBase =
        ([], some (.wrap (.new "no fields") "retrieve types")) ∧
      (HiddenGroups brokenCatalogDocument.toDocumentBase).2.map Error.message =
        some ("retrieve types: " ++ (Error.new "no fields").message) ∧
      (HiddenGroups brokenCatalogDocument.toDocumentBase).2.bind Error.cause =
        some (.new "no fields")) ∧
    (Groups (sampleDocument sampleRecords []).toDocumentBase).2 = none :=
  ⟨(Groups_error_wrapping brokenCatalogDocument.toDocumentBase).1 [] (.new "no types") rfl,
   (Groups_error_wrapping brokenCatalogDocument.toDocumentBase).2.1 [] (.new "no fields") rfl,
   (Groups_error_wrapping (sampleDocument sampleRecords []).toDocumentBase).2.2.1 rfl⟩

/-- C17: `Document.groups` applied to the empty record list returns the empty group
list and a nil error, and so do `Groups` and `HiddenGroups` of a document whose
retrieval calls return no records. -/
theorem groups_empty :
    groups [] = ([], none) ∧
    (groups []).1.length = 0 ∧
    Groups (sampleDocument [] []).toDocumentBase = ([], none) ∧
    HiddenGroups (sampleDocument [] []).toDocumentBase = ([], none) := by
  decide

/-! ## The hidden unit -/

theorem Set_fresh (o : nm.Object) (key : nm.Key) (v : nm.Noder)
    (h : key.name ∉ nm.Object.keyNames o) : nm.Object.Set o key v = o ++ [(key, v)] := by
  induction o with
  | nil => rfl
  | cons p rest ih =>
    obtain ⟨k, w⟩ := p
    have hk : ¬ k.name = key.name := by
      intro hk
      exact h (by simp [nm.Object.keyNames, hk])
    have hrest : key.name ∉ nm.Object.keyNames rest := by
      intro hmem
      exact h (by
        simp only [nm.Object.keyNames, List.map_cons, List.mem_cons]
        exact Or.inr hmem)
    simp only [nm.Object.Set, hk, if_false, List.cons_append]
    rw [ih hrest]

theorem renderHiddenGroupsLoop_some {d : DocumentBase} {gs : List Group} {con : nm.Object}
    {root : nm.Noder} (h : renderHiddenGroupsLoop d con gs = (some root, none))
    (hnd : (gs.map Group.Name).Nodup) (hfresh : ∀ g ∈ gs, g.Name ∉ nm.Object.keyNames con) :
    root = .object (con ++ gs.map (hiddenGroupChild d)) ∧
    ∀ g ∈ gs, (d.renderFn d.objectNodeFn d.catalog nm.NewObject g).2 = none := by
  induction gs generalizing con with
  | nil =>
    simp only [renderHiddenGroupsLoop, Prod.mk.injEq, Option.some.injEq, and_true] at h
    simp [h]
  | cons g rest ih =>
    have hnd' : g.Name ∉ rest.map Group.Name ∧ (rest.map Group.Name).Nodup :=
      List.nodup_cons.mp hnd
    rcases hr : d.renderFn d.objectNodeFn d.catalog nm.NewObject g with ⟨o, _ | err⟩
    · simp only [renderHiddenGroupsLoop, hr] at h
      have hset : nm.Object.Set con (nm.NewKey g.Name []) (.object o)
          = con ++ [hiddenGroupChild d g] := by
        rw [Set_fresh _ _ _ (by simpa [NewKey_nil_name] using hfresh g (by simp))]
        simp [hiddenGroupChild, hr]
      rw [hset] at h
      obtain ⟨hroot, hok⟩ := ih h hnd'.2 (by
        intro g' hg' hmem
        have : g'.Name ∈ nm.Object.keyNames con ∨ g'.Name = g.Name := by
          simpa [nm.Object.keyNames, hiddenGroupChild, NewKey_nil_name] using hmem
        rcases this with h' | h'
        · exact hfresh g' (List.mem_cons_of_mem _ hg') h'
        · exact hnd'.1 (h' ▸ List.mem_map.mpr ⟨g', hg', rfl⟩))
      refine ⟨by simp [hroot], ?_⟩
      intro g' hg'
      rcases List.mem_cons.mp hg' with h' | h'
      · rw [h', hr]
      · exact hok g' h'
    · simp [renderHiddenGroupsLoop, hr] at h

/-- C15: when `renderHiddenGroups` succeeds it returns one shared root whose
children are, in ascending order of the group names, one child per distinct
group name of the field-only records, keyed by the group name and holding the
root obtained by rendering that group alone. -/
theorem renderHiddenGroups_shared_root (d : DocumentBase) (root : nm.Noder)
    (h : renderHiddenGroups d = (some root, none)) :
    d.fieldsFn.2 = none ∧
    root = .object ((groups d.fieldsFn.1).1.map (hiddenGroupChild d)) ∧
    (∀ g ∈ (groups d.fieldsFn.1).1,
      (d.renderFn d.objectNodeFn d.catalog nm.NewObject g).2 = none) ∧
    ((groups d.fieldsFn.1).1.map Group.Name).Pairwise strLT ∧
    ((groups d.fieldsFn.1).1.map Group.Name).Perm (groupNames d.fieldsFn.1) ∧
    (∀ o, root = .object o → nm.Object.keyNames o = (groups d.fieldsFn.1).1.map Group.Name) := by
  rcases ht : d.fieldsFn with ⟨rs, _ | e⟩
  · have hG : HiddenGroups d = groups rs := by simp [HiddenGroups, ht]
    simp only [renderHiddenGroups, hG, groups] at h
    obtain ⟨hroot, hok⟩ := renderHiddenGroupsLoop_some h (groups_names_nodup rs)
      (by simp [nm.NewObject, nm.Object.keyNames])
    have hroot' : root = .object ((groups rs).1.map (hiddenGroupChild d)) := by
      simpa [nm.NewObject] using hroot
    refine ⟨rfl, hroot', hok, groups_names_pairwise rs, groups_names_perm rs, ?_⟩
    intro o ho
    rw [hroot'] at ho
    cases ho
    simp [nm.Object.keyNames, hiddenGroupChild, NewKey_nil_name, Function.comp_def]
  · simp [renderHiddenGroups, HiddenGroups, ht] at h

/-- Witness of C15 on the production document whose field-only records are the
four sample records. -/
theorem renderHiddenGroups_shared_root_witness :
    rootKeys (renderHiddenGroups (sampleDocument [] sampleRecords).toDocumentBase).1 =
      some [nm.NewKey "" [], nm.NewKey "a" [], nm.NewKey "b" []] ∧
    (∃ root, renderHiddenGroups (sampleDocument [] sampleRecords).toDocumentBase = (some root, none) ∧
      root = .object ((groups (sampleDocument [] sampleRecords).fieldsFn.1).1.map
        (hiddenGroupChild (sampleDocument [] sampleRecords).toDocumentBase))) :=
  ⟨by decide,
   ⟨_, rfl, (renderHiddenGroups_shared_root (sampleDocument [] sampleRecords).toDocumentBase _ rfl).2.1⟩⟩

/-! ## The units of the returned map -/

theorem attachHidden_get {files files' : GoMap nm.Noder} (h : attachHidden files = some files')
    (k : String) :
    (files.get k = none → files'.get k = none) ∧
    (∀ v, files.get k = some v →
      ∃ g, v = .object g ∧ files'.get k = some (.object (withHidden g))) := by
  obtain ⟨hk, hget, _⟩ := attachHidden_some h
  refine ⟨?_, hget k⟩
  intro hnone
  rw [GoMap.get_eq_none_iff] at hnone ⊢
  rw [hk]
  exact hnone

theorem Nodes_units {d : Document} {meta : Metadata} {m : GoMap nm.Noder}
    (h : Nodes d meta = .returned (some m) none) :
    ∃ files hidden, d.renderGroups d.toDocumentBase = (some files, none) ∧
      d.renderHiddenGroups d.toDocumentBase = (some (.object hidden), none) ∧
      m.get "_hidden" = some (.object (withHidden hidden)) ∧
      m.get "k8s" = some (.object (attachImports (metadataRoot d.catalog meta)
        (sortStrings (files.set "_hidden" (.object hidden)).keys))) ∧
      (∀ k, k ≠ "k8s" → k ≠ "_hidden" → files.get k = none → m.get k = none) ∧
      (∀ k, k ≠ "k8s" → k ≠ "_hidden" → ∀ v, files.get k = some v →
        ∃ o, v = .object o ∧ m.get k = some (.object (withHidden o))) := by
  obtain ⟨_, files, hidden, files', hg, hh, ha, hm⟩ := Nodes_success h
  obtain ⟨hroot, hobj, hget'⟩ := (attachHidden_get ha "_hidden").2 hidden
    (by rw [GoMap.get_set]; simp)
  subst hobj
  have hmget : ∀ k, k ≠ "k8s" → m.get k = files'.get k := by
    intro k hk
    rw [hm, GoMap.get_set]
    simp [Ne.symm hk]
  have hfget : ∀ k, k ≠ "_hidden" →
      (files.set "_hidden" (.object hroot)).get k = files.get k := by
    intro k hk
    rw [GoMap.get_set]
    simp [Ne.symm hk]
  have hkeys : mapKeys files' = sortStrings (files.set "_hidden" (.object hroot)).keys := by
    rw [mapKeys, (attachHidden_some ha).1]
  refine ⟨files, hroot, hg, hh, ?_, ?_, ?_, ?_⟩
  · rw [hmget _ (by decide), hget']
  · rw [hm, GoMap.get_set, hkeys]
    simp
  · intro k hk hk' hnone
    rw [hmget k hk]
    exact (attachHidden_get ha k).1 (by rw [hfget k hk', hnone])
  · intro k hk hk' v hv
    obtain ⟨o, ho, hget⟩ := (attachHidden_get ha k).2 v (by rw [hfget k hk', hv])
    exact ⟨o, ho, by rw [hmget k hk, hget]⟩

/-! ## The metadata block -/

theorem renderVersions_children (P : nm.Key × nm.Noder → Prop) (fn : renderNodeFn) (c : Catalog)
    (hP : ∀ (v : Version) (node : nm.Object), P (nm.NewKey v.Name [], .object node))
    (vs : List Version) (o : nm.Object) (ho : ∀ kv ∈ o, P kv) :
    ∀ kv ∈ (renderVersions fn c o vs).1, P kv := by
  induction vs generalizing o with
  | nil => simpa [renderVersions] using ho
  | cons v rest ih =>
    rcases hr : renderObjects fn c v.Node v.APIObjects with ⟨versionNode, _ | err⟩
    · simp only [renderVersions, hr]
      exact ih _ (Set_all ho (hP v versionNode))
    · simpa [renderVersions, hr] using ho

theorem renderHiddenGroups_root {d : DocumentBase} {root : nm.Noder}
    (h : renderHiddenGroups d = (some root, none)) :
    d.fieldsFn.2 = none ∧ root = .object ((groups d.fieldsFn.1).1.map (hiddenGroupChild d)) := by
  rcases ht : d.fieldsFn with ⟨rs, _ | e⟩
  · have hG : HiddenGroups d = groups rs := by simp [HiddenGroups, ht]
    simp only [renderHiddenGroups, hG, groups] at h
    obtain ⟨hroot, _⟩ := renderHiddenGroupsLoop_some h (groups_names_nodup rs)
      (by simp [nm.NewObject, nm.Object.keyNames])
    exact ⟨rfl, by simpa [nm.NewObject] using hroot⟩
  · simp [renderHiddenGroups, HiddenGroups, ht] at h

theorem withHidden_children (P : nm.Key × nm.Noder → Prop) (hP : P hiddenChild)
    (o : nm.Object) (ho : ∀ kv ∈ o, P kv) : ∀ kv ∈ withHidden o, P kv :=
  Set_all ho hP


/-! ## The independence of the visible and the hidden units -/

theorem renderObjects_congr {fn₁ fn₂ : renderNodeFn} {c₁ c₂ : Catalog}
    (hfn : ∀ r, fn₁ c₁ r = fn₂ c₂ r) (rs : List Object) (versionNode : nm.Object) :
    renderObjects fn₁ c₁ versionNode rs = renderObjects fn₂ c₂ versionNode rs := by
  induction rs generalizing versionNode with
  | nil => rfl
  | cons a rest ih =>
    simp only [renderObjects, hfn a]
    cases fn₂ c₂ a with
    | error e => rfl
    | ok n => exact ih _

theorem renderVersions_congr {fn₁ fn₂ : renderNodeFn} {c₁ c₂ : Catalog}
    (hfn : ∀ r, fn₁ c₁ r = fn₂ c₂ r) (vs : List Version) (o : nm.Object) :
    renderVersions fn₁ c₁ o vs = renderVersions fn₂ c₂ o vs := by
  induction vs generalizing o with
  | nil => rfl
  | cons v rest ih =>
    simp only [renderVersions, renderObjects_congr hfn]
    rcases renderObjects fn₂ c₂ v.Node v.APIObjects with ⟨versionNode, _ | err⟩
    · exact ih _
    · rfl

theorem renderGroupsLoop_congr {d₁ d₂ : DocumentBase}
    (hrender : ∀ g, d₁.renderFn d₁.objectNodeFn d₁.catalog nm.NewObject g =
      d₂.renderFn d₂.objectNodeFn d₂.catalog nm.NewObject g)
    (gs : List Group) (out : GoMap nm.Noder) :
    renderGroupsLoop d₁ out gs = renderGroupsLoop d₂ out gs := by
  induction gs generalizing out with
  | nil => rfl
  | cons g rest ih =>
    simp only [renderGroupsLoop, hrender g]
    rcases d₂.renderFn d₂.objectNodeFn d₂.catalog nm.NewObject g with ⟨o, _ | err⟩
    · exact ih _
    · rfl

theorem renderHiddenGroupsLoop_congr {d₁ d₂ : DocumentBase}
    (hrender : ∀ g, d₁.renderFn d₁.objectNodeFn d₁.catalog nm.NewObject g =
      d₂.renderFn d₂.objectNodeFn d₂.catalog nm.NewObject g)
    (gs : List Group) (con : nm.Object) :
    renderHiddenGroupsLoop d₁ con gs = renderHiddenGroupsLoop d₂ con gs := by
  induction gs generalizing con with
  | nil => rfl
  | cons g rest ih =>
    simp only [renderHiddenGroupsLoop, hrender g]
    rcases d₂.renderFn d₂.objectNodeFn d₂.catalog nm.NewObject g with ⟨o, _ | err⟩
    · exact ih _
    · rfl

theorem renderGroups_congr {d₁ d₂ : DocumentBase} (ht : d₁.typesFn = d₂.typesFn)
    (hrender : ∀ g, d₁.renderFn d₁.objectNodeFn d₁.catalog nm.NewObject g =
      d₂.renderFn d₂.objectNodeFn d₂.catalog nm.NewObject g) :
    renderGroups d₁ = renderGroups d₂ := by
  have hG : Groups d₁ = Groups d₂ := by simp only [Groups, ht]
  simp only [renderGroups, hG]
  rcases Groups d₂ with ⟨gs, _ | err⟩
  · exact renderGroupsLoop_congr hrender gs []
  · rfl

theorem renderHiddenGroups_congr {d₁ d₂ : DocumentBase} (ht : d₁.fieldsFn = d₂.fieldsFn)
    (hrender : ∀ g, d₁.renderFn d₁.objectNodeFn d₁.catalog nm.NewObject g =
      d₂.renderFn d₂.objectNodeFn d₂.catalog nm.NewObject g) :
    renderHiddenGroups d₁ = renderHiddenGroups d₂ := by
  have hG : HiddenGroups d₁ = HiddenGroups d₂ := by simp only [HiddenGroups, ht]
  simp only [renderHiddenGroups, hG]
  rcases HiddenGroups d₂ with ⟨gs, _ | err⟩
  · exact renderHiddenGroupsLoop_congr hrender gs nm.NewObject
  · rfl

theorem render_congr_of_builder {d₁ d₂ : DocumentBase} (h₁ : d₁.renderFn = render)
    (h₂ : d₂.renderFn = render)
    (hfn : ∀ r, d₁.objectNodeFn d₁.catalog r = d₂.objectNodeFn d₂.catalog r) (g : Group) :
    d₁.renderFn d₁.objectNodeFn d₁.catalog nm.NewObject g =
      d₂.renderFn d₂.objectNodeFn d₂.catalog nm.NewObject g := by
  rw [h₁, h₂]
  exact renderVersions_congr hfn g.Versions nm.NewObject

/-- C16 fails as stated: with a full-schema group named `_hidden`, two runs that
agree on the full-schema types and differ in the field-only records store
different trees under the name of that group. -/
theorem Nodes_independent_counterexample :
    (groups (sampleDocument hiddenNamedRecords []).typesFn.1).1.map Group.Name = ["_hidden"] ∧
    (unitRoot (Nodes (sampleDocument hiddenNamedRecords []) sampleMeta) "_hidden").map
        nm.Object.keyNames = some ["hidden"] ∧
    (unitRoot (Nodes (sampleDocument hiddenNamedRecords fieldRecords) sampleMeta) "_hidden").map
        nm.Object.keyNames = some ["core", "hidden"] := by
  decide

/-- C16, amended: for two successful runs of `Nodes` of production documents whose
node builders agree on every record, if the runs agree on the full-schema types
and on the metadata root, the returned maps hold the same unit under every name
other than `_hidden`, so every visible unit whose group is not named `_hidden` is
identical; if the runs agree on the field-only records, the tree stored under
`_hidden` is identical. -/
theorem Nodes_independent (d₁ d₂ : Document) (meta₁ meta₂ : Metadata) (m₁ m₂ : GoMap nm.Noder)
    (hr₁ : d₁.renderFn = render) (hr₂ : d₂.renderFn = render)
    (hg₁ : d₁.renderGroups = renderGroups) (hg₂ : d₂.renderGroups = renderGroups)
    (hh₁ : d₁.renderHiddenGroups = renderHiddenGroups)
    (hh₂ : d₂.renderHiddenGroups = renderHiddenGroups)
    (hfn : ∀ r, d₁.objectNodeFn d₁.catalog r = d₂.objectNodeFn d₂.catalog r)
    (h₁ : Nodes d₁ meta₁ = .returned (some m₁) none)
    (h₂ : Nodes d₂ meta₂ = .returned (some m₂) none) :
    (d₁.typesFn = d₂.typesFn → metadataRoot d₁.catalog meta₁ = metadataRoot d₂.catalog meta₂ →
      ∀ k, k ≠ "_hidden" → m₁.get k = m₂.get k) ∧
    (d₁.fieldsFn = d₂.fieldsFn → m₁.get "_hidden" = m₂.get "_hidden") := by
  have hrender := @render_congr_of_builder d₁.toDocumentBase d₂.toDocumentBase
    hr₁ hr₂ hfn
  obtain ⟨files₁, hidden₁, hf₁, hhid₁, hgh₁, hgk₁, hnone₁, hsome₁⟩ := Nodes_units h₁
  obtain ⟨files₂, hidden₂, hf₂, hhid₂, hgh₂, hgk₂, hnone₂, hsome₂⟩ := Nodes_units h₂
  rw [hg₁] at hf₁
  rw [hg₂] at hf₂
  rw [hh₁] at hhid₁
  rw [hh₂] at hhid₂
  constructor
  · intro ht hmeta k hk
    have hfiles : files₁ = files₂ := by
      have := renderGroups_congr ht hrender
      rw [hf₁, hf₂] at this
      simpa using this
    subst hfiles
    by_cases hk8 : k = "k8s"
    · subst hk8
      rw [hgk₁, hgk₂, hmeta]
      have hkeys : (files₁.set "_hidden" (.object hidden₁)).keys =
          (files₁.set "_hidden" (.object hidden₂)).keys := by
        rw [GoMap.keys_set, GoMap.keys_set]
      rw [hkeys]
    · cases hfk : files₁.get k with
      | none => rw [hnone₁ k hk8 hk hfk, hnone₂ k hk8 hk hfk]
      | some v =>
        obtain ⟨o₁, ho₁, hget₁⟩ := hsome₁ k hk8 hk v hfk
        obtain ⟨o₂, ho₂, hget₂⟩ := hsome₂ k hk8 hk v hfk
        rw [ho₁] at ho₂
        cases ho₂
        rw [hget₁, hget₂]
  · intro ht
    have := renderHiddenGroups_congr ht hrender
    rw [hhid₁, hhid₂] at this
    have hhidden : hidden₁ = hidden₂ := by simpa using this
    rw [hgh₁, hgh₂, hhidden]

/-- Witness of C16 (amended): the documents of the four sample records without
and with one field-only record hold the same visible unit `a`. -/
theorem Nodes_independent_witness :
    sampleUnits.get "a" = sampleUnitsWithFields.get "a" ∧
    sampleUnits.get "k8s" = sampleUnitsWithFields.get "k8s" :=
  have h := (Nodes_independent (sampleDocument sampleRecords [])
    (sampleDocument sampleRecords fieldRecords) sampleMeta sampleMeta sampleUnits
    sampleUnitsWithFields rfl rfl rfl rfl rfl rfl (fun _ => rfl) sampleUnits_spec rfl).1 rfl rfl
  ⟨h "a" (by decide), h "k8s" (by decide)⟩

/-! ## The keys of the rendered records -/

theorem recordKey_name (r : Object) : (recordKey r).name = r.Kind := by
  unfold recordKey nm.NewKey nm.KeyOptComment
  simp only [List.foldl_cons, List.foldl_nil, nm.applyKeyOpt]
  split <;> rfl

theorem recordKey_comment_of_ne (r : Object) (h : r.Description ≠ "") :
    (recordKey r).comment = some r.Description := by
  unfold recordKey nm.NewKey nm.KeyOptComment
  simp [nm.applyKeyOpt, h]

theorem recordKey_comment_of_eq (r : Object) (h : r.Description = "") :
    (recordKey r).comment = none := by
  unfold recordKey nm.NewKey nm.KeyOptComment
  simp [nm.applyKeyOpt, h]

theorem renderObjects_children (fn : renderNodeFn) (c : Catalog) (rs : List Object)
    (versionNode : nm.Object) :
    ∀ kv ∈ (renderObjects fn c versionNode rs).1,
      kv ∈ versionNode ∨ ∃ r ∈ rs, ∃ n, fn c r = .ok n ∧ kv = (recordKey r, .object n) := by
  induction rs generalizing versionNode with
  | nil =>
    intro kv hkv
    exact Or.inl (by simpa [renderObjects] using hkv)
  | cons a rest ih =>
    intro kv hkv
    cases ha : fn c a with
    | error e =>
      simp only [renderObjects, ha] at hkv
      exact Or.inl hkv
    | ok n =>
      simp only [renderObjects, ha] at hkv
      rcases ih _ kv hkv with h | ⟨r, hr, n', hn', hkv'⟩
      · rcases mem_Set h with h' | h'
        · exact Or.inr ⟨a, by simp, n, ha, h'⟩
        · exact Or.inl h'
      · exact Or.inr ⟨r, List.mem_cons_of_mem _ hr, n', hn', hkv'⟩

theorem renderObjects_cons_ok {fn : renderNodeFn} {c : Catalog} {a : Object} {n : nm.Object}
    (ha : fn c a = .ok n) (rest : List Object) (versionNode : nm.Object) :
    renderObjects fn c versionNode (a :: rest) =
      renderObjects fn c (nm.Object.Set versionNode (recordKey a) (.object n)) rest := by
  simp only [renderObjects, ha]
  rfl

theorem renderObjects_cons_error {fn : renderNodeFn} {c : Catalog} {a : Object} {e : Error}
    (ha : fn c a = .error e) (rest : List Object) (versionNode : nm.Object) :
    renderObjects fn c versionNode (a :: rest) =
      (versionNode, some (.wrap e ("create node " ++ a.Kind))) := by
  simp only [renderObjects, ha]

theorem child_renderObjects_of_not_mem (fn : renderNodeFn) (c : Catalog) (rs : List Object)
    (versionNode : nm.Object) (k : String) (hk : ∀ x ∈ rs, x.Kind ≠ k) :
    nm.Object.child (renderObjects fn c versionNode rs).1 k = nm.Object.child versionNode k := by
  induction rs generalizing versionNode with
  | nil => rfl
  | cons a rest ih =>
    cases ha : fn c a with
    | error e => rw [renderObjects_cons_error ha]
    | ok n =>
      rw [renderObjects_cons_ok ha, ih _ (fun x hx => hk x (List.mem_cons_of_mem _ hx)),
        child_Set, recordKey_name, if_neg (hk a (by simp))]

theorem child_renderObjects (fn : renderNodeFn) (c : Catalog) (rs : List Object)
    (versionNode : nm.Object) (hnd : (rs.map Object.Kind).Nodup)
    (hok : ∀ x ∈ rs, ∃ n, fn c x = .ok n) :
    ∀ r ∈ rs, ∃ n, fn c r = .ok n ∧
      nm.Object.child (renderObjects fn c versionNode rs).1 r.Kind
        = some (recordKey r, .object n) := by
  induction rs generalizing versionNode with
  | nil => intro r hr; cases hr
  | cons a rest ih =>
    have hnd' : a.Kind ∉ rest.map Object.Kind ∧ (rest.map Object.Kind).Nodup :=
      List.nodup_cons.mp hnd
    obtain ⟨n, ha⟩ := hok a (by simp)
    intro r hr
    rw [renderObjects_cons_ok ha]
    rcases List.mem_cons.mp hr with h | h
    · subst h
      refine ⟨n, ha, ?_⟩
      rw [child_renderObjects_of_not_mem, child_Set, recordKey_name, if_pos rfl]
      intro x hx hxk
      exact hnd'.1 (hxk ▸ List.mem_map.mpr ⟨x, hx, rfl⟩)
    · exact ih _ hnd'.2 (fun x hx => hok x (List.mem_cons_of_mem _ hx)) r h

theorem render_root_children (fn : renderNodeFn) (c : Catalog) (g : Group) :
    ∀ kv ∈ (render fn c nm.NewObject g).1, ∃ v ∈ g.Versions, kv = versionChild fn c v := by
  have hgen : ∀ (vs : List Version) (o : nm.Object),
      ∀ kv ∈ (renderVersions fn c o vs).1, kv ∈ o ∨ ∃ v ∈ vs, kv = versionChild fn c v := by
    intro vs
    induction vs with
    | nil =>
      intro o kv hkv
      exact Or.inl (by simpa [renderVersions] using hkv)
    | cons v rest ih =>
      intro o kv hkv
      rcases hr : renderObjects fn c v.Node v.APIObjects with ⟨versionNode, _ | err⟩
      · simp only [renderVersions, hr] at hkv
        rcases ih _ kv hkv with h | ⟨w, hw, hkw⟩
        · rcases mem_Set h with h' | h'
          · exact Or.inr ⟨v, by simp, by rw [h', versionChild, versionNodeOf, hr]⟩
          · exact Or.inl h'
        · exact Or.inr ⟨w, List.mem_cons_of_mem _ hw, hkw⟩
      · simp only [renderVersions, hr] at hkv
        exact Or.inl hkv
  intro kv hkv
  rcases hgen g.Versions nm.NewObject kv hkv with h | h
  · simp [nm.NewObject] at h
  · exact h

/-- C18: the key under which `render` attaches the node of a record is named by
the record's kind and carries the record's description as annotation when the
description is non-empty and no annotation when it is empty.  Every child of a
version node is the node of a record of the version under this key, the
children of the rendered root are the version nodes, and when the kinds of a
version are distinct and the builder succeeds, every record of the version has
its node under its key. -/
theorem render_key_comment (fn : renderNodeFn) (c : Catalog) (g : Group) :
    (∀ r : Object, (recordKey r).name = r.Kind ∧
      (r.Description ≠ "" → (recordKey r).comment = some r.Description) ∧
      (r.Description = "" → (recordKey r).comment = none)) ∧
    (∀ kv ∈ (render fn c nm.NewObject g).1, ∃ v ∈ g.Versions, kv = versionChild fn c v) ∧
    (∀ v ∈ g.Versions, ∀ kv ∈ versionNodeOf fn c v,
      ∃ r ∈ v.APIObjects, ∃ n, fn c r = .ok n ∧ kv = (recordKey r, .object n)) ∧
    (∀ v ∈ g.Versions, (v.APIObjects.map Object.Kind).Nodup →
      (∀ x ∈ v.APIObjects, ∃ n, fn c x = .ok n) →
      ∀ r ∈ v.APIObjects, ∃ n, fn c r = .ok n ∧
        nm.Object.child (versionNodeOf fn c v) r.Kind = some (recordKey r, .object n)) := by
  refine ⟨fun r => ⟨recordKey_name r, recordKey_comment_of_ne r, recordKey_comment_of_eq r⟩,
    render_root_children fn c g, ?_, ?_⟩
  · intro v _ kv hkv
    rcases renderObjects_children fn c v.APIObjects v.Node kv hkv with h | h
    · simp [Version.Node, nm.NewObject] at h
    · exact h
  · intro v _ hnd hok
    exact child_renderObjects fn c v.APIObjects v.Node hnd hok

/-- Witness of C18 on a version that holds a record with a description and one
without. -/
theorem render_key_comment_witness :
    (recordKey describedRecord).comment = some "a pod" ∧
    (recordKey (mkRecord "a" "v1" "Job")).comment = none ∧
    (versionNodeOf sampleNodeFn (sampleCatalog [] []) describedVersion).map Prod.fst =
      [{ name := "Pod", category := .field, comment := some "a pod" },
       { name := "Job", category := .field, comment := none }] :=
  ⟨((render_key_comment sampleNodeFn (sampleCatalog [] []) twoVersionGroup).1
      describedRecord).2.1 (by decide),
   ((render_key_comment sampleNodeFn (sampleCatalog [] []) twoVersionGroup).1
      (mkRecord "a" "v1" "Job")).2.2 (by decide),
   by decide⟩

/-! ## The success of `render` -/

theorem renderVersionsCalls_ok {fn : renderNodeFn} {c : Catalog} {vs : List Version}
    (hok : ∀ v ∈ vs, ∀ r ∈ v.APIObjects, ∃ n, fn c r = .ok n) :
    renderVersionsCalls fn c vs = (vs.map Version.APIObjects).flatten := by
  induction vs with
  | nil => rfl
  | cons v rest ih =>
    have hv := hok v (by simp)
    have h2 : (renderObjects fn c v.Node v.APIObjects).2 = none :=
      (renderObjects_ok_iff fn c v.APIObjects v.Node).mpr hv
    simp only [renderVersionsCalls, h2, renderObjectsCalls_ok hv,
      ih (fun w hw => hok w (List.mem_cons_of_mem _ hw)), List.map_cons, List.flatten_cons]

theorem renderVersions_ok_root {fn : renderNodeFn} {c : Catalog} {vs : List Version}
    (hok : ∀ v ∈ vs, ∀ r ∈ v.APIObjects, ∃ n, fn c r = .ok n) (o : nm.Object) :
    (renderVersions fn c o vs).1 = attachVersions fn c o vs := by
  induction vs generalizing o with
  | nil => rfl
  | cons v rest ih =>
    have hv := hok v (by simp)
    have h2 : (renderObjects fn c v.Node v.APIObjects).2 = none :=
      (renderObjects_ok_iff fn c v.APIObjects v.Node).mpr hv
    rcases hr : renderObjects fn c v.Node v.APIObjects with ⟨versionNode, e⟩
    rw [hr] at h2
    simp only at h2
    subst h2
    simp only [renderVersions, hr, ih (fun w hw => hok w (List.mem_cons_of_mem _ hw)),
      attachVersions, List.foldl_cons, versionNodeOf]

theorem attachVersions_fresh (fn : renderNodeFn) (c : Catalog) (vs : List Version)
    (o : nm.Object) (hnd : (vs.map Version.Name).Nodup)
    (hfresh : ∀ v ∈ vs, v.Name ∉ nm.Object.keyNames o) :
    attachVersions fn c o vs = o ++ vs.map (versionChild fn c) := by
  induction vs generalizing o with
  | nil => simp [attachVersions]
  | cons v rest ih =>
    have hnd' : v.Name ∉ rest.map Version.Name ∧ (rest.map Version.Name).Nodup :=
      List.nodup_cons.mp hnd
    have hstep : attachVersions fn c o (v :: rest) =
        attachVersions fn c
          (nm.Object.Set o (nm.NewKey v.Name []) (.object (versionNodeOf fn c v))) rest := rfl
    rw [hstep, Set_fresh _ _ _ (by simpa [NewKey_nil_name] using hfresh v (by simp)),
      ih _ hnd'.2]
    · simp [versionChild]
    · intro w hw hmem
      have : w.Name ∈ nm.Object.keyNames o ∨ w.Name = v.Name := by
        simpa [nm.Object.keyNames, NewKey_nil_name] using hmem
      rcases this with h | h
      · exact hfresh w (List.mem_cons_of_mem _ hw) h
      · exact hnd'.1 (h ▸ List.mem_map.mpr ⟨w, hw, rfl⟩)

theorem renderObjects_fresh (fn : renderNodeFn) (c : Catalog) (rs : List Object)
    (versionNode : nm.Object) (hnd : (rs.map Object.Kind).Nodup)
    (hfresh : ∀ r ∈ rs, r.Kind ∉ nm.Object.keyNames versionNode)
    (hok : ∀ r ∈ rs, ∃ n, fn c r = .ok n) :
    (renderObjects fn c versionNode rs).1 = versionNode ++ rs.filterMap (recordChild fn c) ∧
    (rs.filterMap (recordChild fn c)).length = rs.length := by
  induction rs generalizing versionNode with
  | nil => simp [renderObjects]
  | cons a rest ih =>
    have hnd' : a.Kind ∉ rest.map Object.Kind ∧ (rest.map Object.Kind).Nodup :=
      List.nodup_cons.mp hnd
    obtain ⟨n, ha⟩ := hok a (by simp)
    have hchild : recordChild fn c a = some (recordKey a, .object n) := by
      simp [recordChild, ha]
    rw [renderObjects_cons_ok ha,
      Set_fresh _ _ _ (by simpa [recordKey_name] using hfresh a (by simp))]
    obtain ⟨ih1, ih2⟩ := ih (versionNode ++ [(recordKey a, .object n)]) hnd'.2 (by
      intro r hr hmem
      have : r.Kind ∈ nm.Object.keyNames versionNode ∨ r.Kind = a.Kind := by
        simpa [nm.Object.keyNames, recordKey_name] using hmem
      rcases this with h | h
      · exact hfresh r (List.mem_cons_of_mem _ hr) h
      · exact hnd'.1 (h ▸ List.mem_map.mpr ⟨r, hr, rfl⟩))
      (fun r hr => hok r (List.mem_cons_of_mem _ hr))
    refine ⟨?_, ?_⟩
    · rw [ih1]
      simp [List.filterMap_cons, hchild]
    · simp [List.filterMap_cons, hchild, ih2]

/-! ## The versions of a group built by the grouping -/

theorem insertVersion_perm (v : Version) (l : List Version) : (insertVersion v l).Perm (v :: l) := by
  induction l with
  | nil => exact List.Perm.refl _
  | cons w rest ih =>
    by_cases h : strLE v.name w.name
    · simp [insertVersion, h]
    · simp only [insertVersion, h, if_false]
      exact ((List.Perm.cons w ih).trans (List.Perm.swap v w rest))

theorem Versions_perm (g : Group) : g.Versions.Perm g.versions := by
  unfold Group.Versions
  induction g.versions with
  | nil => exact List.Perm.refl _
  | cons v rest ih =>
    exact (insertVersion_perm v _).trans (List.Perm.cons v ih)

theorem names_addToVersions (res : Object) (vs : List Version) :
    (addToVersions res vs).map Version.Name =
      if res.version ∈ vs.map Version.Name then vs.map Version.Name
      else vs.map Version.Name ++ [res.version] := by
  induction vs with
  | nil => simp [addToVersions, Version.Name]
  | cons v rest ih =>
    by_cases h : v.name = res.version
    · simp [addToVersions, h, Version.Name]
    · have h' : ¬ res.version = v.name := fun e => h e.symm
      simp only [addToVersions, h, if_false, List.map_cons, List.mem_cons, ih]
      have hv : v.Name = v.name := rfl
      rw [hv]
      simp only [h', false_or]
      split <;> simp

theorem nodup_names_addToVersions (res : Object) {vs : List Version}
    (h : (vs.map Version.Name).Nodup) : ((addToVersions res vs).map Version.Name).Nodup := by
  rw [names_addToVersions]
  split
  · exact h
  · rename_i hk
    exact List.Nodup.append h (List.nodup_singleton _) (by simpa using hk)

theorem nodup_names_foldl_AddResource (l : List Object) (g : Group)
    (h : (g.versions.map Version.Name).Nodup) :
    ((l.foldl Group.AddResource g).versions.map Version.Name).Nodup := by
  induction l generalizing g with
  | nil => exact h
  | cons r rest ih => exact ih _ (nodup_names_addToVersions r h)

theorem received_Versions_nodup (k : String) (rs : List Object) :
    ((received k rs).Versions.map Version.Name).Nodup := by
  have h : ((received k rs).versions.map Version.Name).Nodup :=
    nodup_names_foldl_AddResource _ _ (by simp [NewGroup])
  exact (((Versions_perm (received k rs)).map Version.Name).nodup_iff).mpr h

theorem flatten_addToVersions_perm (res : Object) (vs : List Version) :
    ((addToVersions res vs).map Version.APIObjects).flatten.Perm
      ((vs.map Version.APIObjects).flatten ++ [res]) := by
  induction vs with
  | nil => simp [addToVersions, Version.APIObjects]
  | cons v rest ih =>
    by_cases h : v.name = res.version
    · simp only [addToVersions, h, if_true, List.map_cons, List.flatten_cons, Version.APIObjects,
        List.append_assoc]
      exact List.Perm.append_left _ List.perm_append_comm
    · simp only [addToVersions, h, if_false, List.map_cons, List.flatten_cons, List.append_assoc]
      exact List.Perm.append_left _ ih

theorem flatten_foldl_AddResource_perm (l : List Object) (g : Group) :
    (((l.foldl Group.AddResource g).versions.map Version.APIObjects).flatten).Perm
      ((g.versions.map Version.APIObjects).flatten ++ l) := by
  induction l generalizing g with
  | nil => simp
  | cons r rest ih =>
    rw [List.foldl_cons]
    refine (ih (g.AddResource r)).trans ?_
    have h := flatten_addToVersions_perm r g.versions
    have h' : ((g.AddResource r).versions.map Version.APIObjects).flatten.Perm
        ((g.versions.map Version.APIObjects).flatten ++ [r]) := h
    refine (List.Perm.append_right rest h').trans ?_
    simp

theorem renderOrder_received_perm (k : String) (rs : List Object) :
    (renderOrder (received k rs)).Perm (rs.filter (fun r => r.Group = k)) := by
  have h1 : (renderOrder (received k rs)).Perm
      (((received k rs).versions.map Version.APIObjects).flatten) :=
    List.Perm.flatten (List.Perm.map _ (Versions_perm _))
  refine h1.trans ?_
  have h2 := flatten_foldl_AddResource_perm (rs.filter (fun r => r.Group = k)) (NewGroup k)
  simpa [received, NewGroup] using h2

/-- C19 fails as stated: for a version that holds two records of the same kind the
builder succeeds for both, and the version node holds one child, keyed by the
kind, with the annotation of the second record. -/
theorem render_success_counterexample :
    (render sampleNodeFn (sampleCatalog [] []) nm.NewObject duplicateKindGroup).2 = none ∧
    (duplicateKindGroup.Versions.map (fun v => v.APIObjects.length)) = [2] ∧
    (duplicateKindGroup.Versions.map
      (fun v => (versionNodeOf sampleNodeFn (sampleCatalog [] []) v).map Prod.fst)) =
      [[{ name := "Pod", category := .field, comment := some "second" }]] := by
  decide

/-- C19, amended: when the node-building function succeeds for every record of a
group, `render` returns nil and has invoked the function once for every record,
in the order of the versions and their records; the root is the given root with
one child per version set on it, keyed by the version name and holding the
version node, in the order of `Versions()` (appended in this order when the
version names are distinct and new to the root); a version node whose records
have distinct kinds holds one child per record, keyed by the kind and holding
the builder's node, in the order of `APIObjects()`.  For a group built by
`Document.groups` the records visited are the input records of the group's name,
each once, and the version names are distinct. -/
theorem render_success (fn : renderNodeFn) (c : Catalog) (o : nm.Object) (g : Group)
    (hok : ∀ r ∈ renderOrder g, ∃ n, fn c r = .ok n) :
    (render fn c o g).2 = none ∧
    renderCalls fn c g = renderOrder g ∧
    (render fn c o g).1 = attachVersions fn c o g.Versions ∧
    ((g.Versions.map Version.Name).Nodup →
      (∀ v ∈ g.Versions, v.Name ∉ nm.Object.keyNames o) →
      (render fn c o g).1 = o ++ g.Versions.map (versionChild fn c)) ∧
    (∀ v ∈ g.Versions, (v.APIObjects.map Object.Kind).Nodup →
      versionNodeOf fn c v = v.APIObjects.filterMap (recordChild fn c) ∧
      (versionNodeOf fn c v).length = v.APIObjects.length ∧
      ∀ r ∈ v.APIObjects, ∃ n, fn c r = .ok n ∧ recordChild fn c r = some (recordKey r, .object n)) ∧
    (∀ rs : List Object, g ∈ (groups rs).1 →
      (renderOrder g).Perm (rs.filter (fun r => r.Group = g.Name)) ∧
      (g.Versions.map Version.Name).Nodup) := by
  have hok' : ∀ v ∈ g.Versions, ∀ r ∈ v.APIObjects, ∃ n, fn c r = .ok n := by
    intro v hv r hr
    exact hok r (List.mem_flatten.mpr ⟨v.APIObjects, List.mem_map.mpr ⟨v, hv, rfl⟩, hr⟩)
  have hroot : (render fn c o g).1 = attachVersions fn c o g.Versions :=
    renderVersions_ok_root hok' o
  refine ⟨(renderVersions_ok_iff fn c g.Versions o).mpr hok', renderVersionsCalls_ok hok',
    hroot, ?_, ?_, ?_⟩
  · intro hnd hfresh
    rw [hroot]
    exact attachVersions_fresh fn c g.Versions o hnd hfresh
  · intro v hv hnd
    obtain ⟨h1, h2⟩ := renderObjects_fresh fn c v.APIObjects v.Node hnd
      (by simp [Version.Node, nm.NewObject, nm.Object.keyNames]) (hok' v hv)
    have h1' : versionNodeOf fn c v = v.APIObjects.filterMap (recordChild fn c) := by
      simpa [versionNodeOf, Version.Node, nm.NewObject] using h1
    refine ⟨h1', by rw [h1', h2], ?_⟩
    intro r hr
    obtain ⟨n, hn⟩ := hok' v hv r hr
    exact ⟨n, hn, by simp [recordChild, hn]⟩
  · intro rs hg
    rw [mem_groups_eq_received hg]
    rw [received_name]
    exact ⟨renderOrder_received_perm _ rs, received_Versions_nodup _ rs⟩

/-- Witness of C19 (amended) on a group of two versions. -/
theorem render_success_witness :
    (render sampleNodeFn (sampleCatalog [] []) nm.NewObject twoVersionGroup).2 = none ∧
    renderCalls sampleNodeFn (sampleCatalog [] []) twoVersionGroup = renderOrder twoVersionGroup ∧
    (render sampleNodeFn (sampleCatalog [] []) nm.NewObject twoVersionGroup).1 =
      nm.NewObject ++ twoVersionGroup.Versions.map (versionChild sampleNodeFn (sampleCatalog [] [])) :=
  have h := render_success sampleNodeFn (sampleCatalog [] []) nm.NewObject twoVersionGroup
    (fun r _ => ⟨_, rfl⟩)
  ⟨h.1, h.2.1, h.2.2.2.1 (by decide) (by decide)⟩

/-! ## The type assertion of `Nodes` -/

theorem renderGroups_result (d : DocumentBase) :
    (∃ e, renderGroups d = (none, some e)) ∨
    (∃ files, renderGroups d = (some files, none) ∧
      ∀ kv ∈ files, ∃ o, kv.2 = nm.Noder.object o) := by
  rcases ht : d.typesFn with ⟨rs, _ | err⟩
  · have hG : Groups d = groups rs := by simp [Groups, ht]
    by_cases hok : ∀ g ∈ (groups rs).1,
        (d.renderFn d.objectNodeFn d.catalog nm.NewObject g).2 = none
    · right
      have hloop := renderGroupsLoop_ok (d := d) (groups rs).1 [] hok (by simp)
      simpa [renderGroups, hG, groups] using hloop
    · left
      have hloop := renderGroupsLoop_fail (d := d) (groups rs).1 [] hok
      simpa [renderGroups, hG, groups] using hloop
  · left
    refine ⟨(err.wrap "retrieve resources").wrap "retrieve groups", ?_⟩
    simp only [renderGroups, Groups, ht]

theorem renderHiddenGroups_result (d : DocumentBase) :
    (∃ e, renderHiddenGroups d = (none, some e)) ∨
    (∃ root, renderHiddenGroups d = (some (.object root), none)) := by
  rcases ht : d.fieldsFn with ⟨rs, _ | err⟩
  · have hG : HiddenGroups d = groups rs := by simp [HiddenGroups, ht]
    by_cases hok : ∀ g ∈ (groups rs).1,
        (d.renderFn d.objectNodeFn d.catalog nm.NewObject g).2 = none
    · right
      have hloop := renderHiddenGroupsLoop_ok (d := d) (groups rs).1 nm.NewObject hok
      simpa [renderHiddenGroups, hG, groups] using hloop
    · left
      have hloop := renderHiddenGroupsLoop_fail (d := d) (groups rs).1 nm.NewObject hok
      simpa [renderHiddenGroups, hG, groups] using hloop
  · left
    refine ⟨(err.wrap "retrieve types").wrap "retrieve hidden groups", ?_⟩
    simp only [renderHiddenGroups, HiddenGroups, ht]

theorem units_are_objects {d : DocumentBase} {files : GoMap nm.Noder} {hidden : nm.Noder}
    (hf : renderGroups d = (some files, none)) (hh : renderHiddenGroups d = (some hidden, none)) :
    ∀ kv ∈ files.set "_hidden" hidden, ∃ o, kv.2 = nm.Noder.object o := by
  intro kv hkv
  rcases mem_GoMap_set hkv with h | h
  · rcases renderHiddenGroups_result d with ⟨e, he⟩ | ⟨root, hroot⟩
    · rw [he] at hh
      cases hh
    · rw [hroot] at hh
      cases hh
      exact ⟨root, by rw [h]⟩
  · rcases renderGroups_result d with ⟨e, he⟩ | ⟨files', hfiles', hobj⟩
    · rw [he] at hf
      cases hf
    · rw [hfiles'] at hf
      cases hf
      exact hobj kv h

theorem Nodes_not_panicked {d : Document} (hg : d.renderGroups = renderGroups)
    (hh : d.renderHiddenGroups = renderHiddenGroups) (meta : Metadata) :
    Nodes d meta ≠ .panicked := by
  rw [Nodes_eq, hg, hh]
  rcases renderGroups_result d.toDocumentBase with ⟨e, he⟩ | ⟨files, hfiles, hobj⟩
  · rw [he]
    simp
  · rcases renderHiddenGroups_result d.toDocumentBase with ⟨e, he⟩ | ⟨root, hroot⟩
    · rw [hfiles, he]
      simp
    · obtain ⟨files', ha⟩ := (attachHidden_isSome_iff (files.set "_hidden" (.object root))).mpr
        (units_are_objects hfiles hroot)
      rw [hfiles, hroot]
      simp only [ha]
      simp

/-- C20: with the production `renderGroups` and `renderHiddenGroups`, as in the
document built by `NewDocument`, every value of the unit map is an `*nm.Object`
when `Nodes` attaches the `hidden` import, so the type assertion succeeds for
every value and `Nodes` does not panic; with a substituted `renderGroups` or
`renderHiddenGroups` that returns another node the assertion fails and `Nodes`
panics. -/
theorem Nodes_assertion_safe (d : Document) (meta : Metadata)
    (hg : d.renderGroups = renderGroups) (hh : d.renderHiddenGroups = renderHiddenGroups) :
    Nodes d meta ≠ .panicked ∧
    (∀ files hidden, d.renderGroups d.toDocumentBase = (some files, none) →
      d.renderHiddenGroups d.toDocumentBase = (some hidden, none) →
      (∀ kv ∈ files.set "_hidden" hidden, ∃ o, kv.2 = nm.Noder.object o) ∧
      ∃ files', attachHidden (files.set "_hidden" hidden) = some files') ∧
    (∀ (fn : renderNodeFn) (c : Catalog), ∃ d',
      NewDocument fn (some c) = (some d', none) ∧ d'.renderGroups = renderGroups ∧
      d'.renderHiddenGroups = renderHiddenGroups ∧ Nodes d' meta ≠ .panicked) ∧
    Nodes substitutedGroupsDocument meta = .panicked ∧
    Nodes substitutedHiddenDocument meta = .panicked := by
  refine ⟨Nodes_not_panicked hg hh meta, ?_, ?_, ?_, ?_⟩
  · intro files hidden hf hhid
    rw [hg] at hf
    rw [hh] at hhid
    have hobj := units_are_objects hf hhid
    exact ⟨hobj, (attachHidden_isSome_iff _).mpr hobj⟩
  · intro fn c
    exact ⟨newDocument fn c, rfl, rfl, rfl, Nodes_not_panicked rfl rfl meta⟩
  · rw [Nodes_eq]
    rfl
  · rw [Nodes_eq]
    rfl

/-- Witness of C20 on the document of the four sample records. -/
theorem Nodes_assertion_safe_witness :
    (Nodes (sampleDocument sampleRecords []) sampleMeta).isPanic = false ∧
    Nodes (sampleDocument sampleRecords []) sampleMeta ≠ .panicked ∧
    (Nodes substitutedGroupsDocument sampleMeta).isPanic = true :=
  ⟨by decide,
   (Nodes_assertion_safe (sampleDocument sampleRecords []) sampleMeta rfl rfl).1,
   by decide⟩

/-! ## The order of the imports of the aggregate root -/

theorem attachImports_eq_foldl (o : nm.Object) (names : List String) :
    attachImports o names =
      (names.map importChild).foldl (fun o kv => nm.Object.Set o kv.1 kv.2) o := by
  induction names generalizing o with
  | nil => rfl
  | cons a rest ih =>
    have hstep : attachImports o (a :: rest) =
        attachImports (nm.Object.Set o (nm.NewKey a []) (nm.NewImport (a ++ ".libsonnet"))) rest := rfl
    rw [hstep, ih]
    rfl

theorem aggregateSetCalls_success {d : Document} {meta : Metadata} {files hidden files' : _}
    (hg : d.renderGroups d.toDocumentBase = (some files, none))
    (hh : d.renderHiddenGroups d.toDocumentBase = (some hidden, none))
    (ha : attachHidden (files.set "_hidden" hidden) = some files') :
    aggregateSetCalls d meta =
      (nm.InheritedKey "__ksonnet", .object (metadataBlock d.catalog meta)) ::
        (mapKeys files').map importChild := by
  simp only [aggregateSetCalls, KVFromMap_metadataMap, hg, hh, ha]
  rfl

theorem attachImports_slot (s : String) (names : List String) (hnd : names.Nodup)
    (head : nm.Key × nm.Noder) (hhead : head.1.name = s) (tail : nm.Object)
    (htail : ∀ n ∈ names, n ∉ nm.Object.keyNames tail)
    (hs : s ∉ nm.Object.keyNames tail) :
    attachImports (head :: tail) names =
      (if s ∈ names then importChild s else head) ::
        (tail ++ (names.filter (fun n => n ≠ s)).map importChild) := by
  induction names generalizing head tail with
  | nil => simp [attachImports]
  | cons a rest ih =>
    have hnd' := List.nodup_cons.mp hnd
    have hstep : attachImports (head :: tail) (a :: rest) =
        attachImports (nm.Object.Set (head :: tail) (nm.NewKey a [])
          (nm.NewImport (a ++ ".libsonnet"))) rest := rfl
    rw [hstep]
    by_cases has : a = s
    · subst has
      have hset : nm.Object.Set (head :: tail) (nm.NewKey a [])
          (nm.NewImport (a ++ ".libsonnet")) = importChild a :: tail := by
        simp [nm.Object.Set, hhead, NewKey_nil_name, importChild]
      rw [hset, ih hnd'.2 (importChild a) rfl tail
        (fun n hn => htail n (List.mem_cons_of_mem _ hn)) hs]
      simp [hnd'.1]
    · have hne : ¬ head.1.name = a := fun e => has (e.symm.trans hhead)
      have hset : nm.Object.Set (head :: tail) (nm.NewKey a [])
          (nm.NewImport (a ++ ".libsonnet")) = head :: (tail ++ [importChild a]) := by
        have hfresh := Set_fresh tail (nm.NewKey a []) (nm.NewImport (a ++ ".libsonnet"))
          (by simpa [NewKey_nil_name] using htail a (by simp))
        simp only [nm.Object.Set, NewKey_nil_name, hne, if_false]
        rw [hfresh]
        rfl
      have hsa : ¬ s = a := fun e => has e.symm
      rw [hset, ih hnd'.2 head hhead (tail ++ [importChild a])]
      · simp [has, hsa]
      · intro n hn hmem
        have : n ∈ nm.Object.keyNames tail ∨ n = a := by
          simpa [nm.Object.keyNames, importChild, NewKey_nil_name] using hmem
        rcases this with h' | h'
        · exact htail n (List.mem_cons_of_mem _ hn) h'
        · exact hnd'.1 (h' ▸ hn)
      · intro hmem
        have : s ∈ nm.Object.keyNames tail ∨ s = a := by
          simpa [nm.Object.keyNames, importChild, NewKey_nil_name] using hmem
        rcases this with h' | h'
        · exact hs h'
        · exact hsa h'

theorem aggregate_children (c : Catalog) (meta : Metadata) (names : List String)
    (hnd : names.Nodup) :
    (attachImports (metadataRoot c meta) names).head?.map (fun kv => kv.1.name)
      = some "__ksonnet" ∧
    (attachImports (metadataRoot c meta) names).filter (fun kv => kv.1.name ≠ "__ksonnet")
      = (names.filter (fun n => n ≠ "__ksonnet")).map importChild := by
  have h := attachImports_slot "__ksonnet" names hnd
    (nm.InheritedKey "__ksonnet", .object (metadataBlock c meta)) rfl [] (by simp [nm.Object.keyNames])
    (by simp [nm.Object.keyNames])
  have h' : attachImports (metadataRoot c meta) names =
      (if "__ksonnet" ∈ names then importChild "__ksonnet"
        else (nm.InheritedKey "__ksonnet", .object (metadataBlock c meta))) ::
        (names.filter (fun n => n ≠ "__ksonnet")).map importChild := by
    simpa [metadataRoot] using h
  rw [h']
  constructor
  · by_cases hm : "__ksonnet" ∈ names
    · simp [hm, importChild, NewKey_nil_name]
    · simp [hm, nm.InheritedKey]
  · have hhead : (if "__ksonnet" ∈ names then importChild "__ksonnet"
        else (nm.InheritedKey "__ksonnet", nm.Noder.object (metadataBlock c meta))).1.name
          = "__ksonnet" := by
      by_cases hm : "__ksonnet" ∈ names
      · simp [hm, importChild, NewKey_nil_name]
      · simp [hm, nm.InheritedKey]
    rw [List.filter_cons]
    simp only [hhead, ne_eq, not_true_eq_false, decide_False, Bool.false_eq_true, if_false]
    apply List.filter_eq_self.mpr
    intro kv hkv
    obtain ⟨n, hn, rfl⟩ := List.mem_map.mp hkv
    have : n ≠ "__ksonnet" := by simpa using (List.mem_filter.mp hn).2
    simpa [importChild, NewKey_nil_name] using this

/-- C9: `mapKeys` returns, for every map, the keys in strictly ascending order: a
duplicate-free permutation of the key set that is the same for every iteration
order of the map.  In a successful call of `Nodes` the calls of `Set` on the
aggregate root are the one for the `__ksonnet` metadata block followed by the
imports, one per unit name, in this strictly ascending order, and the root
stored under `k8s` is the result of these calls.  The first child of the root is keyed
`__ksonnet`, and its children under other keys are the imports of the unit names
other than `__ksonnet` in ascending order; when no unit is named `__ksonnet` the
children are the metadata child followed by the imports in ascending order of
the unit names.  (The hypothesis says that the map returned by `renderGroups` is
a Go map: its keys are distinct.) -/
theorem Nodes_imports_ascending (d : Document) (meta : Metadata) (m : GoMap nm.Noder)
    (hwf : ∀ files, d.renderGroups d.toDocumentBase = (some files, none) → files.keys.Nodup)
    (h : Nodes d meta = .returned (some m) none) :
    (∀ files : GoMap nm.Noder, files.keys.Nodup →
      (mapKeys files).Pairwise strLT ∧ (mapKeys files).Perm files.keys ∧
      ∀ files' : GoMap nm.Noder, files'.Perm files → mapKeys files' = mapKeys files) ∧
    ∃ units : GoMap nm.Noder,
      m = units.set "k8s" (.object (attachImports (metadataRoot d.catalog meta) (mapKeys units))) ∧
      m.get "k8s" = some (.object (attachImports (metadataRoot d.catalog meta) (mapKeys units))) ∧
      (mapKeys units).Pairwise strLT ∧
      (mapKeys units).Perm units.keys ∧
      (∀ units' : GoMap nm.Noder, units'.Perm units → mapKeys units' = mapKeys units) ∧
      (nm.Object.keyNames (nm.Object.imports
        (attachImports (metadataRoot d.catalog meta) (mapKeys units)))).Perm (mapKeys units) ∧
      ("__ksonnet" ∉ units.keys →
        attachImports (metadataRoot d.catalog meta) (mapKeys units) =
          metadataRoot d.catalog meta ++ (mapKeys units).map importChild) ∧
      aggregateSetCalls d meta =
        (nm.InheritedKey "__ksonnet", .object (metadataBlock d.catalog meta)) ::
          (mapKeys units).map importChild ∧
      attachImports (metadataRoot d.catalog meta) (mapKeys units) =
        applySetCalls (aggregateSetCalls d meta) ∧
      (attachImports (metadataRoot d.catalog meta) (mapKeys units)).head?.map
          (fun kv => kv.1.name) = some "__ksonnet" ∧
      (attachImports (metadataRoot d.catalog meta) (mapKeys units)).filter
          (fun kv => kv.1.name ≠ "__ksonnet") =
        ((mapKeys units).filter (fun n => n ≠ "__ksonnet")).map importChild := by
  refine ⟨mapKeys_spec, ?_⟩
  obtain ⟨_, files, hidden, files', hfiles, hhidden, ha, hm⟩ := Nodes_success h
  obtain ⟨hk, _, _⟩ := attachHidden_some ha
  have hnd : files'.keys.Nodup := by
    rw [hk]
    exact GoMap.nodup_keys_set (hwf files hfiles) _ _
  obtain ⟨h1, h2, h3⟩ := mapKeys_spec files' hnd
  have hnames : (mapKeys files').Nodup := h2.nodup_iff.mpr hnd
  have hcalls := @aggregateSetCalls_success _ meta _ _ _ hfiles hhidden ha
  obtain ⟨hhead, hfilter⟩ := aggregate_children d.catalog meta (mapKeys files') hnames
  refine ⟨files', hm, ?_, h1, h2, h3, ?_, ?_, hcalls, ?_, hhead, hfilter⟩
  · rw [hm, GoMap.get_set]
    simp
  · exact imports_keyNames_perm (metadataRoot_keyNames_nodup _ _) (metadataRoot_no_import _ _)
      hnames
  · intro hfresh
    apply attachImports_fresh _ _ hnames
    intro n hn hmem
    have hn' : n ∈ files'.keys := (mem_mapKeys files' n).mp hn
    have : n = "__ksonnet" := by
      simpa [metadataRoot, nm.Object.keyNames, nm.InheritedKey] using hmem
    exact hfresh (this ▸ hn')
  · rw [hcalls, attachImports_eq_foldl]
    rfl

/-- Witness of C9 on the document of the four sample records. -/
theorem Nodes_imports_ascending_witness :
    (sampleUnits.get "k8s").map (fun n => rootKeys (some n)) =
      some (some [nm.InheritedKey "__ksonnet", nm.NewKey "" [], nm.NewKey "_hidden" [],
        nm.NewKey "a" [], nm.NewKey "b" []]) ∧
    (aggregateSetCalls (sampleDocument sampleRecords []) sampleMeta).map Prod.fst =
      [nm.InheritedKey "__ksonnet", nm.NewKey "" [], nm.NewKey "_hidden" [],
        nm.NewKey "a" [], nm.NewKey "b" []] ∧
    ∃ units : GoMap nm.Noder,
      sampleUnits = units.set "k8s" (.object (attachImports
        (metadataRoot (sampleDocument sampleRecords []).catalog sampleMeta) (mapKeys units))) ∧
      (mapKeys units).Pairwise strLT :=
  ⟨by decide, by decide,
   let ⟨units, h1, _, h3, _⟩ :=
     (Nodes_imports_ascending (sampleDocument sampleRecords []) sampleMeta sampleUnits
       (fun files hf =>
         renderGroups_keys_nodup (sampleDocument sampleRecords []).toDocumentBase files hf)
       sampleUnits_spec).2
   ⟨units, h1, h3⟩⟩

/-! ## The metadata block of the aggregate root -/

/-- C14 fails as stated: with a full-schema group named `k8s` the root stored under
the name of that group is the aggregate root, so the unit of a visible group
carries the `__ksonnet` block keyed by the catalog title. -/
theorem Nodes_metadata_counterexample :
    (groups (sampleDocument reservedRecords []).typesFn.1).1.map Group.Name = ["k8s"] ∧
    (unitRoot (Nodes (sampleDocument reservedRecords []) sampleMeta) "k8s").map
        (fun o => o.map Prod.fst)
      = some [nm.InheritedKey "__ksonnet", nm.NewKey "_hidden" [], nm.NewKey "k8s" []] ∧
    (unitRoot (Nodes (sampleDocument reservedRecords []) sampleMeta) "k8s").map
        (fun o => (nm.Object.child o "__ksonnet").map (fun kv => rootKeys (some kv.2)))
      = some (some (some [nm.NewKey (sampleCatalog reservedRecords []).title []])) := by
  decide

/-- C14, amended: in a successful call of `Nodes` the first call of `Set` on the
aggregate root attaches, under the inherited key `__ksonnet`, a block keyed by
the catalog title whose `version`, `checksum` and `maintainer` are those of the
catalog and whose `generator` holds the vendor and the version of the metadata
argument; the other calls attach imports, and the root stored under `k8s` is the
result of these calls.  When the map has no unit named `__ksonnet`, the root has
this block as its child under `__ksonnet`.  In the map of a production document
no unit stored under a name other than `k8s` has a child under an inherited
key. -/
theorem Nodes_metadata (d : Document) (meta : Metadata) (m : GoMap nm.Noder)
    (h : Nodes d meta = .returned (some m) none) :
    (∃ inner gen imports,
      aggregateSetCalls d meta =
        (nm.InheritedKey "__ksonnet",
          .object [(nm.NewKey d.catalog.title [], .object inner)]) :: imports ∧
      (∀ kv ∈ imports, kv.2.isImport = true) ∧
      m.get "k8s" = some (.object (applySetCalls (aggregateSetCalls d meta))) ∧
      nm.Object.child inner "version" =
        some (nm.NewKey "version" [], .stringDouble d.catalog.Version) ∧
      nm.Object.child inner "checksum" =
        some (nm.NewKey "checksum" [], .stringDouble d.catalog.Checksum) ∧
      nm.Object.child inner "maintainer" =
        some (nm.NewKey "maintainer" [], .stringDouble d.catalog.maintainer) ∧
      nm.Object.child inner "generator" = some (nm.NewKey "generator" [], .object gen) ∧
      nm.Object.child gen "vendor" = some (nm.NewKey "vendor" [], .stringDouble meta.Vendor) ∧
      nm.Object.child gen "version" =
        some (nm.NewKey "version" [], .stringDouble meta.Version)) ∧
    ("__ksonnet" ∉ m.keys →
      ∃ main inner gen, m.get "k8s" = some (.object main) ∧
        nm.Object.child main "__ksonnet" =
          some (nm.InheritedKey "__ksonnet",
            .object [(nm.NewKey d.catalog.title [], .object inner)]) ∧
        nm.Object.child inner "version" =
          some (nm.NewKey "version" [], .stringDouble d.catalog.Version) ∧
        nm.Object.child inner "checksum" =
          some (nm.NewKey "checksum" [], .stringDouble d.catalog.Checksum) ∧
        nm.Object.child inner "maintainer" =
          some (nm.NewKey "maintainer" [], .stringDouble d.catalog.maintainer) ∧
        nm.Object.child inner "generator" = some (nm.NewKey "generator" [], .object gen) ∧
        nm.Object.child gen "vendor" = some (nm.NewKey "vendor" [], .stringDouble meta.Vendor) ∧
        nm.Object.child gen "version" =
          some (nm.NewKey "version" [], .stringDouble meta.Version)) ∧
    (d.renderFn = render → d.renderGroups = renderGroups →
      d.renderHiddenGroups = renderHiddenGroups →
      ∀ k unit, k ≠ "k8s" → m.get k = some (.object unit) →
        ∀ kv ∈ unit, kv.1.category ≠ .inherited) := by
  obtain ⟨files, hidden, hfiles, hhidden, hgh, hgk, hnone, hsome⟩ := Nodes_units h
  refine ⟨?_, ?_, ?_⟩
  · obtain ⟨_, files₀, hidden₀, files', hf₀, hh₀, ha, hm⟩ := Nodes_success h
    have hcalls := @aggregateSetCalls_success _ meta _ _ _ hf₀ hh₀ ha
    refine ⟨metadataFields d.catalog meta,
      [(nm.NewKey "vendor" [], .stringDouble meta.Vendor),
       (nm.NewKey "version" [], .stringDouble meta.Version)],
      (mapKeys files').map importChild, hcalls, ?_, ?_, rfl, rfl, rfl, rfl, rfl, rfl⟩
    · intro kv hkv
      obtain ⟨n, _, rfl⟩ := List.mem_map.mp hkv
      rfl
    · rw [hm, GoMap.get_set, hcalls]
      simp only [if_true]
      rw [attachImports_eq_foldl]
      rfl
  · intro hfresh
    refine ⟨_, metadataFields d.catalog meta,
      [(nm.NewKey "vendor" [], .stringDouble meta.Vendor),
       (nm.NewKey "version" [], .stringDouble meta.Version)], hgk, ?_, ?_, ?_, ?_, ?_, ?_, ?_⟩
    · rw [child_attachImports, if_neg]
      · rfl
      · intro hmem
        apply hfresh
        have hmem' : "__ksonnet" ∈ (files.set "_hidden" (.object hidden)).keys :=
          (sortStrings_perm _).mem_iff.mp hmem
        rcases (GoMap.mem_keys_set _ _ _ _).mp hmem' with h' | h'
        · exact absurd h' (by decide)
        · obtain ⟨v, hv⟩ := GoMap.get_of_mem_keys h'
          obtain ⟨o, _, hget⟩ := hsome "__ksonnet" (by decide) (by decide) v hv
          exact GoMap.mem_keys_of_get hget
    · rfl
    · rfl
    · rfl
    · rfl
    · rfl
    · rfl
  · intro hr hg hh k unit hk hget kv hkv
    rw [hg] at hfiles
    rw [hh] at hhidden
    have hfield : ∀ o : nm.Object, (∀ kv ∈ o, kv.1.category = .field) →
        ∀ kv ∈ withHidden o, kv.1.category ≠ .inherited := by
      intro o ho
      apply withHidden_children (fun kv => kv.1.category ≠ .inherited) (by decide)
      intro kv hkv
      rw [ho kv hkv]
      decide
    by_cases hk' : k = "_hidden"
    · subst hk'
      rw [hgh] at hget
      cases hget
      apply hfield hidden _ kv hkv
      obtain ⟨_, hroot⟩ := renderHiddenGroups_root hhidden
      cases hroot
      intro kv hkv
      obtain ⟨g, _, rfl⟩ := List.mem_map.mp hkv
      rfl
    · cases hfk : files.get k with
      | none =>
        rw [hnone k hk hk' hfk] at hget
        cases hget
      | some v =>
        obtain ⟨o, ho, hget'⟩ := hsome k hk hk' v hfk
        rw [hget'] at hget
        cases hget
        subst ho
        apply hfield o _ kv hkv
        obtain ⟨_, _, hmem, hgroups⟩ := renderGroups_some hfiles
        obtain ⟨r, hrm, hrk⟩ := (hmem k).mp (GoMap.mem_keys_of_get hfk)
        obtain ⟨g, hgm, hgn⟩ := List.mem_map.mp
          ((mem_groups_names d.typesFn.1 k).mpr ⟨r, hrm, hrk⟩)
        obtain ⟨o', ho', hfo'⟩ := hgroups g hgm
        rw [hgn, hfk] at hfo'
        cases hfo'
        rw [hr] at ho'
        have ho1 : o = (render d.objectNodeFn d.catalog nm.NewObject g).1 := by rw [ho']
        rw [ho1]
        exact renderVersions_children (fun kv => kv.1.category = .field) _ _
          (fun _ _ => rfl) _ _ (by simp [nm.NewObject])

/-- Witness of C14 (amended) on the document of the four sample records. -/
theorem Nodes_metadata_witness :
    (∃ main inner gen, sampleUnits.get "k8s" = some (.object main) ∧
        nm.Object.child main "__ksonnet" =
          some (nm.InheritedKey "__ksonnet",
            .object [(nm.NewKey (sampleDocument sampleRecords []).catalog.title [],
              .object inner)]) ∧
        nm.Object.child inner "version" =
          some (nm.NewKey "version" [],
            .stringDouble (sampleDocument sampleRecords []).catalog.Version) ∧
        nm.Object.child inner "checksum" =
          some (nm.NewKey "checksum" [],
            .stringDouble (sampleDocument sampleRecords []).catalog.Checksum) ∧
        nm.Object.child inner "maintainer" =
          some (nm.NewKey "maintainer" [],
            .stringDouble (sampleDocument sampleRecords []).catalog.maintainer) ∧
        nm.Object.child inner "generator" = some (nm.NewKey "generator" [], .object gen) ∧
        nm.Object.child gen "vendor" =
          some (nm.NewKey "vendor" [], .stringDouble sampleMeta.Vendor) ∧
        nm.Object.child gen "version" =
          some (nm.NewKey "version" [], .stringDouble sampleMeta.Version)) :=
  (Nodes_metadata (sampleDocument sampleRecords []) sampleMeta sampleUnits sampleUnits_spec).2.1
    (by decide)

end Ksonnet
